import Mathlib

/-!
# Composition discovery engine of kubediscovery

A shallow embedding of `pkg/discovery/discovery.go` and `pkg/discovery/types.go`.

Conventions of the embedding:

* a Go slice is a `List`; `append(s, x)` is `s ++ [x]`;
* a Go `map[string]T` is the list of its key/value pairs (`GoMap T`).  A `range`
  over a map visits the pairs in an order the language leaves open, so a function
  that ranges over a map receives the visiting order as an argument;
* the package-level variables (`KindPluralMap`, `kindVersionMap`,
  `compositionMap`) and the store `cp.clusterCompositions` are passed explicitly,
  and a method that assigns to the store returns the new store;
* `strings.ToLower` is an argument `lower` of the functions that call it, so that
  the general theorems hold for the library function whatever it does outside
  ASCII; the concrete scenarios instantiate it with `ToLower`;
* the reply of the API server, decoded by `parseMetaData`, is an argument `api`
  of `buildCompositions`;
* `Level` is a Go `int`; it only ever counts the depth of a recursion, so it is
  an `Int` here;
* `parseMetaData` works on the value `json.Unmarshal` decoded (`JSONValue`); a
  one-valued type assertion that panics is the result `none`;
* `json.Marshal` is rendered with the encoding of a string as an argument `quote`;
* `url.Parse(s)` followed by `String()` is an argument `urlString` of
  `queryAPIServerRequest`, with `none` for a failed parse, which panics; the concrete
  scenarios instantiate it with `URLString`;
* `readKindCompositionFile` works on the list the schema file was parsed into;
* the calls of `cp.mux.Lock()` and the accesses to the table of a method are
  listed as `StoreEvent`s; the scheduling of goroutines is not modelled.
-/

namespace Discovery

/-! ## Data model (`types.go`) -/

/-- Go struct `MetaDataAndOwnerReferences`: what is kept of one object of a list reply. -/
structure MetaDataAndOwnerReferences where
  MetaDataName : String
  Status : String
  Namespace : String
  OwnerReferenceName : String
  OwnerReferenceKind : String
  OwnerReferenceAPIVersion : String
deriving DecidableEq, Repr

/-- Go struct `CompositionTreeNode`: one entry of the flat list built by
`buildCompositions`. -/
structure CompositionTreeNode where
  Level : Int
  ChildKind : String
  Children : List MetaDataAndOwnerReferences
deriving DecidableEq, Repr

/-- Go struct `Composition`: the nested tree that queries return. -/
inductive Composition where
  | mk (Level : Int) (Kind Name Namespace Status : String) (Children : List Composition)
deriving Repr

namespace Composition

/-- Field `Level`. -/
def Level : Composition → Int
  | mk l _ _ _ _ _ => l

/-- Field `Kind`. -/
def Kind : Composition → String
  | mk _ k _ _ _ _ => k

/-- Field `Name`. -/
def Name : Composition → String
  | mk _ _ n _ _ _ => n

/-- Field `Namespace`. -/
def Namespace : Composition → String
  | mk _ _ _ n _ _ => n

/-- Field `Status`. -/
def Status : Composition → String
  | mk _ _ _ _ s _ => s

/-- Field `Children`. -/
def Children : Composition → List Composition
  | mk _ _ _ _ _ c => c

end Composition

mutual
/-- Equality of two trees is decidable. -/
def Composition.decEq : (a b : Composition) → Decidable (a = b)
  | .mk l k n ns s c, .mk l2 k2 n2 ns2 s2 c2 =>
    if h1 : l = l2 ∧ k = k2 ∧ n = n2 ∧ ns = ns2 ∧ s = s2 then
      match Composition.decEqList c c2 with
      | isTrue h => isTrue (by obtain ⟨e1, e2, e3, e4, e5⟩ := h1; subst e1 e2 e3 e4 e5 h; rfl)
      | isFalse h => isFalse (by intro e; cases e; exact h rfl)
    else isFalse (by intro e; cases e; exact h1 ⟨rfl, rfl, rfl, rfl, rfl⟩)
/-- Equality of two lists of trees is decidable. -/
def Composition.decEqList : (a b : List Composition) → Decidable (a = b)
  | [], [] => isTrue rfl
  | [], _ :: _ => isFalse (by simp)
  | _ :: _, [] => isFalse (by simp)
  | a :: as, b :: bs =>
    match Composition.decEq a b with
    | isTrue h1 =>
      match Composition.decEqList as bs with
      | isTrue h2 => isTrue (by rw [h1, h2])
      | isFalse h2 => isFalse (by intro e; cases e; exact h2 rfl)
    | isFalse h1 => isFalse (by intro e; cases e; exact h1 rfl)
end

instance : DecidableEq Composition := Composition.decEq

/-- Go struct `Compositions`: one record of the store.  The Go field
`CompositionTree` points to a slice that `BuildCompositionTree` allocates for
this record alone and that nothing writes to after it is stored. -/
structure Compositions where
  Kind : String
  Name : String
  Namespace : String
  Status : String
  CompositionTree : List CompositionTreeNode
deriving DecidableEq, Repr

/-- A Go `map[string]T`, as the list of its key/value pairs. -/
abbrev GoMap (α : Type) := List (String × α)

/-- The map has each key once, as every Go map does. -/
def GoMap.WellFormed {α : Type} (m : GoMap α) : Prop := (m.map Prod.fst).Nodup

/-- Go `m[k]` in its two-valued form `v, present := m[k]`. -/
def GoMap.get? {α : Type} (m : GoMap α) (k : String) : Option α := m.lookup k

/-- Go `m[k]` for a map of strings: the zero value `""` when the key is absent. -/
def GoMap.get (m : GoMap String) (k : String) : String := (m.lookup k).getD ""

/-- The ASCII case mapping of `strings.ToLower`. -/
def ToLower (s : String) : String := ⟨s.data.map Char.toLower⟩

/-! ## The store: `storeCompositions`, `purgeCompositionOfDeletedItems` -/

/-- Go `storeCompositions` (discovery.go 363-395): the store after the call. -/
def storeCompositions (cp : List Compositions) (topLevelObject : MetaDataAndOwnerReferences)
    (resourceKind resourceName nspace : String)
    (compositionTree : List CompositionTreeNode) : List Compositions :=
  let compositions : Compositions :=
    ⟨resourceKind, resourceName, nspace, topLevelObject.Status, compositionTree⟩
  let st := cp.foldl (fun (st : Bool × List Compositions) comp =>
    if comp.Kind = compositions.Kind ∧ comp.Name = compositions.Name
        ∧ comp.Namespace = compositions.Namespace then
      (true, st.2 ++ [⟨comp.Kind, comp.Name, comp.Namespace, topLevelObject.Status,
        compositionTree⟩])
    else (st.1, st.2 ++ [comp])) (false, [])
  if st.1 then st.2 else st.2 ++ [compositions]

/-- Go `purgeCompositionOfDeletedItems` (discovery.go 344-359): the store after the call. -/
def purgeCompositionOfDeletedItems (cp : List Compositions)
    (topLevelMetaDataOwnerRefList : List MetaDataAndOwnerReferences) : List Compositions :=
  cp.foldl (fun presentList compositionItem =>
    topLevelMetaDataOwnerRefList.foldl (fun presentList topLevelObject =>
      if topLevelObject.MetaDataName = compositionItem.Name then
        presentList ++ [compositionItem]
      else presentList) presentList) []

/-! ## Rebuilding the nested tree: `processed`, `getComposition` -/

/-- Go `processed` (discovery.go 229-239). -/
def processed (processedList : List CompositionTreeNode) (nodeToCheck : CompositionTreeNode) :
    Bool :=
  processedList.foldl (fun result compositionTreeNode1 =>
    if compositionTreeNode1.Level = nodeToCheck.Level
        ∧ compositionTreeNode1.ChildKind = nodeToCheck.ChildKind then true
    else result) false

/-- The variables that the loops of `getComposition` assign to: the children
gathered so far, the local pointer `compositionTree`, and `*processedList`. -/
structure GetCompositionState where
  Children : List Composition
  compositionTree : List CompositionTreeNode
  processedList : List CompositionTreeNode

/-- Go `getComposition` (discovery.go 241-284) with a bound on the depth of the
recursion; the result is the returned tree with the final `*processedList`.
The outer loop ranges over the slice the call received, while the inner filter
reads the local pointer, which the loop body redirects to an empty slice.  Each
recursive call receives a strictly shorter slice, so a bound equal to the length
of the slice is never exhausted (`getCompositionFuel_stable`). -/
def getCompositionFuel : Nat → String → String → String → String → Int →
    List CompositionTreeNode → List CompositionTreeNode →
    Composition × List CompositionTreeNode
  | 0, kind, name, nspace, status, level, _, processedList =>
    (Composition.mk level kind name nspace status [], processedList)
  | fuel + 1, kind, name, nspace, status, level, compositionTree, processedList =>
    let st := compositionTree.foldl (fun (st : GetCompositionState) compositionTreeNode =>
      if processed st.processedList compositionTreeNode then st
      else
        compositionTreeNode.Children.foldl (fun (st : GetCompositionState) metaDataNode =>
          let trimmedTree := st.compositionTree.filter (fun compositionTreeNode1 =>
            compositionTreeNode1.Level != compositionTreeNode.Level
              && compositionTreeNode1.ChildKind != compositionTreeNode.ChildKind)
          let r := getCompositionFuel fuel compositionTreeNode.ChildKind
            metaDataNode.MetaDataName metaDataNode.Namespace metaDataNode.Status
            compositionTreeNode.Level trimmedTree (st.processedList ++ [compositionTreeNode])
          ⟨st.Children ++ [r.1], [], r.2⟩) st)
      ⟨[], compositionTree, processedList⟩
    (Composition.mk level kind name nspace status st.Children, st.processedList)

/-- The body of the inner loop of `getComposition` (discovery.go 264-281), with
the recursive call as the argument `call`. -/
def getCompositionInner
    (call : String → String → String → String → Int → List CompositionTreeNode →
      List CompositionTreeNode → Composition × List CompositionTreeNode)
    (compositionTreeNode : CompositionTreeNode) (st : GetCompositionState)
    (metaDataNode : MetaDataAndOwnerReferences) : GetCompositionState :=
  let trimmedTree := st.compositionTree.filter (fun compositionTreeNode1 =>
    compositionTreeNode1.Level != compositionTreeNode.Level
      && compositionTreeNode1.ChildKind != compositionTreeNode.ChildKind)
  let r := call compositionTreeNode.ChildKind
    metaDataNode.MetaDataName metaDataNode.Namespace metaDataNode.Status
    compositionTreeNode.Level trimmedTree (st.processedList ++ [compositionTreeNode])
  ⟨st.Children ++ [r.1], [], r.2⟩

/-- The body of the outer loop of `getComposition` (discovery.go 256-282), with
the recursive call as the argument `call`. -/
def getCompositionOuter
    (call : String → String → String → String → Int → List CompositionTreeNode →
      List CompositionTreeNode → Composition × List CompositionTreeNode)
    (st : GetCompositionState) (compositionTreeNode : CompositionTreeNode) :
    GetCompositionState :=
  if processed st.processedList compositionTreeNode then st
  else compositionTreeNode.Children.foldl (getCompositionInner call compositionTreeNode) st

/-- Go `getComposition`: the tree it returns and the final `*processedList`. -/
def getComposition (kind name nspace status : String) (level : Int)
    (compositionTree processedList : List CompositionTreeNode) :
    Composition × List CompositionTreeNode :=
  getCompositionFuel compositionTree.length kind name nspace status level
    compositionTree processedList

/-! ## Queries: `GetCompositions` -/

/-- The loop of `GetCompositions` over `KindPluralMap` (discovery.go 308-314): the
lower-cased key of the first visited entry whose value equals
`resourceKindPlural` ignoring case, and the zero value `""` when there is none.
`order` lists the entries of the map in the order the `range` visits them. -/
def kindOfPlural (lower : String → String) (order : GoMap String)
    (resourceKindPlural : String) : String :=
  match order.find? (fun kv => lower kv.2 == lower resourceKindPlural) with
  | some kv => lower kv.1
  | none => ""

/-- One iteration of the loop of `GetCompositions` over the store (discovery.go
297-334).  `order` is the order in which this iteration ranges over
`KindPluralMap`; `resourceKindPlural` is the value looked up before the loop. -/
def GetCompositionsStep (lower : String → String) (order : GoMap String)
    (resourceKindPlural resourceName nspace : String)
    (compositions : List Composition) (compositionItem : Compositions) : List Composition :=
  let kind := lower compositionItem.Kind
  let name := lower compositionItem.Name
  let nmspace := lower compositionItem.Namespace
  let status := compositionItem.Status
  let compositionTree := compositionItem.CompositionTree
  let resourceKindPlural := lower resourceKindPlural
  let resourceKind := kindOfPlural lower order resourceKindPlural
  let resourceName := lower resourceName
  if nspace ≠ nmspace then compositions
  else if resourceName = "*" ∧ resourceKind = kind ∧ nspace = nmspace then
    compositions ++ [(getComposition kind name nspace status 1 compositionTree []).1]
  else if resourceName = name ∧ resourceKind = kind ∧ nspace = nmspace then
    compositions ++ [(getComposition kind name nspace status 1 compositionTree []).1]
  else compositions

/-- The loop of `GetCompositions` from the record of index `i` on. -/
def GetCompositionsLoop (lower : String → String) (order : Nat → GoMap String)
    (resourceKindPlural resourceName nspace : String) :
    Nat → List Compositions → List Composition → List Composition
  | _, [], compositions => compositions
  | i, compositionItem :: rest, compositions =>
    GetCompositionsLoop lower order resourceKindPlural resourceName nspace (i + 1) rest
      (GetCompositionsStep lower (order i) resourceKindPlural resourceName nspace
        compositions compositionItem)

/-- Go `GetCompositions` (discovery.go 286-342): the slice `compositions` that is
marshalled into the reply.  `order i` is the order in which the iteration for
the record of index `i` ranges over `KindPluralMap`. -/
def GetCompositions (lower : String → String) (KindPluralMap : GoMap String)
    (order : Nat → GoMap String) (cp : List Compositions)
    (resourceKind resourceName nspace : String) : List Composition :=
  GetCompositionsLoop lower order (KindPluralMap.get resourceKind) resourceName nspace
    0 cp []

/-- The tree `GetCompositions` appends for a record of the store that matches the
query (discovery.go 322-325 and 328-331). -/
def recordTree (lower : String → String) (nspace : String) (item : Compositions) :
    Composition :=
  (getComposition (lower item.Kind) (lower item.Name) nspace item.Status 1
    item.CompositionTree []).1

/-! ## Building the flat list: `filterChildren`, `buildCompositions` -/

/-- Go `filterChildren` (discovery.go 606-623). -/
def filterChildren (metaDataSlice : List MetaDataAndOwnerReferences)
    (parentResourceName : String) : List MetaDataAndOwnerReferences :=
  metaDataSlice.foldl (fun metaDataSliceToReturn metaDataRef =>
    if metaDataRef.OwnerReferenceName = parentResourceName then
      let present := metaDataSliceToReturn.foldl (fun present node =>
        if node.MetaDataName = metaDataRef.MetaDataName then true else present) false
      if !present then metaDataSliceToReturn ++ [metaDataRef] else metaDataSliceToReturn
    else metaDataSliceToReturn) []

/-- Go `buildCompositions` (discovery.go 397-429): the flat list `*compositionTree`
after the call.  `api v p ns` is `parseMetaData(queryAPIServer(v, p, ns))`, the
decoded list of the objects of plural name `p` in namespace `ns`.  The Go
function has no bound on its recursion; here the first argument bounds the
depth, and `none` says the bound was reached. -/
def buildCompositions (KindPluralMap kindVersionMap : GoMap String)
    (compositionMap : GoMap (List String))
    (api : String → String → String → List MetaDataAndOwnerReferences) :
    Nat → String → String → String → Int → List CompositionTreeNode →
    Option (List CompositionTreeNode)
  | 0, _, _, _, _, _ => none
  | fuel + 1, parentResourceKind, parentResourceName, parentNamespace, level,
      compositionTree =>
    match compositionMap.get? parentResourceKind with
    | some childResourceKindList =>
      let level := level + 1
      childResourceKindList.foldlM (fun compositionTree childResourceKind =>
        let childKindPlural := KindPluralMap.get childResourceKind
        let childResourceApiVersion := kindVersionMap.get childResourceKind
        let metaDataAndOwnerReferenceList :=
          api childResourceApiVersion childKindPlural parentNamespace
        let childrenList := filterChildren metaDataAndOwnerReferenceList parentResourceName
        let compTreeNode : CompositionTreeNode := ⟨level, childResourceKind, childrenList⟩
        childrenList.foldlM (fun compositionTree metaDataRef =>
          buildCompositions KindPluralMap kindVersionMap compositionMap api fuel
            childResourceKind metaDataRef.MetaDataName parentNamespace level compositionTree)
          (compositionTree ++ [compTreeNode])) compositionTree
    | none => some compositionTree

/-- Go `buildCompositions` with a record of the recursion path: `path` lists the
(kind, name) identities of the calls that are open, and the flag carried beside
the flat list becomes `true` when a recursive call is made for an identity that
is open on the path.  Dropping the path and the flag gives `buildCompositions`
(`buildCompositionsOpen_erase`). -/
def buildCompositionsOpen (KindPluralMap kindVersionMap : GoMap String)
    (compositionMap : GoMap (List String))
    (api : String → String → String → List MetaDataAndOwnerReferences) :
    Nat → List (String × String) → String → String → String → Int →
    List CompositionTreeNode × Bool → Option (List CompositionTreeNode × Bool)
  | 0, _, _, _, _, _, _ => none
  | fuel + 1, path, parentResourceKind, parentResourceName, parentNamespace, level, st =>
    match compositionMap.get? parentResourceKind with
    | some childResourceKindList =>
      let level := level + 1
      childResourceKindList.foldlM (fun st childResourceKind =>
        let childKindPlural := KindPluralMap.get childResourceKind
        let childResourceApiVersion := kindVersionMap.get childResourceKind
        let metaDataAndOwnerReferenceList :=
          api childResourceApiVersion childKindPlural parentNamespace
        let childrenList := filterChildren metaDataAndOwnerReferenceList parentResourceName
        let compTreeNode : CompositionTreeNode := ⟨level, childResourceKind, childrenList⟩
        childrenList.foldlM (fun st metaDataRef =>
          buildCompositionsOpen KindPluralMap kindVersionMap compositionMap api fuel
            ((parentResourceKind, parentResourceName) :: path)
            childResourceKind metaDataRef.MetaDataName parentNamespace level
            (st.1, st.2 || decide ((childResourceKind, metaDataRef.MetaDataName) ∈
              (parentResourceKind, parentResourceName) :: path)))
          (st.1 ++ [compTreeNode], st.2)) st
    | none => some st

/-! ## Decoding a list reply: `parseMetaData` -/

/-- What `json.Unmarshal` stores in an `interface{}`: `nil`, a `bool`, a `float64`,
a `string`, a `[]interface{}` or a `map[string]interface{}`.  A decoded number
is a finite `float64`; it is kept as the rational it denotes, on which the
comparisons `>` and `==` of the code agree with those of `float64`.  An object
lists its entries in the order in which the `range` over the map visits them. -/
inductive JSONValue where
  | null
  | bool (b : Bool)
  | number (x : ℚ)
  | string (s : String)
  | array (xs : List JSONValue)
  | object (kvs : List (String × JSONValue))

/-- Go `v.(map[string]interface{})`; `none` is the run-time panic. -/
def JSONValue.asObject : JSONValue → Option (List (String × JSONValue))
  | JSONValue.object kvs => some kvs
  | _ => none

/-- Go `v.([]interface{})`; `none` is the run-time panic. -/
def JSONValue.asArray : JSONValue → Option (List JSONValue)
  | JSONValue.array xs => some xs
  | _ => none

/-- Go `v.(string)`; `none` is the run-time panic. -/
def JSONValue.asString : JSONValue → Option String
  | JSONValue.string s => some s
  | _ => none

/-- Go `v.(float64)`; `none` is the run-time panic. -/
def JSONValue.asNumber : JSONValue → Option ℚ
  | JSONValue.number x => some x
  | _ => none

/-- The body of the loop of `parseMetaData` over the keys of one owner reference
(discovery.go 542-553). -/
def parseOwnerReferenceKey (ref : MetaDataAndOwnerReferences) (kv : String × JSONValue) :
    Option MetaDataAndOwnerReferences :=
  (if kv.1 = "name" then
      kv.2.asString.map (fun s => (⟨ref.MetaDataName, ref.Status, ref.Namespace, s,
        ref.OwnerReferenceKind, ref.OwnerReferenceAPIVersion⟩ : MetaDataAndOwnerReferences))
    else some ref).bind fun ref =>
  (if kv.1 = "kind" then
      kv.2.asString.map (fun s => (⟨ref.MetaDataName, ref.Status, ref.Namespace,
        ref.OwnerReferenceName, s, ref.OwnerReferenceAPIVersion⟩ : MetaDataAndOwnerReferences))
    else some ref).bind fun ref =>
  if kv.1 = "apiVersion" then
    kv.2.asString.map (fun s => (⟨ref.MetaDataName, ref.Status, ref.Namespace,
      ref.OwnerReferenceName, ref.OwnerReferenceKind, s⟩ : MetaDataAndOwnerReferences))
  else some ref

/-- The body of the loop of `parseMetaData` over the list `ownerReferences`
(discovery.go 540-554). -/
def parseOwnerReference (ref : MetaDataAndOwnerReferences) (ownerReference : JSONValue) :
    Option MetaDataAndOwnerReferences :=
  ownerReference.asObject.bind fun ownerReferenceMap =>
  ownerReferenceMap.foldlM parseOwnerReferenceKey ref

/-- The body of the loop of `parseMetaData` over the keys of the `metadata` object
(discovery.go 536-562). -/
def parseMetadataKey (ref : MetaDataAndOwnerReferences) (kv : String × JSONValue) :
    Option MetaDataAndOwnerReferences :=
  (if kv.1 = "ownerReferences" then
      kv.2.asArray.bind fun ownerReferencesList =>
      ownerReferencesList.foldlM parseOwnerReference ref
    else some ref).bind fun ref =>
  (if kv.1 = "namespace" then
      kv.2.asString.map (fun s => (⟨ref.MetaDataName, ref.Status, s, ref.OwnerReferenceName,
        ref.OwnerReferenceKind, ref.OwnerReferenceAPIVersion⟩ : MetaDataAndOwnerReferences))
    else some ref).bind fun ref =>
  if kv.1 = "name" then
    kv.2.asString.map (fun s => (⟨s, ref.Status, ref.Namespace, ref.OwnerReferenceName,
      ref.OwnerReferenceKind, ref.OwnerReferenceAPIVersion⟩ : MetaDataAndOwnerReferences))
  else some ref

/-- The variables that the loop over the keys of the `status` object assigns to. -/
structure StatusState where
  Status : String
  replicas : ℚ
  readyReplicas : ℚ
  availableReplicas : ℚ

/-- The body of the loop of `parseMetaData` over the keys of the `status` object
(discovery.go 568-582). -/
def parseStatusKey (st : StatusState) (kv : String × JSONValue) : Option StatusState :=
  (if kv.1 = "phase" then
      kv.2.asString.map (fun s => (⟨s, st.replicas, st.readyReplicas,
        st.availableReplicas⟩ : StatusState))
    else some st).bind fun st =>
  (if kv.1 = "replicas" then
      kv.2.asNumber.map (fun x => (⟨st.Status, x, st.readyReplicas,
        st.availableReplicas⟩ : StatusState))
    else some st).bind fun st =>
  (if kv.1 = "readyReplicas" then
      kv.2.asNumber.map (fun x => (⟨st.Status, st.replicas, x,
        st.availableReplicas⟩ : StatusState))
    else some st).bind fun st =>
  if kv.1 = "availableReplicas" then
    kv.2.asNumber.map (fun x => (⟨st.Status, st.replicas, st.readyReplicas, x⟩ : StatusState))
  else some st

/-- The handling of the key `status` in `parseMetaData` (discovery.go 565-590): the
field `metaDataRef.Status` after it, given the field before it. -/
def parseStatusMap (status : String) (statusMap : List (String × JSONValue)) : Option String :=
  (statusMap.foldlM parseStatusKey ⟨status, 0, 0, 0⟩).map fun st =>
  if st.replicas > 0 then
    if st.replicas = st.availableReplicas ∧ st.replicas = st.readyReplicas then "Ready"
    else st.Status
  else st.Status

/-- The variables that the loop over the keys of one item assigns to. -/
structure ItemState where
  metaDataRef : MetaDataAndOwnerReferences
  metadataProcessed : Bool
  statusProcessed : Bool
  metaDataSlice : List MetaDataAndOwnerReferences

/-- The body of the loop of `parseMetaData` over the keys of one item
(discovery.go 531-598). -/
def parseItemKey (statusKeyExists : Bool) (st : ItemState) (kv : String × JSONValue) :
    Option ItemState :=
  (if kv.1 = "metadata" then
      kv.2.asObject.bind fun metadataMap =>
      (metadataMap.foldlM parseMetadataKey st.metaDataRef).map fun ref =>
      (⟨ref, true, st.statusProcessed, st.metaDataSlice⟩ : ItemState)
    else some st).bind fun st =>
  (if kv.1 = "status" then
      kv.2.asObject.bind fun statusMap =>
      (parseStatusMap st.metaDataRef.Status statusMap).map fun status =>
      (⟨⟨st.metaDataRef.MetaDataName, status, st.metaDataRef.Namespace,
        st.metaDataRef.OwnerReferenceName, st.metaDataRef.OwnerReferenceKind,
        st.metaDataRef.OwnerReferenceAPIVersion⟩, st.metadataProcessed, true,
        st.metaDataSlice⟩ : ItemState)
    else some st).map fun st =>
  if statusKeyExists then
    if st.metadataProcessed && st.statusProcessed then
      ⟨st.metaDataRef, st.metadataProcessed, st.statusProcessed,
        st.metaDataSlice ++ [st.metaDataRef]⟩
    else st
  else if st.metadataProcessed then
    ⟨st.metaDataRef, st.metadataProcessed, st.statusProcessed,
      st.metaDataSlice ++ [st.metaDataRef]⟩
  else st

/-- The body of the loop of `parseMetaData` over the items (discovery.go 520-599):
`metaDataSlice` after the item.  The first loop over the keys only records
whether one of them is `status`, which does not depend on the visiting order. -/
def parseItem (item : JSONValue) (metaDataSlice : List MetaDataAndOwnerReferences) :
    Option (List MetaDataAndOwnerReferences) :=
  item.asObject.bind fun itemConverted =>
  let statusKeyExists := itemConverted.foldl (fun statusKeyExists kv =>
    if kv.1 = "status" then true else statusKeyExists) false
  (itemConverted.foldlM (parseItemKey statusKeyExists)
    ⟨⟨"", "", "", "", "", ""⟩, false, false, metaDataSlice⟩).map fun st =>
  st.metaDataSlice

/-- Go `parseMetaData` (discovery.go 507-604) on the decoded body `result` (the empty
map when the body is not a JSON object); `none` is a run-time panic of a type
assertion. -/
def parseMetaData (result : List (String × JSONValue)) :
    Option (List MetaDataAndOwnerReferences) :=
  match result.lookup "items" with
  | some (JSONValue.array items) =>
    items.foldlM (fun metaDataSlice item => parseItem item metaDataSlice) []
  | _ => some []

/-- The status that the claim on status derivation gives to an item whose `status`
object is `statusMap`: "Ready" when `replicas`, `readyReplicas` and
`availableReplicas` are equal and greater than zero, and otherwise the raw
`phase`, empty when there is none.  An absent count is zero. -/
def derivedStatus (statusMap : List (String × JSONValue)) : String :=
  let count := fun (key : String) => ((statusMap.lookup key).bind JSONValue.asNumber).getD 0
  if 0 < count "replicas" ∧ count "replicas" = count "readyReplicas"
      ∧ count "replicas" = count "availableReplicas" then "Ready"
  else ((statusMap.lookup "phase").bind JSONValue.asString).getD ""

/-- The `status` object of an instance that reports `replicas=3`,
`readyReplicas=3`, `availableReplicas=3` and the raw phase "Pending". -/
def readyStatus : List (String × JSONValue) :=
  [("phase", JSONValue.string "Pending"), ("replicas", JSONValue.number 3),
   ("readyReplicas", JSONValue.number 3), ("availableReplicas", JSONValue.number 3)]

/-- An item of a list reply whose keys are visited in the order `kind`, `status`,
`metadata`, `spec`; its `status` object is `readyStatus`. -/
def readyItem : List (String × JSONValue) :=
  [("kind", JSONValue.string "Deployment"),
   ("status", JSONValue.object readyStatus),
   ("metadata", JSONValue.object
      [("name", JSONValue.string "web"), ("namespace", JSONValue.string "default")]),
   ("spec", JSONValue.null)]

/-! ## The baseline schema set by `init` (discovery.go 79-105) -/

/-- The entries `init` writes to `KindPluralMap`. -/
def baselineKindPluralMap : GoMap String :=
  [("Deployment", "deployments"), ("ReplicaSet", "replicasets"), ("Pod", "pods"),
   ("Service", "services"), ("Secret", "secrets"),
   ("PersistentVolumeClaim", "persistentvolumeclaims"),
   ("PersistentVolume", "persistentvolumes")]

/-- The entries `init` writes to `kindVersionMap`. -/
def baselineKindVersionMap : GoMap String :=
  [("Deployment", "apis/apps/v1"), ("ReplicaSet", "apis/extensions/v1beta1"),
   ("Pod", "api/v1"), ("Service", "api/v1"), ("Secret", "api/v1"),
   ("PersistentVolumeClaim", "api/v1"), ("PersistentVolume", "api/v1/persistentvolumes")]

/-- The entries `init` writes to `compositionMap`. -/
def baselineCompositionMap : GoMap (List String) :=
  [("Deployment", ["ReplicaSet"]), ("ReplicaSet", ["Pod"]), ("Pod", []), ("Service", []),
   ("Secret", []), ("PersistentVolumeClaim", []), ("PersistentVolume", [])]

/-- A ranking of the kinds that decreases along the child-kind edges of the
baseline schema. -/
def baselineRank (kind : String) : Nat :=
  if kind = "Deployment" then 2 else if kind = "ReplicaSet" then 1 else 0

/-! ## Cluster listings of the scenarios -/

/-- An instance named `name`, in namespace "default", owned by `owner`. -/
def ownedBy (name status owner : String) : MetaDataAndOwnerReferences :=
  ⟨name, status, "default", owner, "", ""⟩

/-- The listing of the Deployment scenario: in namespace "default", ReplicaSet
"web-abc123" is owned by "web", and the Pods "web-abc123-x1" and "web-abc123-x2"
are owned by "web-abc123". -/
def webCluster : String → String → String → List MetaDataAndOwnerReferences
  | "apis/extensions/v1beta1", "replicasets", "default" => [ownedBy "web-abc123" "Ready" "web"]
  | "api/v1", "pods", "default" =>
    [ownedBy "web-abc123-x1" "Running" "web-abc123",
     ownedBy "web-abc123-x2" "Running" "web-abc123"]
  | _, _, _ => []

/-- A listing with two ReplicaSets of one Deployment: in namespace "default",
ReplicaSets "rs1" and "rs2" are owned by "web", Pod "p1" is owned by "rs1" and
Pod "p2" by "rs2". -/
def twoReplicaSetsCluster : String → String → String → List MetaDataAndOwnerReferences
  | "apis/extensions/v1beta1", "replicasets", "default" =>
    [ownedBy "rs1" "Ready" "web", ownedBy "rs2" "Ready" "web"]
  | "api/v1", "pods", "default" => [ownedBy "p1" "Running" "rs1", ownedBy "p2" "Running" "rs2"]
  | _, _, _ => []

/-- A listing with two ReplicaSets of which only the second has a Pod: in
namespace "default", ReplicaSets "rs1" and "rs2" are owned by "web" and Pod "p2"
is owned by "rs2". -/
def idleReplicaSetCluster : String → String → String → List MetaDataAndOwnerReferences
  | "apis/extensions/v1beta1", "replicasets", "default" =>
    [ownedBy "rs1" "Ready" "web", ownedBy "rs2" "Ready" "web"]
  | "api/v1", "pods", "default" => [ownedBy "p2" "Running" "rs2"]
  | _, _, _ => []

/-! ## A schema with a cycle -/

/-- `KindPluralMap` of a schema with the kinds KindA and KindB. -/
def cyclicKindPluralMap : GoMap String := [("KindA", "kindas"), ("KindB", "kindbs")]

/-- `kindVersionMap` of a schema with the kinds KindA and KindB. -/
def cyclicKindVersionMap : GoMap String :=
  [("KindA", "apis/example.com/v1"), ("KindB", "apis/example.com/v1")]

/-- `compositionMap` in which KindA lists KindB as a child and KindB lists KindA. -/
def cyclicCompositionMap : GoMap (List String) := [("KindA", ["KindB"]), ("KindB", ["KindA"])]

/-- A listing in which the KindA instance "a" is owned by "b" and the KindB
instance "b" is owned by "a". -/
def cyclicCluster : String → String → String → List MetaDataAndOwnerReferences
  | "apis/example.com/v1", "kindas", "default" => [ownedBy "a" "" "b"]
  | "apis/example.com/v1", "kindbs", "default" => [ownedBy "b" "" "a"]
  | _, _, _ => []

/-! ## Reachable stores -/

/-- The identity of a record of the store. -/
def Compositions.identity (c : Compositions) : String × String × String :=
  (c.Kind, c.Name, c.Namespace)

/-- The stores that `storeCompositions` and `purgeCompositionOfDeletedItems` produce
from the empty store when every purge receives, as it does from
`BuildCompositionTree` (discovery.go 130-140), a list without two instances of
the same name. -/
inductive Reachable : List Compositions → Prop
  | empty : Reachable []
  | store (cp : List Compositions) (topLevelObject : MetaDataAndOwnerReferences)
      (resourceKind resourceName nspace : String)
      (compositionTree : List CompositionTreeNode) :
      Reachable cp →
      Reachable (storeCompositions cp topLevelObject resourceKind resourceName nspace
        compositionTree)
  | purge (cp : List Compositions) (observed : List MetaDataAndOwnerReferences) :
      Reachable cp → (observed.map (fun o => o.MetaDataName)).Nodup →
      Reachable (purgeCompositionOfDeletedItems cp observed)

/-- The list that keeps, of the instances of `l`, only the first one for each
MetaDataName that is not in `seen`: the words "keeping only the first instance
for each MetaDataName" of the claim on `filterChildren`. -/
def firstPerName (seen : List String) :
    List MetaDataAndOwnerReferences → List MetaDataAndOwnerReferences
  | [] => []
  | x :: xs =>
    if x.MetaDataName ∈ seen then firstPerName seen xs
    else x :: firstPerName (seen ++ [x.MetaDataName]) xs

/-! ## The reply of `GetCompositions` as a string -/

mutual
/-- The text `json.Marshal` produces for a `Composition` (discovery.go 336): an object
with the fields in the order of the struct.  `quote` is the encoding of a Go
string as a JSON string. -/
def marshalComposition (quote : String → String) : Composition → String
  | .mk level kind name nspace status children =>
    "\x7b\"Level\":" ++ toString level ++ ",\"Kind\":" ++ quote kind
      ++ ",\"Name\":" ++ quote name ++ ",\"Namespace\":" ++ quote nspace
      ++ ",\"Status\":" ++ quote status
      ++ ",\"Children\":[" ++ marshalCompositionElems quote children ++ "]\x7d"
/-- The elements of a slice of `Composition`, separated by commas. -/
def marshalCompositionElems (quote : String → String) : List Composition → String
  | [] => ""
  | c :: cs =>
    match cs with
    | [] => marshalComposition quote c
    | _ :: _ => marshalComposition quote c ++ "," ++ marshalCompositionElems quote cs
end

/-- Go `GetCompositions` (discovery.go 286-342): the string it returns, the JSON text
of the slice `compositions`, which is never `nil`. -/
def GetCompositionsJSON (lower quote : String → String) (KindPluralMap : GoMap String)
    (order : Nat → GoMap String) (cp : List Compositions)
    (resourceKind resourceName nspace : String) : String :=
  "[" ++ marshalCompositionElems quote
    (GetCompositions lower KindPluralMap order cp resourceKind resourceName nspace) ++ "]"

/-! ## Loading the schema: `readKindCompositionFile`, `getResourceKinds` -/

/-- Go struct `composition` (types.go): one entry of the schema file. -/
structure composition where
  Kind : String
  Plural : String
  Endpoint : String
  Composition : List String
deriving DecidableEq, Repr

/-- Go `m[k] = v`: the entry of the key `k` is overwritten, or added when `k` is not
a key. -/
def GoMap.set {α : Type} (m : GoMap α) (k : String) (v : α) : GoMap α :=
  match m with
  | [] => [(k, v)]
  | (k1, v1) :: rest => if k1 = k then (k, v) :: rest else (k1, v1) :: GoMap.set rest k v

/-- The package-level maps `KindPluralMap`, `kindVersionMap` and `compositionMap`. -/
structure Schema where
  KindPluralMap : GoMap String
  kindVersionMap : GoMap String
  compositionMap : GoMap (List String)

/-- Go `readKindCompositionFile` (discovery.go 163-211) when the file named by
`KIND_COMPOSITION_FILE` was read and parsed into `compositionsList`: the three
maps after the loop of lines 177-187. -/
def readKindCompositionFile (schema : Schema) (compositionsList : List composition) : Schema :=
  compositionsList.foldl (fun (s : Schema) compositionObj =>
    let kind := compositionObj.Kind
    let endpoint := compositionObj.Endpoint
    let composition := compositionObj.Composition
    let plural := compositionObj.Plural
    ⟨s.KindPluralMap.set kind plural, s.kindVersionMap.set kind endpoint,
      s.compositionMap.set kind composition⟩) schema

/-- Go `getResourceKinds` (discovery.go 213-219); `order` lists the entries of
`compositionMap` in the order in which the `range` visits them. -/
def getResourceKinds (order : GoMap (List String)) : List String :=
  order.foldl (fun resourceKindSlice kv => resourceKindSlice ++ [kv.1]) []

/-- The three maps as `init` leaves them when no schema file is configured. -/
def baselineSchema : Schema :=
  ⟨baselineKindPluralMap, baselineKindVersionMap, baselineCompositionMap⟩

/-- The last entry of a schema list for the kind `k`. -/
def lastEntry (compositionsList : List composition) (k : String) : Option composition :=
  compositionsList.reverse.find? (fun c => c.Kind == k)

/-! ## A schema in which a kind is reached along two paths -/

/-- `KindPluralMap` of the baseline schema with the custom kind Moodle. -/
def moodleKindPluralMap : GoMap String := baselineKindPluralMap ++ [("Moodle", "moodles")]

/-- `kindVersionMap` of the baseline schema with the custom kind Moodle. -/
def moodleKindVersionMap : GoMap String :=
  baselineKindVersionMap ++ [("Moodle", "apis/moodlecontroller/v1")]

/-- `compositionMap` of the baseline schema with the custom kind Moodle, whose child
kinds are Pod and ReplicaSet; the child-kind graph has no cycle. -/
def moodleCompositionMap : GoMap (List String) :=
  baselineCompositionMap ++ [("Moodle", ["Pod", "ReplicaSet"])]

/-- A listing in which, in namespace "default", the Moodle instance "m1" owns the
Pod "p0" and the ReplicaSet "rs1", and "rs1" owns the Pod "p1". -/
def moodleCluster : String → String → String → List MetaDataAndOwnerReferences
  | "apis/extensions/v1beta1", "replicasets", "default" => [ownedBy "rs1" "Ready" "m1"]
  | "api/v1", "pods", "default" => [ownedBy "p0" "Running" "m1", ownedBy "p1" "Running" "rs1"]
  | _, _, _ => []

/-! ## The mutex of the store -/

/-- What a method of `ClusterCompositions` does, in order, to the mutex `cp.mux` and
to the table `cp.clusterCompositions`. -/
inductive StoreEvent where
  | lock
  | unlock
  | read
  | write
deriving DecidableEq, Repr

/-- The events of Go `storeCompositions` (discovery.go 363-395): `cp.mux.Lock()`, the
`range` over the table, one assignment `cp.clusterCompositions[i] = *p` for every
record with the identity, the `append` to the table when there is none, and the
deferred `cp.mux.Unlock()`. -/
def storeCompositionsEvents (cp : List Compositions) (resourceKind resourceName nspace : String) :
    List StoreEvent :=
  [StoreEvent.lock, StoreEvent.read]
    ++ cp.flatMap (fun comp =>
      if comp.Kind = resourceKind ∧ comp.Name = resourceName ∧ comp.Namespace = nspace then
        [StoreEvent.write] else [])
    ++ (if cp.any (fun comp => decide (comp.Kind = resourceKind ∧ comp.Name = resourceName
          ∧ comp.Namespace = nspace)) then []
        else [StoreEvent.read, StoreEvent.write])
    ++ [StoreEvent.unlock]

/-- The events of Go `GetCompositions` (discovery.go 286-342): `cp.mux.Lock()`, the
`len` and the `range` of the table, and the deferred `cp.mux.Unlock()`. -/
def GetCompositionsEvents : List StoreEvent :=
  [StoreEvent.lock, StoreEvent.read, StoreEvent.read, StoreEvent.unlock]

/-- The events of Go `purgeCompositionOfDeletedItems` (discovery.go 344-359): the
`range` over the table and the assignment `cp.clusterCompositions = presentList`;
the method has no call of `cp.mux.Lock()`. -/
def purgeCompositionOfDeletedItemsEvents : List StoreEvent :=
  [StoreEvent.read, StoreEvent.write]

/-- Every read and write of the table happens while the mutex is held; `held` says
whether it is held at the start. -/
def lockHeld : Bool → List StoreEvent → Bool
  | _, [] => true
  | _, StoreEvent.lock :: es => lockHeld true es
  | _, StoreEvent.unlock :: es => lockHeld false es
  | held, StoreEvent.read :: es => held && lockHeld held es
  | held, StoreEvent.write :: es => held && lockHeld held es

/-! ## The expected shape of a list reply -/

/-- An entry of an owner reference is in the expected shape: `name`, `kind` and
`apiVersion` are strings. -/
def wellFormedOwnerReferenceKey (kv : String × JSONValue) : Bool :=
  (if kv.1 = "name" then kv.2.asString.isSome else true) &&
  (if kv.1 = "kind" then kv.2.asString.isSome else true) &&
  (if kv.1 = "apiVersion" then kv.2.asString.isSome else true)

/-- An element of `ownerReferences` is in the expected shape: an object whose
entries are. -/
def wellFormedOwnerReference (ownerReference : JSONValue) : Bool :=
  match ownerReference.asObject with
  | some ownerReferenceMap => ownerReferenceMap.all wellFormedOwnerReferenceKey
  | none => false

/-- An entry of the `metadata` object is in the expected shape: `ownerReferences` is
a list of owner references in the expected shape, `namespace` and `name` are
strings. -/
def wellFormedMetadataKey (kv : String × JSONValue) : Bool :=
  (if kv.1 = "ownerReferences" then
      match kv.2.asArray with
      | some ownerReferencesList => ownerReferencesList.all wellFormedOwnerReference
      | none => false
    else true) &&
  (if kv.1 = "namespace" then kv.2.asString.isSome else true) &&
  (if kv.1 = "name" then kv.2.asString.isSome else true)

/-- An entry of the `status` object is in the expected shape: `phase` is a string,
`replicas`, `readyReplicas` and `availableReplicas` are numbers. -/
def wellFormedStatusKey (kv : String × JSONValue) : Bool :=
  (if kv.1 = "phase" then kv.2.asString.isSome else true) &&
  (if kv.1 = "replicas" then kv.2.asNumber.isSome else true) &&
  (if kv.1 = "readyReplicas" then kv.2.asNumber.isSome else true) &&
  (if kv.1 = "availableReplicas" then kv.2.asNumber.isSome else true)

/-- An entry of an item is in the expected shape: `metadata` and `status` are
objects whose entries are. -/
def wellFormedItemKey (kv : String × JSONValue) : Bool :=
  (if kv.1 = "metadata" then
      match kv.2.asObject with
      | some metadataMap => metadataMap.all wellFormedMetadataKey
      | none => false
    else true) &&
  (if kv.1 = "status" then
      match kv.2.asObject with
      | some statusMap => statusMap.all wellFormedStatusKey
      | none => false
    else true)

/-- An item of a list reply is in the expected shape: an object whose entries are. -/
def wellFormedItem (item : JSONValue) : Bool :=
  match item.asObject with
  | some itemConverted => itemConverted.all wellFormedItemKey
  | none => false

/-- An item whose `metadata` has the name "web", the namespace "default" and two
owner references: first ReplicaSet "owner-a", then Job "owner-b". -/
def twoOwnersItem : List (String × JSONValue) :=
  [("metadata", JSONValue.object
      [("name", JSONValue.string "web"), ("namespace", JSONValue.string "default"),
       ("ownerReferences", JSONValue.array
          [JSONValue.object [("apiVersion", JSONValue.string "apps/v1"),
             ("kind", JSONValue.string "ReplicaSet"), ("name", JSONValue.string "owner-a")],
           JSONValue.object [("apiVersion", JSONValue.string "batch/v1"),
             ("kind", JSONValue.string "Job"), ("name", JSONValue.string "owner-b")]])])]

/-! ## The request URL of `queryAPIServer`

`strings.Contains(s, substr)` is the infix test on the characters of the two
strings (for valid UTF-8 the byte-wise and the character-wise tests agree);
`fmt.Sprintf` with `%s` verbs is concatenation.  `serviceHost` and
`servicePort` are package variables read from the environment: arguments here.
`queryAPIServer` does not request the string `url1` it builds: it parses it with
`url.Parse`, panics when the parse fails, and requests `u.String()`.  The library
composite "`url.Parse(s)`, then `String()`" is the argument `urlString`, with `none`
for a failed parse. -/

/-- The Go library function `strings.Contains`. -/
def Contains (s substr : String) : Bool :=
  decide (substr.data <:+: s.data)

/-- The string `url1` that `queryAPIServer` builds (discovery.go 465-471). -/
def queryAPIServerURL (serviceHost servicePort resourceApiVersion resourcePlural nspace : String) :
    String :=
  if !Contains resourceApiVersion resourcePlural then
    "https://" ++ serviceHost ++ ":" ++ servicePort ++ "/" ++ resourceApiVersion
      ++ "/namespaces/" ++ nspace ++ "/" ++ resourcePlural
  else
    "https://" ++ serviceHost ++ ":" ++ servicePort ++ "/" ++ resourceApiVersion

/-- The URL that `queryAPIServer` requests (discovery.go 465-479): `url1` is parsed by
`url.Parse` and the request is made for `u.String()`; `none` is the `panic(err)` of
a failed parse, in which case no request is made. -/
def queryAPIServerRequest (urlString : String → Option String)
    (serviceHost servicePort resourceApiVersion resourcePlural nspace : String) :
    Option String :=
  urlString (queryAPIServerURL serviceHost servicePort resourceApiVersion resourcePlural nspace)

/-- URL that `getResourceNames` and `buildCompositions` request for a kind: they call
`queryAPIServer(kindVersionMap[kind], KindPluralMap[kind], namespace)`. -/
def kindURL (urlString : String → Option String) (KindPluralMap kindVersionMap : GoMap String)
    (serviceHost servicePort kind nspace : String) : Option String :=
  queryAPIServerRequest urlString serviceHost servicePort (kindVersionMap.get kind)
    (KindPluralMap.get kind) nspace

/-- The library composite "`url.Parse(s)`, then `String()`" on the URLs of the scenarios
below: the scheme `https`, a host of letters, digits, `.` and `-`, a numeric port, and
a path of letters, digits, `/`, `.`, `-`, `_` and spaces.  On these the parse succeeds
and `String()` writes every space of the path as `%20` and keeps every other
character.  The statements about arbitrary strings take the library composite as an
argument instead. -/
def URLString (s : String) : Option String :=
  some (String.join (s.data.map fun c => if c = ' ' then "%20" else String.singleton c))

/-! ## The record of an item, read from its maps

The following definitions do not embed code: they state what record an item
stands for, reading every JSON object as a map (`List.lookup`), so that they do
not depend on the order in which the keys of any object are visited.  They are
compared with `parseItem` and `parseMetaData` below. -/

/-- Owner fields (name, kind, API version) after one element of `ownerReferences`:
each field the element has replaces the one held so far. -/
def ownerReferenceOf (owner : String × String × String) (ownerReference : JSONValue) :
    String × String × String :=
  match ownerReference.asObject with
  | some ownerReferenceMap =>
    (((ownerReferenceMap.lookup "name").bind JSONValue.asString).getD owner.1,
     ((ownerReferenceMap.lookup "kind").bind JSONValue.asString).getD owner.2.1,
     ((ownerReferenceMap.lookup "apiVersion").bind JSONValue.asString).getD owner.2.2)
  | none => owner

/-- Owner fields given by the value of `ownerReferences`, from the fields held so far. -/
def ownerReferencesOf (mvalue : JSONValue) (owner : String × String × String) :
    String × String × String :=
  (mvalue.asArray.getD []).foldl ownerReferenceOf owner

/-- The record that an item stands for: name, namespace and owner fields read from the
map `metadata`, the status derived from the map `status` (empty without one). -/
def recordOf (itemConverted : List (String × JSONValue)) : MetaDataAndOwnerReferences :=
  let metadataMap := ((itemConverted.lookup "metadata").bind JSONValue.asObject).getD []
  let owner := match metadataMap.lookup "ownerReferences" with
    | some mvalue => ownerReferencesOf mvalue ("", "", "")
    | none => ("", "", "")
  ⟨((metadataMap.lookup "name").bind JSONValue.asString).getD "",
   (((itemConverted.lookup "status").bind JSONValue.asObject).map derivedStatus).getD "",
   ((metadataMap.lookup "namespace").bind JSONValue.asString).getD "",
   owner.1, owner.2.1, owner.2.2⟩

/-- The records that a list of items stands for, one for each item that has a
`metadata` key. -/
def recordsOf (items : List JSONValue) : List MetaDataAndOwnerReferences :=
  items.flatMap fun item =>
    match item.asObject with
    | some itemConverted =>
      if "metadata" ∈ itemConverted.map Prod.fst then [recordOf itemConverted] else []
    | none => []

/-- The keys of an object are pairwise distinct, as the keys of a Go map are. -/
def distinctKeys (m : List (String × JSONValue)) : Bool :=
  decide (m.map Prod.fst).Nodup

/-- Every owner reference that is an object has pairwise distinct keys. -/
def ownerReferencesDistinct (mvalue : JSONValue) : Bool :=
  (mvalue.asArray.getD []).all fun ownerReference =>
    distinctKeys (ownerReference.asObject.getD [])

/-- The objects of an item that `parseMetaData` ranges over are maps: the item itself,
its `metadata`, its `status` and each of its owner references have pairwise distinct
keys. -/
def itemMapsDistinct (itemConverted : List (String × JSONValue)) : Bool :=
  distinctKeys itemConverted &&
  itemConverted.all fun kv =>
    (kv.1 != "metadata" ||
      (distinctKeys (kv.2.asObject.getD []) &&
        (kv.2.asObject.getD []).all fun mkv =>
          mkv.1 != "ownerReferences" || ownerReferencesDistinct mkv.2)) &&
    (kv.1 != "status" || distinctKeys (kv.2.asObject.getD []))

/-- The value that `metaDataRef` has in the loop over the keys of an item, given which
of the keys `metadata` and `status` have been handled so far. -/
def partialRecord (itemConverted : List (String × JSONValue))
    (metadataProcessed statusProcessed : Bool) : MetaDataAndOwnerReferences :=
  ⟨if metadataProcessed then (recordOf itemConverted).MetaDataName else "",
   if statusProcessed then (recordOf itemConverted).Status else "",
   if metadataProcessed then (recordOf itemConverted).Namespace else "",
   if metadataProcessed then (recordOf itemConverted).OwnerReferenceName else "",
   if metadataProcessed then (recordOf itemConverted).OwnerReferenceKind else "",
   if metadataProcessed then (recordOf itemConverted).OwnerReferenceAPIVersion else ""⟩

/-- The entries `m2` are the entries `m` visited in another order, with values related
by `R`. -/
def sameEntries (R : JSONValue → JSONValue → Prop) (m m2 : List (String × JSONValue)) : Prop :=
  ∃ mid, m.Perm mid ∧ List.Forall₂ (fun kv kv2 => kv.1 = kv2.1 ∧ R kv.2 kv2.2) mid m2

/-- Two decoded values are one JSON value read in two key-visiting orders: they are
equal up to the order of the entries of the objects in them, down to `depth` levels of
nesting. -/
def JSONValue.sameUpToOrder : Nat → JSONValue → JSONValue → Prop
  | 0, a, b => a = b
  | depth + 1, a, b =>
    a = b ∨
    (∃ xs ys, a = JSONValue.array xs ∧ b = JSONValue.array ys ∧
      List.Forall₂ (JSONValue.sameUpToOrder depth) xs ys) ∨
    (∃ m m2, a = JSONValue.object m ∧ b = JSONValue.object m2 ∧
      sameEntries (JSONValue.sameUpToOrder depth) m m2)

/-! ## Counting the nodes of a returned tree -/

/-- Level, kind, name, namespace and status of the root of a tree. -/
def Composition.label (c : Composition) : Int × String × String × String × String :=
  (c.Level, c.Kind, c.Name, c.Namespace, c.Status)

mutual
/-- The nodes of a tree below its root, in the order in which `getComposition`
attaches them (a child, then what is below it, then the next child), each as its
level, kind, name, namespace and status. -/
def Composition.descendants : Composition → List (Int × String × String × String × String)
  | .mk _ _ _ _ _ children => Composition.descendantsList children
/-- The nodes of a list of trees, roots included. -/
def Composition.descendantsList :
    List Composition → List (Int × String × String × String × String)
  | [] => []
  | c :: cs => c.label :: (c.descendants ++ Composition.descendantsList cs)
end

/-- Level, kind, name, namespace and status of the node that `getComposition` attaches
for the child entry `metaDataNode` of the flat-list node `compositionTreeNode`
(discovery.go 261-278: the arguments `childKind`, `childName`, `childNamespace`,
`childStatus` and `level` of the recursive call). -/
def childLabel (compositionTreeNode : CompositionTreeNode)
    (metaDataNode : MetaDataAndOwnerReferences) : Int × String × String × String × String :=
  (compositionTreeNode.Level, compositionTreeNode.ChildKind, metaDataNode.MetaDataName,
    metaDataNode.Namespace, metaDataNode.Status)

/-- The nodes among `labels` that have the level and the child kind of the flat-list
node `compositionTreeNode`, in their order. -/
def attachedFor (compositionTreeNode : CompositionTreeNode)
    (labels : List (Int × String × String × String × String)) :
    List (Int × String × String × String × String) :=
  labels.filter fun d =>
    decide (d.1 = compositionTreeNode.Level ∧ d.2.1 = compositionTreeNode.ChildKind)

/-- A flat list in which two nodes have the same level and child kind, and a third
one is one level below. -/
def repeatedPairTree : List CompositionTreeNode :=
  [⟨1, "ReplicaSet", [⟨"rs-a", "Ready", "default", "web", "Deployment", "apps/v1"⟩,
      ⟨"rs-b", "Ready", "default", "web", "Deployment", "apps/v1"⟩]⟩,
   ⟨2, "Pod", [⟨"pod-a", "Running", "default", "rs-a", "ReplicaSet", "apps/v1"⟩]⟩,
   ⟨1, "ReplicaSet", [⟨"rs-c", "Ready", "default", "web", "Deployment", "apps/v1"⟩]⟩,
   ⟨2, "Pod", [⟨"pod-b", "Running", "default", "rs-b", "ReplicaSet", "apps/v1"⟩]⟩]

/-- The entries `appended` that a call of `getComposition` on the flat list
`compositionTree` adds to `*processedList`, one for each child it attaches, count every
child entry at most once: they are nodes of the flat list that were not processed
when the call started, any two of them with the same level and child kind are the
same node, and a node occurs at most as often as it has children. -/
def ContributesOnce (compositionTree processedList appended : List CompositionTreeNode) :
    Prop :=
  (∀ x ∈ appended, x ∈ compositionTree) ∧
  (∀ x ∈ appended, processed processedList x = false) ∧
  (∀ a ∈ appended, ∀ b ∈ appended, a.Level = b.Level → a.ChildKind = b.ChildKind → a = b) ∧
  (∀ a, appended.count a ≤ a.Children.length)

/-! # Properties -/

/-! ## Lemmas on the store -/

theorem storeCompositions_foldl (status k n ns : String) (tree : List CompositionTreeNode)
    (cp : List Compositions) (b : Bool) (acc : List Compositions) :
    cp.foldl (fun (st : Bool × List Compositions) comp =>
        if comp.Kind = k ∧ comp.Name = n ∧ comp.Namespace = ns then
          (true, st.2 ++ [⟨comp.Kind, comp.Name, comp.Namespace, status, tree⟩])
        else (st.1, st.2 ++ [comp])) (b, acc)
      = (b || cp.any (fun c => decide (c.Kind = k ∧ c.Name = n ∧ c.Namespace = ns)),
         acc ++ cp.map (fun c => if c.Kind = k ∧ c.Name = n ∧ c.Namespace = ns then
            (⟨c.Kind, c.Name, c.Namespace, status, tree⟩ : Compositions) else c)) := by
  induction cp generalizing b acc with
  | nil => simp
  | cons c cs ih =>
    rw [List.foldl_cons]
    by_cases h : c.Kind = k ∧ c.Name = n ∧ c.Namespace = ns
    · rw [if_pos h, ih]
      simp only [List.any_cons, List.map_cons, if_pos h, decide_eq_true h, Bool.true_or,
        Bool.or_true, List.append_assoc, List.singleton_append]
    · rw [if_neg h, ih]
      simp only [List.any_cons, List.map_cons, if_neg h, decide_eq_false h, Bool.false_or,
        List.append_assoc, List.singleton_append]

theorem storeCompositions_eq (cp : List Compositions) (top : MetaDataAndOwnerReferences)
    (k n ns : String) (tree : List CompositionTreeNode) :
    storeCompositions cp top k n ns tree =
      if ∃ c ∈ cp, c.Kind = k ∧ c.Name = n ∧ c.Namespace = ns then
        cp.map (fun c => if c.Kind = k ∧ c.Name = n ∧ c.Namespace = ns then
          (⟨c.Kind, c.Name, c.Namespace, top.Status, tree⟩ : Compositions) else c)
      else cp ++ [⟨k, n, ns, top.Status, tree⟩] := by
  unfold storeCompositions
  simp only [storeCompositions_foldl, Bool.false_or, List.nil_append]
  by_cases h : ∃ c ∈ cp, c.Kind = k ∧ c.Name = n ∧ c.Namespace = ns
  · have h2 : (cp.any fun c => decide (c.Kind = k ∧ c.Name = n ∧ c.Namespace = ns)) = true := by
      simpa using h
    rw [if_pos h, if_pos h2]
  · have h2 : ¬ (cp.any fun c => decide (c.Kind = k ∧ c.Name = n ∧ c.Namespace = ns)) = true := by
      simpa using h
    rw [if_neg h, if_neg h2]
    congr 1
    have h3 : ∀ c ∈ cp, ¬ (c.Kind = k ∧ c.Name = n ∧ c.Namespace = ns) := by
      intro c hc hcon
      exact h ⟨c, hc, hcon⟩
    calc cp.map (fun c => if c.Kind = k ∧ c.Name = n ∧ c.Namespace = ns then
            (⟨c.Kind, c.Name, c.Namespace, top.Status, tree⟩ : Compositions) else c)
        = cp.map id := List.map_congr_left (fun c hc => by simp [h3 c hc])
      _ = cp := List.map_id cp

theorem purge_inner (observed : List MetaDataAndOwnerReferences) (item : Compositions)
    (presentList : List Compositions) :
    observed.foldl (fun presentList topLevelObject =>
        if topLevelObject.MetaDataName = item.Name then presentList ++ [item]
        else presentList) presentList
      = presentList ++ List.replicate
          (observed.countP (fun o => decide (o.MetaDataName = item.Name))) item := by
  induction observed generalizing presentList with
  | nil => simp
  | cons o os ih =>
    rw [List.foldl_cons, ih]
    by_cases h : o.MetaDataName = item.Name
    · simp [h, List.countP_cons, List.replicate_succ]
    · simp [h, List.countP_cons]

theorem purge_eq_flatMap (cp : List Compositions) (observed : List MetaDataAndOwnerReferences) :
    purgeCompositionOfDeletedItems cp observed =
      cp.flatMap (fun item => List.replicate
        (observed.countP (fun o => decide (o.MetaDataName = item.Name))) item) := by
  unfold purgeCompositionOfDeletedItems
  have key : ∀ (acc : List Compositions),
      cp.foldl (fun presentList compositionItem =>
        observed.foldl (fun presentList topLevelObject =>
          if topLevelObject.MetaDataName = compositionItem.Name then
            presentList ++ [compositionItem]
          else presentList) presentList) acc
      = acc ++ cp.flatMap (fun item => List.replicate
        (observed.countP (fun o => decide (o.MetaDataName = item.Name))) item) := by
    induction cp with
    | nil => intro acc; simp
    | cons c cs ih =>
      intro acc
      rw [List.foldl_cons, purge_inner, ih]
      simp [List.flatMap_cons]
  simpa using key []

theorem countP_name_of_nodup (observed : List MetaDataAndOwnerReferences) (x : String)
    (h : (observed.map (fun o => o.MetaDataName)).Nodup) :
    observed.countP (fun o => decide (o.MetaDataName = x))
      = if x ∈ observed.map (fun o => o.MetaDataName) then 1 else 0 := by
  induction observed with
  | nil => simp
  | cons o os ih =>
    rw [List.map_cons, List.nodup_cons] at h
    rw [List.countP_cons, ih h.2]
    by_cases hx : o.MetaDataName = x
    · have hnot : x ∉ os.map (fun o => o.MetaDataName) := by
        rw [← hx]; exact h.1
      simp [hx, hnot] 
    · have hx2 : ¬ x = o.MetaDataName := fun e => hx e.symm
      simp [hx, hx2]

theorem flatMap_replicate_ite (p : Compositions → Prop) [DecidablePred p]
    (cp : List Compositions) :
    cp.flatMap (fun item => List.replicate (if p item then 1 else 0) item)
      = cp.filter (fun item => decide (p item)) := by
  induction cp with
  | nil => simp
  | cons c cs ih =>
    rw [List.flatMap_cons, ih]
    by_cases h : p c
    · simp [h]
    · simp [h]

theorem purge_eq_filter (cp : List Compositions) (observed : List MetaDataAndOwnerReferences)
    (h : (observed.map (fun o => o.MetaDataName)).Nodup) :
    purgeCompositionOfDeletedItems cp observed =
      cp.filter (fun item => decide (item.Name ∈ observed.map (fun o => o.MetaDataName))) := by
  rw [purge_eq_flatMap, ← flatMap_replicate_ite]
  congr 1
  funext item
  rw [countP_name_of_nodup observed item.Name h]

theorem storeCompositions_identity_nodup (cp : List Compositions)
    (top : MetaDataAndOwnerReferences) (k n ns : String) (tree : List CompositionTreeNode)
    (h : (cp.map Compositions.identity).Nodup) :
    ((storeCompositions cp top k n ns tree).map Compositions.identity).Nodup := by
  rw [storeCompositions_eq]
  by_cases hp : ∃ c ∈ cp, c.Kind = k ∧ c.Name = n ∧ c.Namespace = ns
  · rw [if_pos hp, List.map_map]
    have : (Compositions.identity ∘ fun c => if c.Kind = k ∧ c.Name = n ∧ c.Namespace = ns then
          (⟨c.Kind, c.Name, c.Namespace, top.Status, tree⟩ : Compositions) else c)
        = Compositions.identity := by
      funext c
      by_cases hc : c.Kind = k ∧ c.Name = n ∧ c.Namespace = ns
      · simp [hc, Compositions.identity]
      · simp [hc]
    rw [this]
    exact h
  · rw [if_neg hp, List.map_append, List.nodup_append]
    refine ⟨h, by simp, ?_⟩
    intro x hx hx2
    rw [List.mem_map] at hx
    obtain ⟨c, hc, rfl⟩ := hx
    simp only [List.map_cons, List.map_nil, List.mem_singleton, Compositions.identity,
      Prod.mk.injEq] at hx2
    exact hp ⟨c, hc, hx2⟩

/-! ## Claims on the store -/

/-- C10: when the store holds a record with the identity `(k, n, ns)`,
`storeCompositions` keeps the number and the order of the records, the record at
every index keeps its identity, receives the supplied status and tree when its
identity is `(k, n, ns)` and is unchanged otherwise; when the store holds no such
record, the new store is the old one with the record
`(k, n, ns, status, tree)` appended at the end. -/
theorem storeCompositions_frame (cp : List Compositions) (top : MetaDataAndOwnerReferences)
    (k n ns : String) (tree : List CompositionTreeNode) :
    if ∃ c ∈ cp, c.Kind = k ∧ c.Name = n ∧ c.Namespace = ns then
      (storeCompositions cp top k n ns tree).length = cp.length ∧
      ∀ (i : Nat) (c : Compositions), cp[i]? = some c →
        (storeCompositions cp top k n ns tree)[i]? =
          some (if c.Kind = k ∧ c.Name = n ∧ c.Namespace = ns then
            ⟨c.Kind, c.Name, c.Namespace, top.Status, tree⟩ else c)
    else storeCompositions cp top k n ns tree = cp ++ [⟨k, n, ns, top.Status, tree⟩] := by
  rw [storeCompositions_eq]
  by_cases hp : ∃ c ∈ cp, c.Kind = k ∧ c.Name = n ∧ c.Namespace = ns
  · rw [if_pos hp, if_pos hp]
    refine ⟨List.length_map _ _, ?_⟩
    intro i c hc
    rw [List.getElem?_map, hc]
    rfl
  · rw [if_neg hp, if_neg hp]

/-- C6 as stated fails: with an observed list that names "web" twice, one purge
leaves two copies of the record and a second purge leaves four. -/
theorem purge_twice_counterexample :
    purgeCompositionOfDeletedItems
        (purgeCompositionOfDeletedItems [⟨"Deployment", "web", "default", "", []⟩]
          [⟨"web", "", "default", "", "", ""⟩, ⟨"web", "", "kube-system", "", "", ""⟩])
        [⟨"web", "", "default", "", "", ""⟩, ⟨"web", "", "kube-system", "", "", ""⟩]
      ≠ purgeCompositionOfDeletedItems [⟨"Deployment", "web", "default", "", []⟩]
          [⟨"web", "", "default", "", "", ""⟩, ⟨"web", "", "kube-system", "", "", ""⟩] := by
  decide

/-- C6 (amended): for every store and every observed list in which no two
instances have the same name, purging twice with the list leaves the same list
of records as purging once. -/
theorem purge_idempotent (cp : List Compositions) (observed : List MetaDataAndOwnerReferences)
    (h : (observed.map (fun o => o.MetaDataName)).Nodup) :
    purgeCompositionOfDeletedItems (purgeCompositionOfDeletedItems cp observed) observed
      = purgeCompositionOfDeletedItems cp observed := by
  rw [purge_eq_filter cp observed h, purge_eq_filter _ observed h, List.filter_filter]
  congr 1
  funext item
  simp

/-- Witness of `purge_idempotent`: a store with a kept and a dropped record. -/
theorem purge_idempotent_witness :
    ([(⟨"web", "", "default", "", "", ""⟩ : MetaDataAndOwnerReferences),
        ⟨"db", "", "default", "", "", ""⟩].map (fun o => o.MetaDataName)).Nodup ∧
    purgeCompositionOfDeletedItems (purgeCompositionOfDeletedItems
        [⟨"Deployment", "web", "default", "", []⟩, ⟨"ConfigMap", "orphan", "default", "", []⟩]
        [⟨"web", "", "default", "", "", ""⟩, ⟨"db", "", "default", "", "", ""⟩])
        [⟨"web", "", "default", "", "", ""⟩, ⟨"db", "", "default", "", "", ""⟩]
      = purgeCompositionOfDeletedItems
        [⟨"Deployment", "web", "default", "", []⟩, ⟨"ConfigMap", "orphan", "default", "", []⟩]
        [⟨"web", "", "default", "", "", ""⟩, ⟨"db", "", "default", "", "", ""⟩] :=
  ⟨by decide, purge_idempotent _ _ (by decide)⟩

/-- C9 as stated fails: a purge whose observed list names "web" twice leaves two
records with the identity (Deployment, web, default). -/
theorem store_identity_counterexample :
    ¬ ((purgeCompositionOfDeletedItems
          (storeCompositions [] ⟨"web", "", "default", "", "", ""⟩ "Deployment" "web"
            "default" [])
          [⟨"web", "", "default", "", "", ""⟩, ⟨"web", "", "kube-system", "", "", ""⟩]).map
        Compositions.identity).Nodup := by
  decide

/-- C9 (amended): every store reached from the empty store by calls of
`storeCompositions` with any arguments and calls of
`purgeCompositionOfDeletedItems` with observed lists that hold no name twice has
no two records with the same (Kind, Name, Namespace). -/
theorem reachable_identity_nodup (cp : List Compositions) (h : Reachable cp) :
    (cp.map Compositions.identity).Nodup := by
  induction h with
  | empty => exact List.nodup_nil
  | store cp top k n ns tree _ ih => exact storeCompositions_identity_nodup cp top k n ns tree ih
  | purge cp observed _ hn ih =>
    rw [purge_eq_filter cp observed hn]
    exact ih.sublist ((List.filter_sublist cp).map Compositions.identity)

/-- Witness of `reachable_identity_nodup`: two upserts of one identity, an upsert
of another and a purge. -/
theorem reachable_identity_nodup_witness :
    Reachable (purgeCompositionOfDeletedItems
      (storeCompositions
        (storeCompositions
          (storeCompositions [] ⟨"web", "Pending", "default", "", "", ""⟩ "Deployment" "web"
            "default" [])
          ⟨"web", "Ready", "default", "", "", ""⟩ "Deployment" "web" "default" [])
        ⟨"db", "Ready", "default", "", "", ""⟩ "Deployment" "db" "default" [])
      [⟨"web", "Ready", "default", "", "", ""⟩]) ∧
    ((purgeCompositionOfDeletedItems
      (storeCompositions
        (storeCompositions
          (storeCompositions [] ⟨"web", "Pending", "default", "", "", ""⟩ "Deployment" "web"
            "default" [])
          ⟨"web", "Ready", "default", "", "", ""⟩ "Deployment" "web" "default" [])
        ⟨"db", "Ready", "default", "", "", ""⟩ "Deployment" "db" "default" [])
      [⟨"web", "Ready", "default", "", "", ""⟩]).map Compositions.identity).Nodup :=
  ⟨Reachable.purge _ _
      (Reachable.store _ _ _ _ _ _ (Reachable.store _ _ _ _ _ _
        (Reachable.store _ _ _ _ _ _ Reachable.empty)))
      (by decide),
   reachable_identity_nodup _
    (Reachable.purge _ _
      (Reachable.store _ _ _ _ _ _ (Reachable.store _ _ _ _ _ _
        (Reachable.store _ _ _ _ _ _ Reachable.empty)))
      (by decide))⟩

/-! ## Lemmas on `getComposition` and `GetCompositions` -/

theorem getCompositionFuel_root (fuel : Nat) (kind name ns status : String) (level : Int)
    (tree processedList : List CompositionTreeNode) :
    ∃ children, (getCompositionFuel fuel kind name ns status level tree processedList).1
      = Composition.mk level kind name ns status children := by
  cases fuel with
  | zero => exact ⟨[], rfl⟩
  | succ f => exact ⟨_, rfl⟩

theorem recordTree_root (lower : String → String) (ns : String) (item : Compositions) :
    (recordTree lower ns item).Level = 1 ∧ (recordTree lower ns item).Kind = lower item.Kind
    ∧ (recordTree lower ns item).Name = lower item.Name
    ∧ (recordTree lower ns item).Namespace = ns
    ∧ (recordTree lower ns item).Status = item.Status := by
  obtain ⟨children, h⟩ := getCompositionFuel_root item.CompositionTree.length
    (lower item.Kind) (lower item.Name) ns item.Status 1 item.CompositionTree []
  unfold recordTree getComposition
  rw [h]
  exact ⟨rfl, rfl, rfl, rfl, rfl⟩

theorem GetCompositionsStep_eq (lower : String → String) (order : GoMap String)
    (plural rn ns : String) (acc : List Composition) (item : Compositions) :
    GetCompositionsStep lower order plural rn ns acc item =
      acc ++ (if ns = lower item.Namespace ∧ kindOfPlural lower order (lower plural)
                  = lower item.Kind ∧ (lower rn = "*" ∨ lower rn = lower item.Name)
              then [recordTree lower ns item] else []) := by
  unfold GetCompositionsStep recordTree
  simp only []
  by_cases h1 : ns = lower item.Namespace
  · by_cases h2 : kindOfPlural lower order (lower plural) = lower item.Kind
    · by_cases h3 : lower rn = "*"
      · simp [h1, h2, h3]
      · by_cases h4 : lower rn = lower item.Name
        · simp [h1, h2, h4]
        · simp [h1, h2, h3, h4]
    · simp [h1, h2]
  · simp [h1]

theorem GetCompositionsLoop_uniform (lower : String → String) (order : Nat → GoMap String)
    (plural rn ns kk : String)
    (hk : ∀ j, kindOfPlural lower (order j) (lower plural) = kk)
    (cp : List Compositions) (i : Nat) (acc : List Composition) :
    GetCompositionsLoop lower order plural rn ns i cp acc =
      acc ++ (cp.filter (fun item => decide (ns = lower item.Namespace ∧ kk = lower item.Kind
        ∧ (lower rn = "*" ∨ lower rn = lower item.Name)))).map (recordTree lower ns) := by
  induction cp generalizing i acc with
  | nil => simp [GetCompositionsLoop]
  | cons c cs ih =>
    rw [GetCompositionsLoop, ih, GetCompositionsStep_eq, hk]
    by_cases h : ns = lower c.Namespace ∧ kk = lower c.Kind
        ∧ (lower rn = "*" ∨ lower rn = lower c.Name)
    · rw [if_pos h, List.filter_cons_of_pos (by simpa using h)]
      simp
    · rw [if_neg h, List.filter_cons_of_neg (by simpa using h)]
      simp

theorem GetCompositionsLoop_no_name (lower : String → String) (order : Nat → GoMap String)
    (plural rn ns : String) (cp : List Compositions)
    (h : ∀ item ∈ cp, ¬ (lower rn = "*" ∨ lower rn = lower item.Name))
    (i : Nat) (acc : List Composition) :
    GetCompositionsLoop lower order plural rn ns i cp acc = acc := by
  induction cp generalizing i acc with
  | nil => simp [GetCompositionsLoop]
  | cons c cs ih =>
    rw [GetCompositionsLoop, ih (fun item hi => h item (List.mem_cons_of_mem _ hi)),
      GetCompositionsStep_eq]
    have hc := h c (List.mem_cons_self _ _)
    rw [if_neg (fun hcon => hc hcon.2.2)]
    simp

theorem kindOfPlural_unique (lower : String → String) (kpm order : GoMap String)
    (p kk : String) (hperm : order.Perm kpm)
    (hex : ∃ kv ∈ kpm, lower kv.2 = lower p)
    (huniq : ∀ kv ∈ kpm, lower kv.2 = lower p → lower kv.1 = kk) :
    kindOfPlural lower order p = kk := by
  unfold kindOfPlural
  cases hf : order.find? (fun kv => lower kv.2 == lower p) with
  | none =>
    exfalso
    obtain ⟨kv, hkv, he⟩ := hex
    rw [List.find?_eq_none] at hf
    exact hf kv (hperm.mem_iff.mpr hkv) (by simpa using he)
  | some kv =>
    have hmem := List.mem_of_find?_eq_some hf
    have hp := List.find?_some hf
    exact huniq kv (hperm.mem_iff.mp hmem) (by simpa using hp)

theorem GoMap.get_of_mem (m : GoMap String) (k v : String) (hwf : m.WellFormed)
    (h : (k, v) ∈ m) : m.get k = v := by
  unfold GoMap.get
  induction m with
  | nil => simp at h
  | cons kv rest ih =>
    obtain ⟨k1, v1⟩ := kv
    unfold GoMap.WellFormed at hwf
    rw [List.map_cons, List.nodup_cons] at hwf
    rcases List.mem_cons.mp h with heq | hin
    · have hk : k1 = k := (Prod.mk.inj heq).1.symm
      have hv : v1 = v := (Prod.mk.inj heq).2.symm
      subst hk; subst hv
      simp [List.lookup]
    · have hne : (k == k1) = false := by
        have : k ≠ k1 := by
          intro e
          apply hwf.1
          rw [← e]
          exact List.mem_map.mpr ⟨(k, v), hin, rfl⟩
        simpa using this
      rw [List.lookup, hne]
      exact ih hwf.2 hin

theorem storeCompositions_mem (cp : List Compositions) (top : MetaDataAndOwnerReferences)
    (k n ns : String) (tree : List CompositionTreeNode) :
    (⟨k, n, ns, top.Status, tree⟩ : Compositions) ∈ storeCompositions cp top k n ns tree := by
  rw [storeCompositions_eq]
  by_cases hp : ∃ c ∈ cp, c.Kind = k ∧ c.Name = n ∧ c.Namespace = ns
  · rw [if_pos hp]
    obtain ⟨c, hc, hid⟩ := hp
    refine List.mem_map.mpr ⟨c, hc, ?_⟩
    rw [if_pos hid, hid.1, hid.2.1, hid.2.2]
  · rw [if_neg hp]
    simp

theorem purge_mem (cp : List Compositions) (observed : List MetaDataAndOwnerReferences)
    (item : Compositions) (h : item ∈ purgeCompositionOfDeletedItems cp observed) :
    item ∈ cp ∧ ∃ o ∈ observed, o.MetaDataName = item.Name := by
  rw [purge_eq_flatMap, List.mem_flatMap] at h
  obtain ⟨c, hc, hrep⟩ := h
  obtain ⟨hcount, heq⟩ := List.mem_replicate.mp hrep
  subst heq
  refine ⟨hc, ?_⟩
  have hpos : 0 < observed.countP (fun o => decide (o.MetaDataName = item.Name)) :=
    Nat.pos_of_ne_zero hcount
  obtain ⟨o, ho, hp⟩ := List.countP_pos_iff.mp hpos
  exact ⟨o, ho, by simpa using hp⟩

theorem GetCompositions_of_unique_plural (lower : String → String) (kpm : GoMap String)
    (order : Nat → GoMap String) (cp : List Compositions) (K P rn ns : String)
    (hwf : kpm.WellFormed) (hK : (K, P) ∈ kpm) (hord : ∀ i, (order i).Perm kpm)
    (huniq : ∀ kv ∈ kpm, lower kv.2 = lower P → lower kv.1 = lower K)
    (hP : lower (lower P) = lower P) :
    GetCompositions lower kpm order cp K rn ns =
      (cp.filter (fun item => decide (ns = lower item.Namespace ∧ lower K = lower item.Kind
        ∧ (lower rn = "*" ∨ lower rn = lower item.Name)))).map (recordTree lower ns) := by
  unfold GetCompositions
  rw [GoMap.get_of_mem kpm K P hwf hK]
  have hk : ∀ j, kindOfPlural lower (order j) (lower P) = lower K := by
    intro j
    refine kindOfPlural_unique lower kpm (order j) (lower P) (lower K) (hord j)
      ⟨(K, P), hK, hP.symm⟩ ?_
    intro kv hkv he
    exact huniq kv hkv (he.trans hP)
  rw [GetCompositionsLoop_uniform lower order P rn ns (lower K) hk]
  simp

/-! ## Claims on queries -/

/-- C1 as stated fails: the root carries the lower-cased kind and name, not the
upserted ones (first part); a namespace with an upper-case letter matches no
record (second part); and when two keys of `KindPluralMap` have the same plural,
the record of the key that the range over the map does not reach first is not
returned (third part). -/
theorem query_after_upsert_counterexample :
    (¬ ∃ t ∈ GetCompositions ToLower baselineKindPluralMap (fun _ => baselineKindPluralMap)
          (storeCompositions [] ⟨"Web", "Ready", "default", "", "", ""⟩ "Deployment" "Web"
            "default" [])
          "Deployment" "Web" "default",
        t.Level = 1 ∧ t.Kind = "Deployment" ∧ t.Name = "Web" ∧ t.Namespace = "default"
          ∧ t.Status = "Ready") ∧
    (¬ ∃ t ∈ GetCompositions ToLower baselineKindPluralMap (fun _ => baselineKindPluralMap)
          (storeCompositions [] ⟨"web", "Ready", "Default", "", "", ""⟩ "Deployment" "web"
            "Default" [])
          "Deployment" "web" "Default",
        t.Level = 1 ∧ t.Kind = "Deployment" ∧ t.Name = "web" ∧ t.Namespace = "Default"
          ∧ t.Status = "Ready") ∧
    (¬ ∃ t ∈ GetCompositions ToLower [("gadget", "things"), ("widget", "things")]
          (fun _ => [("gadget", "things"), ("widget", "things")])
          (storeCompositions [] ⟨"web", "Ready", "default", "", "", ""⟩ "widget" "web"
            "default" [])
          "widget" "web" "default",
        t.Level = 1 ∧ t.Kind = "widget" ∧ t.Name = "web" ∧ t.Namespace = "default"
          ∧ t.Status = "Ready") := by
  decide

/-- C1 (amended): let `K` be a key of `KindPluralMap` whose plural `P` is, ignoring
case, the plural of no key other than `K` up to case, and let the namespace be
its own lower-casing.  After `storeCompositions` stores
`(K, name, namespace, status, tree)`, `GetCompositions(K, name, namespace)`
returns a list containing a tree whose root has Level 1, Kind and Name equal to
the lower-cased `K` and `name`, and Namespace and Status equal to the upserted
namespace and status.  (`lower` stands for `strings.ToLower`; lower-casing `P`
twice is assumed to give the same as once.) -/
theorem query_after_upsert (lower : String → String) (kpm : GoMap String)
    (order : Nat → GoMap String) (cp : List Compositions) (top : MetaDataAndOwnerReferences)
    (K P name ns : String) (tree : List CompositionTreeNode)
    (hwf : kpm.WellFormed) (hK : (K, P) ∈ kpm) (hord : ∀ i, (order i).Perm kpm)
    (huniq : ∀ kv ∈ kpm, lower kv.2 = lower P → lower kv.1 = lower K)
    (hP : lower (lower P) = lower P) (hns : lower ns = ns) :
    ∃ t ∈ GetCompositions lower kpm order (storeCompositions cp top K name ns tree) K name ns,
      t.Level = 1 ∧ t.Kind = lower K ∧ t.Name = lower name ∧ t.Namespace = ns
        ∧ t.Status = top.Status := by
  rw [GetCompositions_of_unique_plural lower kpm order _ K P name ns hwf hK hord huniq hP]
  refine ⟨recordTree lower ns ⟨K, name, ns, top.Status, tree⟩, ?_, ?_⟩
  · refine List.mem_map.mpr ⟨⟨K, name, ns, top.Status, tree⟩, ?_, rfl⟩
    rw [List.mem_filter]
    refine ⟨storeCompositions_mem cp top K name ns tree, ?_⟩
    simp [hns]
  · exact recordTree_root lower ns ⟨K, name, ns, top.Status, tree⟩

/-- Witness of `query_after_upsert`: the baseline schema, and an upsert that
replaces the record of Deployment "web". -/
theorem query_after_upsert_witness :
    ∃ t ∈ GetCompositions ToLower baselineKindPluralMap (fun _ => baselineKindPluralMap)
        (storeCompositions [⟨"Deployment", "web", "default", "Pending", []⟩]
          ⟨"web", "Ready", "default", "", "", ""⟩ "Deployment" "web" "default" [])
        "Deployment" "web" "default",
      t.Level = 1 ∧ t.Kind = ToLower "Deployment" ∧ t.Name = ToLower "web"
        ∧ t.Namespace = "default" ∧ t.Status = "Ready" :=
  query_after_upsert ToLower baselineKindPluralMap (fun _ => baselineKindPluralMap)
    [⟨"Deployment", "web", "default", "Pending", []⟩] ⟨"web", "Ready", "default", "", "", ""⟩
    "Deployment" "deployments" "web" "default" []
    (by unfold GoMap.WellFormed; decide) (by decide) (fun _ => List.Perm.refl _) (by decide)
    (by decide) (by decide)

/-- C5 as stated fails: a record of kind `K` whose namespace has an upper-case
letter is omitted from the wildcard query for that namespace (first part), and a
record whose kind differs from `K` in letter case only is returned (second
part); so the number of trees is not the number of records of kind `K` and
namespace `ns`. -/
theorem wildcard_query_counterexample :
    (GetCompositions ToLower baselineKindPluralMap (fun _ => baselineKindPluralMap)
        [⟨"Deployment", "web", "Default", "Ready", []⟩] "Deployment" "*" "Default").length
      ≠ (([⟨"Deployment", "web", "Default", "Ready", []⟩] : List Compositions).filter
          (fun r => decide (r.Kind = "Deployment" ∧ r.Namespace = "Default"))).length ∧
    (GetCompositions ToLower baselineKindPluralMap (fun _ => baselineKindPluralMap)
        [⟨"deployment", "web", "default", "Ready", []⟩] "Deployment" "*" "default").length
      ≠ (([⟨"deployment", "web", "default", "Ready", []⟩] : List Compositions).filter
          (fun r => decide (r.Kind = "Deployment" ∧ r.Namespace = "default"))).length := by
  decide

/-- C5 (amended): let `K` be a key of `KindPluralMap` whose plural `P` is, ignoring
case, the plural of no key other than `K` up to case.  For every store and
namespace `ns`, `GetCompositions(K, "*", ns)` returns, in store order, exactly
one tree for each record whose lower-cased Namespace is `ns` and whose Kind
equals `K` ignoring case, and no tree for any other record.  (`lower` stands for
`strings.ToLower`, which leaves "*" unchanged; lower-casing `P` twice is assumed
to give the same as once.) -/
theorem wildcard_query (lower : String → String) (kpm : GoMap String)
    (order : Nat → GoMap String) (cp : List Compositions) (K P ns : String)
    (hwf : kpm.WellFormed) (hK : (K, P) ∈ kpm) (hord : ∀ i, (order i).Perm kpm)
    (huniq : ∀ kv ∈ kpm, lower kv.2 = lower P → lower kv.1 = lower K)
    (hP : lower (lower P) = lower P) (hstar : lower "*" = "*") :
    GetCompositions lower kpm order cp K "*" ns =
      (cp.filter (fun r => decide (lower r.Namespace = ns ∧ lower r.Kind = lower K))).map
        (recordTree lower ns) := by
  rw [GetCompositions_of_unique_plural lower kpm order cp K P "*" ns hwf hK hord huniq hP]
  congr 1
  apply List.filter_congr
  intro r _
  simp only [hstar, true_or, and_true, decide_eq_decide]
  constructor
  · rintro ⟨h1, h2⟩
    exact ⟨h1.symm, h2.symm⟩
  · rintro ⟨h1, h2⟩
    exact ⟨h1.symm, h2.symm⟩

/-- Witness of `wildcard_query`: the baseline schema and a store with two
Deployments of the namespace, one of another namespace, and a Pod. -/
theorem wildcard_query_witness :
    GetCompositions ToLower baselineKindPluralMap (fun _ => baselineKindPluralMap)
        [⟨"Deployment", "web", "default", "Ready", []⟩, ⟨"Pod", "p", "default", "Running", []⟩,
         ⟨"Deployment", "db", "default", "Ready", []⟩, ⟨"Deployment", "dns", "kube-system", "", []⟩]
        "Deployment" "*" "default" =
      (([⟨"Deployment", "web", "default", "Ready", []⟩, ⟨"Pod", "p", "default", "Running", []⟩,
         ⟨"Deployment", "db", "default", "Ready", []⟩,
         ⟨"Deployment", "dns", "kube-system", "", []⟩] : List Compositions).filter
        (fun r => decide (ToLower r.Namespace = "default"
          ∧ ToLower r.Kind = ToLower "Deployment"))).map (recordTree ToLower "default") :=
  wildcard_query ToLower baselineKindPluralMap (fun _ => baselineKindPluralMap) _
    "Deployment" "deployments" "default"
    (by unfold GoMap.WellFormed; decide) (by decide) (fun _ => List.Perm.refl _) (by decide)
    (by decide) (by decide)

/-- C7 as stated fails: the name "*" is the wildcard, so the query returns the
records that survived the purge although no observed instance is named "*"
(first part); and names are compared ignoring case, so the query for "Web"
returns the record "web", kept by the observed instance "web", although no
observed instance is named "Web" (second part). -/
theorem query_after_purge_counterexample :
    GetCompositions ToLower baselineKindPluralMap (fun _ => baselineKindPluralMap)
        (purgeCompositionOfDeletedItems [⟨"Deployment", "web", "default", "Ready", []⟩]
          [⟨"web", "Ready", "default", "", "", ""⟩])
        "Deployment" "*" "default" ≠ [] ∧
    GetCompositions ToLower baselineKindPluralMap (fun _ => baselineKindPluralMap)
        (purgeCompositionOfDeletedItems [⟨"Deployment", "web", "default", "Ready", []⟩]
          [⟨"web", "Ready", "default", "", "", ""⟩])
        "Deployment" "Web" "default" ≠ [] := by
  decide

/-- C7 (amended): for every store, every name `n` other than the wildcard "*" and
every observed list that contains no instance whose name equals `n` ignoring
case: after `purgeCompositionOfDeletedItems` with that list,
`GetCompositions(k, n, ns)` returns the empty list for every kind `k` and
namespace `ns`.  (`lower` stands for `strings.ToLower`.) -/
theorem query_after_purge (lower : String → String) (kpm : GoMap String)
    (order : Nat → GoMap String) (cp : List Compositions)
    (observed : List MetaDataAndOwnerReferences) (k n ns : String)
    (hstar : lower n ≠ "*")
    (hobs : ∀ o ∈ observed, lower o.MetaDataName ≠ lower n) :
    GetCompositions lower kpm order (purgeCompositionOfDeletedItems cp observed) k n ns = [] := by
  unfold GetCompositions
  apply GetCompositionsLoop_no_name
  intro item hitem hcon
  obtain ⟨_, o, ho, hname⟩ := purge_mem cp observed item hitem
  rcases hcon with h | h
  · exact hstar h
  · exact hobs o ho (by rw [hname, h])

/-- Witness of `query_after_purge`: the record (ConfigMap, "orphan") is absent from
the scan, which observed only "web". -/
theorem query_after_purge_witness :
    GetCompositions ToLower (baselineKindPluralMap ++ [("ConfigMap", "configmaps")])
        (fun _ => baselineKindPluralMap ++ [("ConfigMap", "configmaps")])
        (purgeCompositionOfDeletedItems
          [⟨"ConfigMap", "orphan", "default", "", []⟩,
           ⟨"Deployment", "web", "default", "Ready", []⟩]
          [⟨"web", "Ready", "default", "", "", ""⟩])
        "ConfigMap" "orphan" "default" = [] :=
  query_after_purge ToLower _ _ _ _ "ConfigMap" "orphan" "default" (by decide) (by decide)

/-! ## The Deployment scenario -/

/-- C2: with the baseline schema (Deployment→[ReplicaSet], ReplicaSet→[Pod],
Pod→[]) and the listing `webCluster`, `buildCompositions` for
(Deployment, web, default) at level 1 returns a flat list (with any bound of at
least 3 on the depth), and after `storeCompositions` of that list into the empty
store `GetCompositions("Deployment", "web", "default")` returns exactly one
tree: the root "web" at Level 1 with the single child ReplicaSet "web-abc123" at
Level 2, which has exactly the two children Pod "web-abc123-x1" and Pod
"web-abc123-x2" at Level 3, both without children. -/
theorem deployment_scenario (fuel : Nat) (order : Nat → GoMap String)
    (hord : ∀ i, (order i).Perm baselineKindPluralMap) (top : MetaDataAndOwnerReferences) :
    ∃ flat, buildCompositions baselineKindPluralMap baselineKindVersionMap
        baselineCompositionMap webCluster (fuel + 3) "Deployment" "web" "default" 1 []
        = some flat ∧
      GetCompositions ToLower baselineKindPluralMap order
        (storeCompositions [] top "Deployment" "web" "default" flat)
        "Deployment" "web" "default" =
      [Composition.mk 1 "deployment" "web" "default" top.Status
        [Composition.mk 2 "ReplicaSet" "web-abc123" "default" "Ready"
          [Composition.mk 3 "Pod" "web-abc123-x1" "default" "Running" [],
           Composition.mk 3 "Pod" "web-abc123-x2" "default" "Running" []]]] := by
  refine ⟨[⟨2, "ReplicaSet", [ownedBy "web-abc123" "Ready" "web"]⟩,
    ⟨3, "Pod", [ownedBy "web-abc123-x1" "Running" "web-abc123",
      ownedBy "web-abc123-x2" "Running" "web-abc123"]⟩], rfl, ?_⟩
  rw [GetCompositions_of_unique_plural ToLower baselineKindPluralMap order _ "Deployment"
    "deployments" "web" "default" (by unfold GoMap.WellFormed; decide) (by decide) hord
    (by decide) (by decide)]
  rfl

/-! ## The bound on the recursion of `getComposition` is never reached -/

theorem getCompositionFuel_succ (fuel : Nat) (kind name ns status : String) (level : Int)
    (tree processedList : List CompositionTreeNode) :
    getCompositionFuel (fuel + 1) kind name ns status level tree processedList =
      (Composition.mk level kind name ns status
          (tree.foldl (getCompositionOuter (getCompositionFuel fuel))
            ⟨[], tree, processedList⟩).Children,
        (tree.foldl (getCompositionOuter (getCompositionFuel fuel))
            ⟨[], tree, processedList⟩).processedList) := rfl

theorem length_filter_lt_of_mem {α : Type} (p : α → Bool) (l : List α) (x : α) (hx : x ∈ l)
    (hp : p x = false) : (l.filter p).length < l.length := by
  induction l with
  | nil => simp at hx
  | cons y ys ih =>
    rcases List.mem_cons.mp hx with h | h
    · subst h
      rw [List.filter_cons_of_neg (by simp [hp])]
      exact Nat.lt_succ_of_le (List.length_filter_le p ys)
    · have := ih h
      by_cases hy : p y = true
      · rw [List.filter_cons_of_pos hy]
        simpa using this
      · rw [List.filter_cons_of_neg hy]
        exact Nat.lt_succ_of_lt this

theorem trimmed_length_le (tree : List CompositionTreeNode) (node : CompositionTreeNode)
    (cur : List CompositionTreeNode) (bound : Nat) (hnode : node ∈ tree)
    (hcur : cur = tree ∨ cur = []) (hlen : tree.length ≤ bound + 1) :
    (cur.filter (fun n1 => n1.Level != node.Level && n1.ChildKind != node.ChildKind)).length
      ≤ bound := by
  rcases hcur with h | h
  · subst h
    have := length_filter_lt_of_mem
      (fun n1 => n1.Level != node.Level && n1.ChildKind != node.ChildKind) cur node hnode
      (by simp)
    omega
  · subst h
    simp

theorem getCompositionInner_foldl_tree
    (call : String → String → String → String → Int → List CompositionTreeNode →
      List CompositionTreeNode → Composition × List CompositionTreeNode)
    (tree : List CompositionTreeNode) (node : CompositionTreeNode)
    (ms : List MetaDataAndOwnerReferences) (st : GetCompositionState)
    (h : st.compositionTree = tree ∨ st.compositionTree = []) :
    (ms.foldl (getCompositionInner call node) st).compositionTree = tree ∨
      (ms.foldl (getCompositionInner call node) st).compositionTree = [] := by
  induction ms generalizing st with
  | nil => exact h
  | cons m ms ih => exact ih _ (Or.inr rfl)

theorem getCompositionOuter_tree
    (call : String → String → String → String → Int → List CompositionTreeNode →
      List CompositionTreeNode → Composition × List CompositionTreeNode)
    (tree : List CompositionTreeNode) (node : CompositionTreeNode) (st : GetCompositionState)
    (h : st.compositionTree = tree ∨ st.compositionTree = []) :
    (getCompositionOuter call st node).compositionTree = tree ∨
      (getCompositionOuter call st node).compositionTree = [] := by
  unfold getCompositionOuter
  split
  · exact h
  · exact getCompositionInner_foldl_tree call tree node _ st h

/-- Any two bounds that are at least the length of the flat list give the same
result: the bound `compositionTree.length` that `getComposition` passes is never
exhausted. -/
theorem getCompositionFuel_stable (f : Nat) :
    ∀ (g : Nat) (kind name ns status : String) (level : Int)
      (tree processedList : List CompositionTreeNode),
      tree.length ≤ f → tree.length ≤ g →
      getCompositionFuel f kind name ns status level tree processedList =
        getCompositionFuel g kind name ns status level tree processedList := by
  induction f with
  | zero =>
    intro g kind name ns status level tree pl hf _
    have ht : tree = [] := List.length_eq_zero.mp (Nat.le_zero.mp hf)
    subst ht
    cases g with
    | zero => rfl
    | succ b => rfl
  | succ a ih =>
    intro g kind name ns status level tree pl hf hg
    cases g with
    | zero =>
      have ht : tree = [] := List.length_eq_zero.mp (Nat.le_zero.mp hg)
      subst ht
      rfl
    | succ b =>
      have hinner : ∀ (node : CompositionTreeNode), node ∈ tree →
          ∀ (ms : List MetaDataAndOwnerReferences) (st : GetCompositionState),
            (st.compositionTree = tree ∨ st.compositionTree = []) →
            ms.foldl (getCompositionInner (getCompositionFuel a) node) st =
              ms.foldl (getCompositionInner (getCompositionFuel b) node) st := by
        intro node hnode ms
        induction ms with
        | nil => intro st _; rfl
        | cons m ms ihm =>
          intro st hst
          rw [List.foldl_cons, List.foldl_cons]
          have hstep : getCompositionInner (getCompositionFuel a) node st m =
              getCompositionInner (getCompositionFuel b) node st m := by
            unfold getCompositionInner
            simp only []
            rw [ih b _ _ _ _ _ _ _ (trimmed_length_le tree node _ a hnode hst hf)
              (trimmed_length_le tree node _ b hnode hst hg)]
          rw [hstep]
          exact ihm _ (Or.inr rfl)
      have houter : ∀ (nodes : List CompositionTreeNode), (∀ x ∈ nodes, x ∈ tree) →
          ∀ (st : GetCompositionState),
            (st.compositionTree = tree ∨ st.compositionTree = []) →
            nodes.foldl (getCompositionOuter (getCompositionFuel a)) st =
              nodes.foldl (getCompositionOuter (getCompositionFuel b)) st := by
        intro nodes
        induction nodes with
        | nil => intro _ st _; rfl
        | cons node nodes ihn =>
          intro hsub st hst
          rw [List.foldl_cons, List.foldl_cons]
          have hstep : getCompositionOuter (getCompositionFuel a) st node =
              getCompositionOuter (getCompositionFuel b) st node := by
            unfold getCompositionOuter
            split
            · rfl
            · exact hinner node (hsub node (List.mem_cons_self _ _)) _ st hst
          rw [hstep]
          exact ihn (fun x hx => hsub x (List.mem_cons_of_mem _ hx)) _
            (getCompositionOuter_tree _ tree node st hst)
      rw [getCompositionFuel_succ, getCompositionFuel_succ,
        houter tree (fun x hx => hx) _ (Or.inl rfl)]

/-! ## Termination of `buildCompositions` -/

theorem foldlM_option_isSome {α β : Type} (f : β → α → Option β) (l : List α)
    (h : ∀ s, ∀ x ∈ l, ∃ s2, f s x = some s2) (s : β) : ∃ r, l.foldlM f s = some r := by
  induction l generalizing s with
  | nil => exact ⟨s, rfl⟩
  | cons x xs ih =>
    obtain ⟨s2, hs2⟩ := h s x (List.mem_cons_self _ _)
    rw [List.foldlM_cons, hs2]
    exact ih (fun s y hy => h s y (List.mem_cons_of_mem _ hy)) s2

theorem foldlM_option_mono {α β : Type} (f g : β → α → Option β) (l : List α)
    (h : ∀ s, ∀ x ∈ l, ∀ s2, f s x = some s2 → g s x = some s2) (s r : β)
    (hf : l.foldlM f s = some r) : l.foldlM g s = some r := by
  induction l generalizing s with
  | nil => exact hf
  | cons x xs ih =>
    rw [List.foldlM_cons] at hf ⊢
    cases hx : f s x with
    | none => rw [hx] at hf; exact absurd hf (by simp)
    | some s2 =>
      rw [hx] at hf
      rw [h s x (List.mem_cons_self _ _) s2 hx]
      exact ih (fun s y hy => h s y (List.mem_cons_of_mem _ hy)) s2 hf

theorem foldlM_option_erase {α β γ : Type} (proj : γ → β) (f : β → α → Option β)
    (g : γ → α → Option γ) (l : List α)
    (h : ∀ s, ∀ x ∈ l, (g s x).map proj = f (proj s) x) (s : γ) :
    (l.foldlM g s).map proj = l.foldlM f (proj s) := by
  induction l generalizing s with
  | nil => rfl
  | cons x xs ih =>
    rw [List.foldlM_cons, List.foldlM_cons, ← h s x (List.mem_cons_self _ _)]
    cases hx : g s x with
    | none => rfl
    | some s2 => exact ih (fun s y hy => h s y (List.mem_cons_of_mem _ hy)) s2

theorem foldlM_option_invariant {α β : Type} (inv : β → Prop) (f : β → α → Option β)
    (l : List α) (h : ∀ s, ∀ x ∈ l, ∀ s2, inv s → f s x = some s2 → inv s2) (s r : β)
    (hs : inv s) (hf : l.foldlM f s = some r) : inv r := by
  induction l generalizing s with
  | nil =>
    have : s = r := by simpa using hf
    exact this ▸ hs
  | cons x xs ih =>
    rw [List.foldlM_cons] at hf
    cases hx : f s x with
    | none => rw [hx] at hf; exact absurd hf (by simp)
    | some s2 =>
      rw [hx] at hf
      exact ih (fun s y hy => h s y (List.mem_cons_of_mem _ hy)) s2
        (h s x (List.mem_cons_self _ _) s2 hs hx) hf

/-- A larger bound on the depth gives the same flat list. -/
theorem buildCompositions_mono (kpm kvm : GoMap String) (cm : GoMap (List String))
    (api : String → String → String → List MetaDataAndOwnerReferences) (fuel : Nat) :
    ∀ (kind name ns : String) (level : Int) (tree flat : List CompositionTreeNode),
      buildCompositions kpm kvm cm api fuel kind name ns level tree = some flat →
      buildCompositions kpm kvm cm api (fuel + 1) kind name ns level tree = some flat := by
  induction fuel with
  | zero => intro kind name ns level tree flat h; simp [buildCompositions] at h
  | succ f ih =>
    intro kind name ns level tree flat h
    rw [buildCompositions] at h ⊢
    cases hc : cm.get? kind with
    | none => rw [hc] at h; exact h
    | some kinds =>
      rw [hc] at h
      simp only [] at h ⊢
      refine foldlM_option_mono _ _ kinds ?_ tree flat h
      intro s ck _ s2 hs2
      refine foldlM_option_mono _ _ _ ?_ _ s2 hs2
      intro s3 m _ s4 hs4
      exact ih _ _ _ _ _ _ hs4

theorem buildCompositions_mono_le (kpm kvm : GoMap String) (cm : GoMap (List String))
    (api : String → String → String → List MetaDataAndOwnerReferences) (fuel fuel2 : Nat)
    (hle : fuel ≤ fuel2) (kind name ns : String) (level : Int)
    (tree flat : List CompositionTreeNode)
    (h : buildCompositions kpm kvm cm api fuel kind name ns level tree = some flat) :
    buildCompositions kpm kvm cm api fuel2 kind name ns level tree = some flat := by
  induction hle with
  | refl => exact h
  | step _ ih => exact buildCompositions_mono kpm kvm cm api _ _ _ _ _ _ _ ih

/-- With a ranking of the kinds that decreases from a kind to its child kinds,
a bound above the rank of the root kind is not reached. -/
theorem buildCompositions_isSome (kpm kvm : GoMap String) (cm : GoMap (List String))
    (api : String → String → String → List MetaDataAndOwnerReferences) (rank : String → Nat)
    (hrank : ∀ k cs, cm.get? k = some cs → ∀ c ∈ cs, rank c < rank k) (fuel : Nat) :
    ∀ (kind name ns : String) (level : Int) (tree : List CompositionTreeNode),
      rank kind < fuel →
      ∃ flat, buildCompositions kpm kvm cm api fuel kind name ns level tree = some flat := by
  induction fuel with
  | zero => intro kind name ns level tree h; exact absurd h (Nat.not_lt_zero _)
  | succ f ih =>
    intro kind name ns level tree h
    rw [buildCompositions]
    cases hc : cm.get? kind with
    | none => exact ⟨tree, rfl⟩
    | some kinds =>
      simp only []
      refine foldlM_option_isSome _ kinds ?_ tree
      intro s ck hck
      refine foldlM_option_isSome _ _ ?_ _
      intro s3 m _
      have := hrank kind kinds hc ck hck
      exact ih _ _ _ _ _ (by omega)

/-- Dropping the path and the flag of `buildCompositionsOpen` gives
`buildCompositions`. -/
theorem buildCompositionsOpen_erase (kpm kvm : GoMap String) (cm : GoMap (List String))
    (api : String → String → String → List MetaDataAndOwnerReferences) (fuel : Nat) :
    ∀ (path : List (String × String)) (kind name ns : String) (level : Int)
      (st : List CompositionTreeNode × Bool),
      (buildCompositionsOpen kpm kvm cm api fuel path kind name ns level st).map Prod.fst =
        buildCompositions kpm kvm cm api fuel kind name ns level st.1 := by
  induction fuel with
  | zero => intro path kind name ns level st; rfl
  | succ f ih =>
    intro path kind name ns level st
    rw [buildCompositions, buildCompositionsOpen]
    cases hc : cm.get? kind with
    | none => rfl
    | some kinds =>
      simp only []
      refine foldlM_option_erase Prod.fst _ _ kinds ?_ st
      intro s ck _
      refine foldlM_option_erase Prod.fst _ _ _ ?_ _
      intro s3 m _
      exact ih _ _ _ _ _ _

/-- With a ranking of the kinds that decreases from a kind to its child kinds,
and a path whose kinds all rank above the current kind, no recursive call is
made for an identity that is open. -/
theorem buildCompositionsOpen_flag (kpm kvm : GoMap String) (cm : GoMap (List String))
    (api : String → String → String → List MetaDataAndOwnerReferences) (rank : String → Nat)
    (hrank : ∀ k cs, cm.get? k = some cs → ∀ c ∈ cs, rank c < rank k) (fuel : Nat) :
    ∀ (path : List (String × String)) (kind name ns : String) (level : Int)
      (st r : List CompositionTreeNode × Bool),
      (∀ p ∈ path, rank kind < rank p.1) → st.2 = false →
      buildCompositionsOpen kpm kvm cm api fuel path kind name ns level st = some r →
      r.2 = false := by
  induction fuel with
  | zero => intro path kind name ns level st r _ _ h; simp [buildCompositionsOpen] at h
  | succ f ih =>
    intro path kind name ns level st r hpath hst h
    rw [buildCompositionsOpen] at h
    cases hc : cm.get? kind with
    | none =>
      rw [hc] at h
      have : st = r := by simpa using h
      exact this ▸ hst
    | some kinds =>
      rw [hc] at h
      simp only [] at h
      refine foldlM_option_invariant (fun s => s.2 = false) _ kinds ?_ st r hst h
      intro s ck hck s2 hs hs2
      refine foldlM_option_invariant (fun s => s.2 = false) _ _ ?_ _ s2 hs hs2
      intro s3 m _ s4 hs3 hs4
      have hlt := hrank kind kinds hc ck hck
      have hnot : (ck, m.MetaDataName) ∉ (kind, name) :: path := by
        intro hmem
        rcases List.mem_cons.mp hmem with heq | hin
        · have hk : ck = kind := (Prod.mk.inj heq).1
          rw [hk] at hlt
          exact Nat.lt_irrefl _ hlt
        · have := hpath _ hin
          simp only at this
          omega
      refine ih _ _ _ _ _ _ s4 ?_ ?_ hs4
      · intro p hp
        rcases List.mem_cons.mp hp with heq | hin
        · rw [heq]; exact hlt
        · exact Nat.lt_trans hlt (hpath p hin)
      · simp [hs3, hnot]

theorem GoMap.mem_of_get? {α : Type} (m : GoMap α) (k : String) (v : α)
    (h : m.get? k = some v) : (k, v) ∈ m := by
  unfold GoMap.get? at h
  induction m with
  | nil => simp [List.lookup] at h
  | cons kv rest ih =>
    obtain ⟨k1, v1⟩ := kv
    rw [List.lookup] at h
    cases hk : (k == k1) with
    | true =>
      rw [hk] at h
      have hkeq : k = k1 := by simpa using hk
      have hveq : v1 = v := by simpa using h
      rw [hkeq, hveq]
      exact List.mem_cons_self _ _
    | false =>
      rw [hk] at h
      exact List.mem_cons_of_mem _ (ih h)

theorem cyclic_never_returns (fuel : Nat) :
    ∀ (level : Int) (tree : List CompositionTreeNode),
      buildCompositions cyclicKindPluralMap cyclicKindVersionMap cyclicCompositionMap
          cyclicCluster fuel "KindA" "a" "default" level tree = none ∧
      buildCompositions cyclicKindPluralMap cyclicKindVersionMap cyclicCompositionMap
          cyclicCluster fuel "KindB" "b" "default" level tree = none := by
  induction fuel with
  | zero => intro level tree; exact ⟨rfl, rfl⟩
  | succ f ih =>
    intro level tree
    have hA : cyclicCompositionMap.get? "KindA" = some ["KindB"] := by decide
    have hB : cyclicCompositionMap.get? "KindB" = some ["KindA"] := by decide
    have hcA : filterChildren (cyclicCluster (cyclicKindVersionMap.get "KindB")
        (cyclicKindPluralMap.get "KindB") "default") "a" = [ownedBy "b" "" "a"] := by decide
    have hcB : filterChildren (cyclicCluster (cyclicKindVersionMap.get "KindA")
        (cyclicKindPluralMap.get "KindA") "default") "b" = [ownedBy "a" "" "b"] := by decide
    constructor
    · rw [buildCompositions, hA]
      simp only [List.foldlM_cons, List.foldlM_nil, hcA]
      have h := (ih (level + 1)
        (tree ++ [⟨level + 1, "KindB", [ownedBy "b" "" "a"]⟩])).2
      simp only [ownedBy] at h ⊢
      rw [h]
      rfl
    · rw [buildCompositions, hB]
      simp only [List.foldlM_cons, List.foldlM_nil, hcB]
      have h := (ih (level + 1)
        (tree ++ [⟨level + 1, "KindA", [ownedBy "a" "" "b"]⟩])).1
      simp only [ownedBy] at h ⊢
      rw [h]
      rfl

/-! ## Claims on `buildCompositions` and on the rebuilt tree -/

/-- Witness of `deployment_scenario`: the range over the map visits the entries in
the reverse of the order in which `init` wrote them. -/
theorem deployment_scenario_witness :
    ∃ flat, buildCompositions baselineKindPluralMap baselineKindVersionMap
        baselineCompositionMap webCluster (0 + 3) "Deployment" "web" "default" 1 []
        = some flat ∧
      GetCompositions ToLower baselineKindPluralMap (fun _ => baselineKindPluralMap.reverse)
        (storeCompositions [] (ownedBy "web" "Ready" "") "Deployment" "web" "default" flat)
        "Deployment" "web" "default" =
      [Composition.mk 1 "deployment" "web" "default" (ownedBy "web" "Ready" "").Status
        [Composition.mk 2 "ReplicaSet" "web-abc123" "default" "Ready"
          [Composition.mk 3 "Pod" "web-abc123-x1" "default" "Running" [],
           Composition.mk 3 "Pod" "web-abc123-x2" "default" "Running" []]]] :=
  deployment_scenario 0 (fun _ => baselineKindPluralMap.reverse)
    (fun _ => List.reverse_perm _) (ownedBy "web" "Ready" "")

/-- C3 fails on the code: with the baseline schema and a Deployment "web" that
owns the ReplicaSets "rs1" and "rs2", where Pod "p1" is owned by "rs1" and Pod
"p2" by "rs2", the rebuilt tree gives "rs2" no children, so the Pod "p2" owned
by "rs2" is omitted (first part); and when only "rs2" owns a Pod, "p2", the
rebuilt tree attaches "p2" to "rs1" (second part). -/
theorem rebuilt_tree_children_failure :
    (buildCompositions baselineKindPluralMap baselineKindVersionMap baselineCompositionMap
        twoReplicaSetsCluster 3 "Deployment" "web" "default" 1 []
      = some [⟨2, "ReplicaSet", [ownedBy "rs1" "Ready" "web", ownedBy "rs2" "Ready" "web"]⟩,
              ⟨3, "Pod", [ownedBy "p1" "Running" "rs1"]⟩,
              ⟨3, "Pod", [ownedBy "p2" "Running" "rs2"]⟩] ∧
     GetCompositions ToLower baselineKindPluralMap (fun _ => baselineKindPluralMap)
        (storeCompositions [] (ownedBy "web" "Ready" "") "Deployment" "web" "default"
          [⟨2, "ReplicaSet", [ownedBy "rs1" "Ready" "web", ownedBy "rs2" "Ready" "web"]⟩,
           ⟨3, "Pod", [ownedBy "p1" "Running" "rs1"]⟩,
           ⟨3, "Pod", [ownedBy "p2" "Running" "rs2"]⟩])
        "Deployment" "web" "default" =
      [Composition.mk 1 "deployment" "web" "default" "Ready"
        [Composition.mk 2 "ReplicaSet" "rs1" "default" "Ready"
          [Composition.mk 3 "Pod" "p1" "default" "Running" []],
         Composition.mk 2 "ReplicaSet" "rs2" "default" "Ready" []]]) ∧
    (buildCompositions baselineKindPluralMap baselineKindVersionMap baselineCompositionMap
        idleReplicaSetCluster 3 "Deployment" "web" "default" 1 []
      = some [⟨2, "ReplicaSet", [ownedBy "rs1" "Ready" "web", ownedBy "rs2" "Ready" "web"]⟩,
              ⟨3, "Pod", []⟩,
              ⟨3, "Pod", [ownedBy "p2" "Running" "rs2"]⟩] ∧
     GetCompositions ToLower baselineKindPluralMap (fun _ => baselineKindPluralMap)
        (storeCompositions [] (ownedBy "web" "Ready" "") "Deployment" "web" "default"
          [⟨2, "ReplicaSet", [ownedBy "rs1" "Ready" "web", ownedBy "rs2" "Ready" "web"]⟩,
           ⟨3, "Pod", []⟩,
           ⟨3, "Pod", [ownedBy "p2" "Running" "rs2"]⟩])
        "Deployment" "web" "default" =
      [Composition.mk 1 "deployment" "web" "default" "Ready"
        [Composition.mk 2 "ReplicaSet" "rs1" "default" "Ready"
          [Composition.mk 3 "Pod" "p2" "default" "Running" []],
         Composition.mk 2 "ReplicaSet" "rs2" "default" "Ready" []]]) := by
  decide

/-- C4 as stated fails: with a schema in which KindA lists KindB as a child and
KindB lists KindA, and a listing in which "a" is owned by "b" and "b" by "a",
`buildCompositions` started from (KindA, "a") returns under no bound on the
depth of its recursion: it re-enters (KindA, "a") while that call is open. -/
theorem buildCompositions_cycle_counterexample :
    ¬ ∃ fuel, (buildCompositions cyclicKindPluralMap cyclicKindVersionMap
        cyclicCompositionMap cyclicCluster fuel "KindA" "a" "default" 1 []).isSome = true := by
  rintro ⟨fuel, h⟩
  rw [(cyclic_never_returns fuel 1 []).1] at h
  exact absurd h (by decide)

/-- C4 (amended): for every schema whose child-kind graph has no cycle (there is a
ranking of the kinds that decreases from each kind to each of its child kinds)
and every cluster listing, `buildCompositions` started from any root terminates
(every bound above the rank of the root kind gives the same flat list), and it
never recurses into a (kind, name) identity that is open on the current
recursion path (the flag of `buildCompositionsOpen` stays `false`). -/
theorem buildCompositions_acyclic (kpm kvm : GoMap String) (cm : GoMap (List String))
    (api : String → String → String → List MetaDataAndOwnerReferences) (rank : String → Nat)
    (hrank : ∀ k cs, cm.get? k = some cs → ∀ c ∈ cs, rank c < rank k)
    (kind name ns : String) (level : Int) (tree : List CompositionTreeNode) :
    ∃ flat, ∀ fuel, rank kind < fuel →
      buildCompositions kpm kvm cm api fuel kind name ns level tree = some flat ∧
      buildCompositionsOpen kpm kvm cm api fuel [] kind name ns level (tree, false)
        = some (flat, false) := by
  obtain ⟨flat, hflat⟩ := buildCompositions_isSome kpm kvm cm api rank hrank (rank kind + 1)
    kind name ns level tree (Nat.lt_succ_self _)
  refine ⟨flat, ?_⟩
  intro fuel hfuel
  have hb := buildCompositions_mono_le kpm kvm cm api (rank kind + 1) fuel hfuel kind name ns
    level tree flat hflat
  refine ⟨hb, ?_⟩
  have he := buildCompositionsOpen_erase kpm kvm cm api fuel [] kind name ns level (tree, false)
  rw [hb] at he
  cases ho : buildCompositionsOpen kpm kvm cm api fuel [] kind name ns level (tree, false) with
  | none => rw [ho] at he; exact absurd he (by simp)
  | some r =>
    rw [ho] at he
    have h1 : r.1 = flat := by simpa using he
    have h2 : r.2 = false :=
      buildCompositionsOpen_flag kpm kvm cm api rank hrank fuel [] kind name ns level
        (tree, false) r (by simp) rfl ho
    obtain ⟨r1, r2⟩ := r
    simp only at h1 h2
    rw [h1, h2]

/-- Witness of `buildCompositions_acyclic`: the baseline schema, ranked by
`baselineRank`, and the Deployment "web" of `webCluster`. -/
theorem buildCompositions_acyclic_witness :
    ∃ flat, ∀ fuel, baselineRank "Deployment" < fuel →
      buildCompositions baselineKindPluralMap baselineKindVersionMap baselineCompositionMap
        webCluster fuel "Deployment" "web" "default" 1 [] = some flat ∧
      buildCompositionsOpen baselineKindPluralMap baselineKindVersionMap
        baselineCompositionMap webCluster fuel [] "Deployment" "web" "default" 1 ([], false)
        = some (flat, false) :=
  buildCompositions_acyclic baselineKindPluralMap baselineKindVersionMap
    baselineCompositionMap webCluster baselineRank
    (fun k cs h c hc => by
      have hmem := GoMap.mem_of_get? baselineCompositionMap k cs h
      have hall : ∀ kv ∈ baselineCompositionMap, ∀ c ∈ kv.2,
          baselineRank c < baselineRank kv.1 := by decide
      exact hall (k, cs) hmem c hc)
    "Deployment" "web" "default" 1 []

/-! ## Lemmas on `parseMetaData` -/

theorem lookup_eq_none_of_not_mem {α : Type} (l : List (String × α)) (k : String)
    (h : k ∉ l.map Prod.fst) : l.lookup k = none := by
  induction l with
  | nil => rfl
  | cons kv rest ih =>
    obtain ⟨k1, v1⟩ := kv
    rw [List.map_cons, List.mem_cons, not_or] at h
    have hne : (k == k1) = false := by simpa using h.1
    rw [List.lookup, hne]
    exact ih h.2

theorem parseOwnerReferenceKey_status (ref ref2 : MetaDataAndOwnerReferences)
    (kv : String × JSONValue) (h : parseOwnerReferenceKey ref kv = some ref2) :
    ref2.Status = ref.Status := by
  unfold parseOwnerReferenceKey at h
  simp only [Option.bind_eq_some] at h
  obtain ⟨r1, h1, r2, h2, h3⟩ := h
  have e1 : r1.Status = ref.Status := by
    split at h1
    · simp only [Option.map_eq_some'] at h1
      obtain ⟨x, _, hx⟩ := h1
      rw [← hx]
    · simp only [Option.some.injEq] at h1
      rw [h1]
  have e2 : r2.Status = r1.Status := by
    split at h2
    · simp only [Option.map_eq_some'] at h2
      obtain ⟨x, _, hx⟩ := h2
      rw [← hx]
    · simp only [Option.some.injEq] at h2
      rw [h2]
  have e3 : ref2.Status = r2.Status := by
    split at h3
    · simp only [Option.map_eq_some'] at h3
      obtain ⟨x, _, hx⟩ := h3
      rw [← hx]
    · simp only [Option.some.injEq] at h3
      rw [h3]
  rw [e3, e2, e1]

theorem parseOwnerReference_status (ref ref2 : MetaDataAndOwnerReferences)
    (ownerReference : JSONValue) (h : parseOwnerReference ref ownerReference = some ref2) :
    ref2.Status = ref.Status := by
  unfold parseOwnerReference at h
  simp only [Option.bind_eq_some] at h
  obtain ⟨m, _, hm⟩ := h
  exact foldlM_option_invariant (fun r => r.Status = ref.Status) parseOwnerReferenceKey m
    (fun s x _ s2 hs hs2 => (parseOwnerReferenceKey_status s s2 x hs2).trans hs) ref ref2 rfl hm

theorem parseMetadataKey_status (ref ref2 : MetaDataAndOwnerReferences)
    (kv : String × JSONValue) (h : parseMetadataKey ref kv = some ref2) :
    ref2.Status = ref.Status := by
  unfold parseMetadataKey at h
  simp only [Option.bind_eq_some] at h
  obtain ⟨r1, h1, r2, h2, h3⟩ := h
  have e1 : r1.Status = ref.Status := by
    split at h1
    · simp only [Option.bind_eq_some] at h1
      obtain ⟨l, _, hl⟩ := h1
      exact foldlM_option_invariant (fun r => r.Status = ref.Status) parseOwnerReference l
        (fun s x _ s2 hs hs2 => (parseOwnerReference_status s s2 x hs2).trans hs) ref r1 rfl hl
    · simp only [Option.some.injEq] at h1
      rw [h1]
  have e2 : r2.Status = r1.Status := by
    split at h2
    · simp only [Option.map_eq_some'] at h2
      obtain ⟨x, _, hx⟩ := h2
      rw [← hx]
    · simp only [Option.some.injEq] at h2
      rw [h2]
  have e3 : ref2.Status = r2.Status := by
    split at h3
    · simp only [Option.map_eq_some'] at h3
      obtain ⟨x, _, hx⟩ := h3
      rw [← hx]
    · simp only [Option.some.injEq] at h3
      rw [h3]
  rw [e3, e2, e1]

theorem parseMetadataMap_status (ref ref2 : MetaDataAndOwnerReferences)
    (metadataMap : List (String × JSONValue))
    (h : metadataMap.foldlM parseMetadataKey ref = some ref2) : ref2.Status = ref.Status :=
  foldlM_option_invariant (fun r => r.Status = ref.Status) parseMetadataKey metadataMap
    (fun s x _ s2 hs hs2 => (parseMetadataKey_status s s2 x hs2).trans hs) ref ref2 rfl h

theorem parseStatusKey_fields (s s1 : StatusState) (kv : String × JSONValue)
    (h : parseStatusKey s kv = some s1) :
    s1.Status = (if kv.1 = "phase" then kv.2.asString.getD s.Status else s.Status) ∧
    s1.replicas = (if kv.1 = "replicas" then kv.2.asNumber.getD s.replicas else s.replicas) ∧
    s1.readyReplicas =
      (if kv.1 = "readyReplicas" then kv.2.asNumber.getD s.readyReplicas
        else s.readyReplicas) ∧
    s1.availableReplicas =
      (if kv.1 = "availableReplicas" then kv.2.asNumber.getD s.availableReplicas
        else s.availableReplicas) := by
  obtain ⟨k, v⟩ := kv
  by_cases hp : k = "phase"
  · subst hp
    simp [parseStatusKey] at h
    obtain ⟨x, hx, rfl⟩ := h
    simp [hx]
  · by_cases hr : k = "replicas"
    · subst hr
      simp [parseStatusKey] at h
      obtain ⟨x, hx, rfl⟩ := h
      simp [hx]
    · by_cases hrr : k = "readyReplicas"
      · subst hrr
        simp [parseStatusKey] at h
        obtain ⟨x, hx, rfl⟩ := h
        simp [hx]
      · by_cases ha : k = "availableReplicas"
        · subst ha
          simp [parseStatusKey] at h
          obtain ⟨x, hx, rfl⟩ := h
          simp [hx]
        · simp [parseStatusKey, hp, hr, hrr, ha] at h
          subst h
          simp [hp, hr, hrr, ha]

theorem parseStatusKeys_field {β : Type} (get : StatusState → β) (key : String)
    (ex : JSONValue → Option β)
    (hstep : ∀ s kv s1, parseStatusKey s kv = some s1 →
      get s1 = if kv.1 = key then (ex kv.2).getD (get s) else get s)
    (l : List (String × JSONValue)) (hnd : (l.map Prod.fst).Nodup) :
    ∀ s s2, l.foldlM parseStatusKey s = some s2 →
      get s2 = ((l.lookup key).bind ex).getD (get s) := by
  induction l with
  | nil =>
    intro s s2 h
    have : s = s2 := by simpa using h
    rw [← this]
    rfl
  | cons kv rest ih =>
    intro s s2 h
    obtain ⟨k, v⟩ := kv
    rw [List.map_cons, List.nodup_cons] at hnd
    rw [List.foldlM_cons] at h
    cases hs1 : parseStatusKey s (k, v) with
    | none => rw [hs1] at h; exact absurd h (by simp)
    | some s1 =>
      rw [hs1] at h
      have h1 := hstep s (k, v) s1 hs1
      have h2 := ih hnd.2 s1 s2 h
      by_cases hk : k = key
      · subst hk
        rw [h2, lookup_eq_none_of_not_mem rest k hnd.1, h1]
        simp [List.lookup]
      · have hne : (key == k) = false := by
          simpa using fun e : key = k => hk e.symm
        rw [h2, h1, List.lookup, hne]
        simp [hk]

theorem parseStatusMap_eq (status : String) (statusMap : List (String × JSONValue))
    (hnd : (statusMap.map Prod.fst).Nodup) (r : String)
    (h : parseStatusMap status statusMap = some r) :
    r = if 0 < ((statusMap.lookup "replicas").bind JSONValue.asNumber).getD 0
          ∧ ((statusMap.lookup "replicas").bind JSONValue.asNumber).getD 0
              = ((statusMap.lookup "readyReplicas").bind JSONValue.asNumber).getD 0
          ∧ ((statusMap.lookup "replicas").bind JSONValue.asNumber).getD 0
              = ((statusMap.lookup "availableReplicas").bind JSONValue.asNumber).getD 0
        then "Ready"
        else ((statusMap.lookup "phase").bind JSONValue.asString).getD status := by
  unfold parseStatusMap at h
  simp only [Option.map_eq_some'] at h
  obtain ⟨st, hst, hr⟩ := h
  have e1 := parseStatusKeys_field (fun s => s.Status) "phase" JSONValue.asString
    (fun s kv s1 hs => (parseStatusKey_fields s s1 kv hs).1) statusMap hnd _ st hst
  have e2 := parseStatusKeys_field (fun s => s.replicas) "replicas" JSONValue.asNumber
    (fun s kv s1 hs => (parseStatusKey_fields s s1 kv hs).2.1) statusMap hnd _ st hst
  have e3 := parseStatusKeys_field (fun s => s.readyReplicas) "readyReplicas"
    JSONValue.asNumber
    (fun s kv s1 hs => (parseStatusKey_fields s s1 kv hs).2.2.1) statusMap hnd _ st hst
  have e4 := parseStatusKeys_field (fun s => s.availableReplicas) "availableReplicas"
    JSONValue.asNumber
    (fun s kv s1 hs => (parseStatusKey_fields s s1 kv hs).2.2.2) statusMap hnd _ st hst
  simp only at e1 e2 e3 e4
  rw [← hr, e1, e2, e3, e4]
  by_cases c1 : 0 < ((statusMap.lookup "replicas").bind JSONValue.asNumber).getD 0
  · by_cases c2 : ((statusMap.lookup "replicas").bind JSONValue.asNumber).getD 0
        = ((statusMap.lookup "availableReplicas").bind JSONValue.asNumber).getD 0
    · by_cases c3 : ((statusMap.lookup "replicas").bind JSONValue.asNumber).getD 0
          = ((statusMap.lookup "readyReplicas").bind JSONValue.asNumber).getD 0
      · rw [if_pos c1, if_pos ⟨c2, c3⟩, if_pos ⟨c1, c3, c2⟩]
      · rw [if_pos c1, if_neg (fun hc => c3 hc.2), if_neg (fun hc => c3 hc.2.1)]
    · rw [if_pos c1, if_neg (fun hc => c2 hc.1), if_neg (fun hc => c2 hc.2.2)]
  · rw [if_neg c1, if_neg (fun hc => c1 hc.1)]

theorem lookup_eq_some_of_mem {α : Type} (l : List (String × α)) (k : String) (v : α)
    (hnd : (l.map Prod.fst).Nodup) (h : (k, v) ∈ l) : l.lookup k = some v := by
  induction l with
  | nil => simp at h
  | cons kv rest ih =>
    obtain ⟨k1, v1⟩ := kv
    rw [List.map_cons, List.nodup_cons] at hnd
    rcases List.mem_cons.mp h with heq | hin
    · have hk : k1 = k := (Prod.mk.inj heq).1.symm
      have hv : v1 = v := (Prod.mk.inj heq).2.symm
      subst hk; subst hv
      simp [List.lookup]
    · have hne : (k == k1) = false := by
        have : k ≠ k1 := by
          intro e
          apply hnd.1
          rw [← e]
          exact List.mem_map.mpr ⟨(k, v), hin, rfl⟩
        simpa using this
      rw [List.lookup, hne]
      exact ih hnd.2 hin

theorem statusKeyExists_of_mem (l : List (String × JSONValue)) (v : JSONValue)
    (h : ("status", v) ∈ l) (b : Bool) :
    l.foldl (fun statusKeyExists kv => if kv.1 = "status" then true else statusKeyExists) b
      = true := by
  induction l generalizing b with
  | nil => simp at h
  | cons kv rest ih =>
    rw [List.foldl_cons]
    rcases List.mem_cons.mp h with heq | hin
    · rw [← heq]
      simp only [if_true]
      clear ih h heq
      induction rest with
      | nil => rfl
      | cons kv2 rest2 ih2 =>
        rw [List.foldl_cons]
        split
        · exact ih2
        · exact ih2
    · exact ih hin _

theorem parseStatusMap_derived (status : String) (statusMap : List (String × JSONValue))
    (hnd : (statusMap.map Prod.fst).Nodup) (r : String)
    (hs : status = "" ∨ status = derivedStatus statusMap)
    (h : parseStatusMap status statusMap = some r) : r = derivedStatus statusMap := by
  have e := parseStatusMap_eq status statusMap hnd r h
  rw [e]
  unfold derivedStatus
  simp only []
  split
  · rfl
  · rename_i hc
    rcases hs with h1 | h1
    · rw [h1]
    · rw [h1]
      unfold derivedStatus
      simp only []
      rw [if_neg hc]
      cases ((statusMap.lookup "phase").bind JSONValue.asString) with
      | none => rfl
      | some x => rfl

theorem parseItemKey_status (statusMap itemConverted : List (String × JSONValue))
    (slice : List MetaDataAndOwnerReferences)
    (hkeys : (itemConverted.map Prod.fst).Nodup)
    (hstatus : ("status", JSONValue.object statusMap) ∈ itemConverted)
    (hsk : (statusMap.map Prod.fst).Nodup)
    (st st2 : ItemState) (kv : String × JSONValue) (hkv : kv ∈ itemConverted)
    (hinv : (∃ recs, st.metaDataSlice = slice ++ recs ∧
          ∀ r ∈ recs, r.Status = derivedStatus statusMap) ∧
        (st.metaDataRef.Status = "" ∨ st.metaDataRef.Status = derivedStatus statusMap) ∧
        (st.statusProcessed = true → st.metaDataRef.Status = derivedStatus statusMap))
    (h : parseItemKey true st kv = some st2) :
    (∃ recs, st2.metaDataSlice = slice ++ recs ∧
          ∀ r ∈ recs, r.Status = derivedStatus statusMap) ∧
        (st2.metaDataRef.Status = "" ∨ st2.metaDataRef.Status = derivedStatus statusMap) ∧
        (st2.statusProcessed = true → st2.metaDataRef.Status = derivedStatus statusMap) := by
  obtain ⟨k, v⟩ := kv
  unfold parseItemKey at h
  simp only [Option.bind_eq_some, Option.map_eq_some'] at h
  obtain ⟨s1, h1, s2, h2, h3⟩ := h
  -- the handling of `metadata` leaves the slice, the status flag and the status
  have e1 : s1.metaDataSlice = st.metaDataSlice ∧ s1.statusProcessed = st.statusProcessed ∧
      s1.metaDataRef.Status = st.metaDataRef.Status := by
    split at h1
    · simp only [Option.bind_eq_some, Option.map_eq_some'] at h1
      obtain ⟨m, _, ref, href, hs1⟩ := h1
      rw [← hs1]
      exact ⟨rfl, rfl, parseMetadataMap_status _ _ m href⟩
    · simp only [Option.some.injEq] at h1
      rw [← h1]
      exact ⟨rfl, rfl, rfl⟩
  -- the handling of `status` sets the derived status
  have e2 : s2.metaDataSlice = s1.metaDataSlice ∧
      (s2.metaDataRef.Status = "" ∨ s2.metaDataRef.Status = derivedStatus statusMap) ∧
      (s2.statusProcessed = true → s2.metaDataRef.Status = derivedStatus statusMap) := by
    split at h2
    · rename_i hk
      have hk2 : k = "status" := hk
      subst hk2
      have hv : v = JSONValue.object statusMap := by
        have a1 := lookup_eq_some_of_mem itemConverted "status" v hkeys hkv
        have a2 := lookup_eq_some_of_mem itemConverted "status" _ hkeys hstatus
        rw [a1] at a2
        exact Option.some.inj a2
      subst hv
      simp only [JSONValue.asObject, Option.bind_eq_some, Option.map_eq_some',
        Option.some.injEq] at h2
      obtain ⟨m, hm, status, hst, hs2⟩ := h2
      subst hm
      have hd := parseStatusMap_derived _ _ hsk status (by rw [e1.2.2]; exact hinv.2.1) hst
      rw [← hs2]
      exact ⟨rfl, Or.inr hd, fun _ => hd⟩
    · simp only [Option.some.injEq] at h2
      rw [← h2, e1.2.2, e1.2.1]
      exact ⟨rfl, hinv.2.1, hinv.2.2⟩
  obtain ⟨recs, hrecs, hall⟩ := hinv.1
  rw [← h3]
  simp only [if_true]
  split
  · rename_i hboth
    have hsp : s2.statusProcessed = true := by
      simp only [Bool.and_eq_true] at hboth
      exact hboth.2
    refine ⟨⟨recs ++ [s2.metaDataRef], ?_, ?_⟩, e2.2.1, e2.2.2⟩
    · simp only
      rw [e2.1, e1.1, hrecs, List.append_assoc]
    · intro r hr
      rcases List.mem_append.mp hr with h4 | h4
      · exact hall r h4
      · rw [List.mem_singleton] at h4
        rw [h4]
        exact e2.2.2 hsp
  · exact ⟨⟨recs, by rw [e2.1, e1.1, hrecs], hall⟩, e2.2.1, e2.2.2⟩

/-- C8: for every list item, given as the entries of its object in the order in
which they are visited, that has a `status` object: every record that
`parseMetaData` appends for the item has the derived status, "Ready" when
`replicas`, `readyReplicas` and `availableReplicas` are equal and greater than
zero, whatever `phase` holds, and otherwise the raw `phase` (empty when there is
none). -/
theorem status_derivation (itemConverted statusMap : List (String × JSONValue))
    (metaDataSlice out : List MetaDataAndOwnerReferences)
    (hkeys : (itemConverted.map Prod.fst).Nodup)
    (hstatus : ("status", JSONValue.object statusMap) ∈ itemConverted)
    (hsk : (statusMap.map Prod.fst).Nodup)
    (h : parseItem (JSONValue.object itemConverted) metaDataSlice = some out) :
    ∃ recs, out = metaDataSlice ++ recs ∧ ∀ r ∈ recs, r.Status = derivedStatus statusMap := by
  unfold parseItem at h
  simp only [JSONValue.asObject, Option.bind_eq_some, Option.map_eq_some',
    Option.some.injEq] at h
  obtain ⟨m, hm, st, hst, hout⟩ := h
  subst hm
  rw [statusKeyExists_of_mem itemConverted _ hstatus false] at hst
  have hinv := foldlM_option_invariant
    (fun (s : ItemState) => (∃ recs, s.metaDataSlice = metaDataSlice ++ recs ∧
          ∀ r ∈ recs, r.Status = derivedStatus statusMap) ∧
        (s.metaDataRef.Status = "" ∨ s.metaDataRef.Status = derivedStatus statusMap) ∧
        (s.statusProcessed = true → s.metaDataRef.Status = derivedStatus statusMap))
    (parseItemKey true) itemConverted
    (fun s x hx s2 hs hs2 =>
      parseItemKey_status statusMap itemConverted metaDataSlice hkeys hstatus hsk s s2 x hx hs hs2)
    _ st ⟨⟨[], by simp, by simp⟩, Or.inl rfl, by simp⟩ hst
  rw [← hout]
  exact hinv.1

/-- Witness of `status_derivation`: the item `readyItem` reports three replicas,
all ready and available, with the raw phase "Pending"; both records appended for
it have the status "Ready". -/
theorem status_derivation_witness :
    derivedStatus readyStatus = "Ready" ∧
    ∃ recs, [(⟨"web", "Ready", "default", "", "", ""⟩ : MetaDataAndOwnerReferences),
        ⟨"web", "Ready", "default", "", "", ""⟩] = [] ++ recs ∧
      ∀ r ∈ recs, r.Status = derivedStatus readyStatus :=
  ⟨by decide,
   status_derivation readyItem readyStatus []
    [⟨"web", "Ready", "default", "", "", ""⟩, ⟨"web", "Ready", "default", "", "", ""⟩]
    (by decide) (by simp [readyItem]) (by decide) (by decide)⟩

/-! ## Claims on the purge -/

theorem flatMap_filter_of_nil {α β : Type} (p : α → Bool) (g : α → List β) (l : List α)
    (h : ∀ x ∈ l, p x = false → g x = []) : l.flatMap g = (l.filter p).flatMap g := by
  induction l with
  | nil => rfl
  | cons x xs ih =>
    have ih2 := ih (fun y hy => h y (List.mem_cons_of_mem _ hy))
    cases hp : p x with
    | true => rw [List.filter_cons_of_pos hp, List.flatMap_cons, List.flatMap_cons, ih2]
    | false =>
      rw [List.filter_cons_of_neg (by simp [hp]), List.flatMap_cons,
        h x (List.mem_cons_self _ _) hp, List.nil_append, ih2]

theorem countP_name_pos_iff (observed : List MetaDataAndOwnerReferences) (x : String) :
    0 < observed.countP (fun o => decide (o.MetaDataName = x)) ↔
      x ∈ observed.map (fun o => o.MetaDataName) := by
  rw [List.countP_pos_iff, List.mem_map]
  constructor
  · rintro ⟨o, ho, hp⟩
    exact ⟨o, ho, by simpa using hp⟩
  · rintro ⟨o, ho, hp⟩
    exact ⟨o, ho, by simpa using hp⟩

/-- C11: a record is in the store after `purgeCompositionOfDeletedItems` if and only
if it was in the store before and some observed instance has its Name as
MetaDataName; neither the kind nor the namespace of the observed instance is
looked at.  The new store is the list of the records of the old store whose Name
is observed, in their old order and with their fields unchanged, each record
standing once for every observed instance of its name (at least once, and
exactly once when the observed list holds no name twice). -/
theorem purge_keeps_by_name (cp : List Compositions)
    (observed : List MetaDataAndOwnerReferences) :
    (∀ r, r ∈ purgeCompositionOfDeletedItems cp observed ↔
      r ∈ cp ∧ ∃ o ∈ observed, o.MetaDataName = r.Name) ∧
    purgeCompositionOfDeletedItems cp observed =
      (cp.filter (fun r => decide (r.Name ∈ observed.map (fun o => o.MetaDataName)))).flatMap
        (fun r => List.replicate
          (observed.countP (fun o => decide (o.MetaDataName = r.Name))) r) ∧
    (∀ r ∈ cp.filter (fun r => decide (r.Name ∈ observed.map (fun o => o.MetaDataName))),
      1 ≤ observed.countP (fun o => decide (o.MetaDataName = r.Name))) ∧
    ((observed.map (fun o => o.MetaDataName)).Nodup →
      purgeCompositionOfDeletedItems cp observed =
        cp.filter (fun r => decide (r.Name ∈ observed.map (fun o => o.MetaDataName)))) := by
  refine ⟨?_, ?_, ?_, ?_⟩
  · intro r
    constructor
    · intro h
      exact purge_mem cp observed r h
    · rintro ⟨hr, o, ho, hname⟩
      rw [purge_eq_flatMap, List.mem_flatMap]
      refine ⟨r, hr, List.mem_replicate.mpr ⟨?_, rfl⟩⟩
      have hpos := (countP_name_pos_iff observed r.Name).mpr
        (List.mem_map.mpr ⟨o, ho, hname⟩)
      omega
  · rw [purge_eq_flatMap]
    apply flatMap_filter_of_nil
    intro r _ hp
    have hnot : ¬ r.Name ∈ observed.map (fun o => o.MetaDataName) := by simpa using hp
    have hz : observed.countP (fun o => decide (o.MetaDataName = r.Name)) = 0 := by
      have := (countP_name_pos_iff observed r.Name).not.mpr hnot
      omega
    rw [hz]
    rfl
  · intro r hr
    have hin : r.Name ∈ observed.map (fun o => o.MetaDataName) := by
      simpa using (List.mem_filter.mp hr).2
    exact (countP_name_pos_iff observed r.Name).mpr hin
  · intro hnd
    exact purge_eq_filter cp observed hnd

/-! ## Claims on `filterChildren` -/

theorem filterChildren_present (acc : List MetaDataAndOwnerReferences) (name : String)
    (b : Bool) :
    acc.foldl (fun present node => if node.MetaDataName = name then true else present) b
      = (b || decide (name ∈ acc.map (fun o => o.MetaDataName))) := by
  induction acc generalizing b with
  | nil => simp
  | cons x xs ih =>
    rw [List.foldl_cons, ih]
    by_cases h : x.MetaDataName = name
    · simp [h]
    · have h2 : ¬ name = x.MetaDataName := fun e => h e.symm
      simp [h, h2]

theorem filterChildren_foldl (p : String) (l acc : List MetaDataAndOwnerReferences) :
    l.foldl (fun metaDataSliceToReturn metaDataRef =>
      if metaDataRef.OwnerReferenceName = p then
        let present := metaDataSliceToReturn.foldl (fun present node =>
          if node.MetaDataName = metaDataRef.MetaDataName then true else present) false
        if !present then metaDataSliceToReturn ++ [metaDataRef] else metaDataSliceToReturn
      else metaDataSliceToReturn) acc
    = acc ++ firstPerName (acc.map (fun o => o.MetaDataName))
        (l.filter (fun o => decide (o.OwnerReferenceName = p))) := by
  induction l generalizing acc with
  | nil => simp [firstPerName]
  | cons x xs ih =>
    rw [List.foldl_cons, ih]
    by_cases ho : x.OwnerReferenceName = p
    · rw [List.filter_cons_of_pos (by simpa using ho)]
      simp only [ho, if_true, filterChildren_present, Bool.false_or]
      by_cases hin : x.MetaDataName ∈ acc.map (fun o => o.MetaDataName)
      · simp [hin, firstPerName]
      · simp [hin, firstPerName]
    · rw [List.filter_cons_of_neg (by simpa using ho)]
      simp [ho]

theorem filterChildren_eq (l : List MetaDataAndOwnerReferences) (p : String) :
    filterChildren l p =
      firstPerName [] (l.filter (fun o => decide (o.OwnerReferenceName = p))) := by
  unfold filterChildren
  rw [filterChildren_foldl]
  simp

theorem firstPerName_sublist (l : List MetaDataAndOwnerReferences) :
    ∀ seen, (firstPerName seen l).Sublist l := by
  induction l with
  | nil => intro seen; exact List.Sublist.refl _
  | cons x xs ih =>
    intro seen
    rw [firstPerName]
    split
    · exact (ih seen).cons x
    · exact (ih _).cons₂ x

theorem firstPerName_names (l : List MetaDataAndOwnerReferences) :
    ∀ seen, ((firstPerName seen l).map (fun o => o.MetaDataName)).Nodup ∧
      (∀ n ∈ (firstPerName seen l).map (fun o => o.MetaDataName), n ∉ seen) ∧
      (∀ x ∈ l, x.MetaDataName ∈ seen ∨
        x.MetaDataName ∈ (firstPerName seen l).map (fun o => o.MetaDataName)) := by
  induction l with
  | nil => intro seen; simp [firstPerName]
  | cons x xs ih =>
    intro seen
    rw [firstPerName]
    by_cases hin : x.MetaDataName ∈ seen
    · rw [if_pos hin]
      obtain ⟨h1, h2, h3⟩ := ih seen
      refine ⟨h1, h2, ?_⟩
      intro y hy
      rcases List.mem_cons.mp hy with he | hm
      · rw [he]; exact Or.inl hin
      · exact h3 y hm
    · rw [if_neg hin]
      obtain ⟨h1, h2, h3⟩ := ih (seen ++ [x.MetaDataName])
      refine ⟨?_, ?_, ?_⟩
      · rw [List.map_cons, List.nodup_cons]
        refine ⟨?_, h1⟩
        intro hx
        exact h2 _ hx (by simp)
      · intro n hn
        rw [List.map_cons, List.mem_cons] at hn
        rcases hn with he | hm
        · rw [he]; exact hin
        · intro hs
          exact h2 n hm (List.mem_append_left _ hs)
      · intro y hy
        rcases List.mem_cons.mp hy with he | hm
        · rw [he]; exact Or.inr (by simp)
        · rcases h3 y hm with h4 | h4
          · rcases List.mem_append.mp h4 with h5 | h5
            · exact Or.inl h5
            · rw [List.mem_singleton] at h5
              exact Or.inr (by rw [h5]; simp)
          · exact Or.inr (by rw [List.map_cons]; exact List.mem_cons_of_mem _ h4)

/-- C14: for every instance list and parent name `p`, `filterChildren` returns the
instances whose OwnerReferenceName is `p` (no other field of the owner reference
is looked at), in input order, keeping only the first instance for each
MetaDataName: the result is a sublist of the input, every returned instance is
owned by `p`, no two returned instances share a MetaDataName, and every input
instance owned by `p` has its MetaDataName among the returned ones. -/
theorem filterChildren_spec (l : List MetaDataAndOwnerReferences) (p : String) :
    filterChildren l p =
      firstPerName [] (l.filter (fun o => decide (o.OwnerReferenceName = p))) ∧
    (filterChildren l p).Sublist l ∧
    (∀ r ∈ filterChildren l p, r.OwnerReferenceName = p) ∧
    ((filterChildren l p).map (fun o => o.MetaDataName)).Nodup ∧
    (∀ x ∈ l, x.OwnerReferenceName = p →
      x.MetaDataName ∈ (filterChildren l p).map (fun o => o.MetaDataName)) := by
  have hsub : (filterChildren l p).Sublist
      (l.filter (fun o => decide (o.OwnerReferenceName = p))) := by
    rw [filterChildren_eq]
    exact firstPerName_sublist _ []
  obtain ⟨h1, _, h3⟩ := firstPerName_names
    (l.filter (fun o => decide (o.OwnerReferenceName = p))) []
  refine ⟨filterChildren_eq l p, hsub.trans (List.filter_sublist l), ?_, ?_, ?_⟩
  · intro r hr
    have := (List.mem_filter.mp (hsub.subset hr)).2
    simpa using this
  · rw [filterChildren_eq]
    exact h1
  · intro x hx ho
    rw [filterChildren_eq]
    rcases h3 x (List.mem_filter.mpr ⟨hx, by simpa using ho⟩) with h | h
    · simp at h
    · exact h

/-! ## Claims on exact queries and on the kind argument -/

theorem GetCompositionsStep_plural (lower : String → String) (order : GoMap String)
    (p1 p2 rn ns : String) (acc : List Composition) (item : Compositions)
    (h : lower p1 = lower p2) :
    GetCompositionsStep lower order p1 rn ns acc item =
      GetCompositionsStep lower order p2 rn ns acc item := by
  rw [GetCompositionsStep_eq, GetCompositionsStep_eq, h]

theorem GetCompositionsLoop_plural (lower : String → String) (order : Nat → GoMap String)
    (p1 p2 rn ns : String) (h : lower p1 = lower p2) (cp : List Compositions) :
    ∀ (i : Nat) (acc : List Composition),
      GetCompositionsLoop lower order p1 rn ns i cp acc =
        GetCompositionsLoop lower order p2 rn ns i cp acc := by
  induction cp with
  | nil => intro i acc; rfl
  | cons c cs ih =>
    intro i acc
    rw [GetCompositionsLoop, GetCompositionsLoop,
      GetCompositionsStep_plural lower (order i) p1 p2 rn ns acc c h, ih]

theorem GoMap.get_of_not_mem (m : GoMap String) (k : String)
    (h : k ∉ m.map Prod.fst) : m.get k = "" := by
  unfold GoMap.get
  rw [lookup_eq_none_of_not_mem m k h]
  rfl

theorem kindOfPlural_none (lower : String → String) (kpm order : GoMap String) (p : String)
    (hperm : order.Perm kpm) (hno : ∀ kv ∈ kpm, lower kv.2 ≠ lower p) :
    kindOfPlural lower order p = "" := by
  unfold kindOfPlural
  have hf : order.find? (fun kv => lower kv.2 == lower p) = none := by
    rw [List.find?_eq_none]
    intro kv hkv hcon
    exact hno kv (hperm.mem_iff.mp hkv) (by simpa using hcon)
  rw [hf]

/-- C12 as stated fails: names are compared ignoring case, so the query for "web"
returns the record named "Web" (first part); and the raw query namespace is
compared with the lower-cased stored namespace, so the record of namespace
"Default" is not returned by the query for "Default" (second part).  In both
cases the number of trees is not the number of records whose Namespace is `ns`,
whose Kind is `K` ignoring case and whose Name is `n`. -/
theorem exact_query_counterexample :
    (GetCompositions ToLower baselineKindPluralMap (fun _ => baselineKindPluralMap)
        [⟨"Deployment", "Web", "default", "Ready", []⟩] "Deployment" "web" "default").length
      ≠ (([⟨"Deployment", "Web", "default", "Ready", []⟩] : List Compositions).filter
          (fun r => decide (r.Namespace = "default" ∧ ToLower r.Kind = ToLower "Deployment"
            ∧ r.Name = "web"))).length ∧
    (GetCompositions ToLower baselineKindPluralMap (fun _ => baselineKindPluralMap)
        [⟨"Deployment", "web", "Default", "Ready", []⟩] "Deployment" "web" "Default").length
      ≠ (([⟨"Deployment", "web", "Default", "Ready", []⟩] : List Compositions).filter
          (fun r => decide (r.Namespace = "Default" ∧ ToLower r.Kind = ToLower "Deployment"
            ∧ r.Name = "web"))).length := by
  decide

/-- C12 (amended): let `K` be a key of `KindPluralMap` whose plural `P` is, ignoring
case, the plural of no key other than `K` up to case, and let `n` be a name that
does not lower-case to "*".  For every store and namespace `ns`,
`GetCompositions(K, n, ns)` returns, in store order, one tree for each record
whose lower-cased Namespace is `ns`, whose Kind equals `K` ignoring case and
whose Name equals `n` ignoring case, and no tree for any other record; when no
record matches, the returned string is "[]".  (`lower` stands for
`strings.ToLower`; lower-casing `P` twice is assumed to give the same as once.) -/
theorem exact_query (lower quote : String → String) (kpm : GoMap String)
    (order : Nat → GoMap String) (cp : List Compositions) (K P n ns : String)
    (hwf : kpm.WellFormed) (hK : (K, P) ∈ kpm) (hord : ∀ i, (order i).Perm kpm)
    (huniq : ∀ kv ∈ kpm, lower kv.2 = lower P → lower kv.1 = lower K)
    (hP : lower (lower P) = lower P) (hn : lower n ≠ "*") :
    GetCompositions lower kpm order cp K n ns =
      (cp.filter (fun r => decide (lower r.Namespace = ns ∧ lower r.Kind = lower K
        ∧ lower r.Name = lower n))).map (recordTree lower ns) ∧
    ((∀ r ∈ cp, ¬ (lower r.Namespace = ns ∧ lower r.Kind = lower K
        ∧ lower r.Name = lower n)) →
      GetCompositionsJSON lower quote kpm order cp K n ns = "[]") := by
  have heq : GetCompositions lower kpm order cp K n ns =
      (cp.filter (fun r => decide (lower r.Namespace = ns ∧ lower r.Kind = lower K
        ∧ lower r.Name = lower n))).map (recordTree lower ns) := by
    rw [GetCompositions_of_unique_plural lower kpm order cp K P n ns hwf hK hord huniq hP]
    congr 1
    apply List.filter_congr
    intro r _
    simp only [hn, false_or, decide_eq_decide]
    constructor
    · rintro ⟨h1, h2, h3⟩
      exact ⟨h1.symm, h2.symm, h3.symm⟩
    · rintro ⟨h1, h2, h3⟩
      exact ⟨h1.symm, h2.symm, h3.symm⟩
  refine ⟨heq, ?_⟩
  intro hnone
  unfold GetCompositionsJSON
  rw [heq]
  have hfil : cp.filter (fun r => decide (lower r.Namespace = ns ∧ lower r.Kind = lower K
      ∧ lower r.Name = lower n)) = [] := by
    rw [List.filter_eq_nil_iff]
    intro r hr
    simpa using hnone r hr
  rw [hfil]
  rfl

/-- Witness of `exact_query`: the baseline schema and a store with the Deployments
"web" and "db"; the query for "web" returns the tree of "web". -/
theorem exact_query_witness :
    GetCompositions ToLower baselineKindPluralMap (fun _ => baselineKindPluralMap.reverse)
        [⟨"Deployment", "web", "default", "Ready", []⟩,
         ⟨"Deployment", "db", "default", "Ready", []⟩] "Deployment" "web" "default" =
      (([⟨"Deployment", "web", "default", "Ready", []⟩,
         ⟨"Deployment", "db", "default", "Ready", []⟩] : List Compositions).filter
        (fun r => decide (ToLower r.Namespace = "default"
          ∧ ToLower r.Kind = ToLower "Deployment" ∧ ToLower r.Name = ToLower "web"))).map
        (recordTree ToLower "default") ∧
    ((∀ r ∈ ([⟨"Deployment", "web", "default", "Ready", []⟩,
         ⟨"Deployment", "db", "default", "Ready", []⟩] : List Compositions),
        ¬ (ToLower r.Namespace = "default" ∧ ToLower r.Kind = ToLower "Deployment"
          ∧ ToLower r.Name = ToLower "web")) →
      GetCompositionsJSON ToLower (fun s => "\"" ++ s ++ "\"") baselineKindPluralMap
        (fun _ => baselineKindPluralMap.reverse)
        [⟨"Deployment", "web", "default", "Ready", []⟩,
         ⟨"Deployment", "db", "default", "Ready", []⟩] "Deployment" "web" "default" = "[]") :=
  exact_query ToLower (fun s => "\"" ++ s ++ "\"") baselineKindPluralMap
    (fun _ => baselineKindPluralMap.reverse) _ "Deployment" "deployments" "web" "default"
    (by unfold GoMap.WellFormed; decide) (by decide) (fun _ => List.reverse_perm _)
    (by decide) (by decide) (by decide)

/-- C13 as stated fails: the kind argument is looked up in `KindPluralMap` as it is
given, so with the baseline schema the query for the Deployment "web" returns
its tree for the kind argument "Deployment" and no tree for the plural
"deployments" or for the case variant "deployment". -/
theorem kind_argument_counterexample :
    GetCompositions ToLower baselineKindPluralMap (fun _ => baselineKindPluralMap)
        [⟨"Deployment", "web", "default", "Ready", []⟩] "Deployment" "web" "default"
      ≠ GetCompositions ToLower baselineKindPluralMap (fun _ => baselineKindPluralMap)
        [⟨"Deployment", "web", "default", "Ready", []⟩] "deployments" "web" "default" ∧
    GetCompositions ToLower baselineKindPluralMap (fun _ => baselineKindPluralMap)
        [⟨"Deployment", "web", "default", "Ready", []⟩] "Deployment" "web" "default"
      ≠ GetCompositions ToLower baselineKindPluralMap (fun _ => baselineKindPluralMap)
        [⟨"Deployment", "web", "default", "Ready", []⟩] "deployment" "web" "default" := by
  decide

/-- C13 (amended): the kind argument is looked up in `KindPluralMap` as it is given.
For every store, name and namespace, `GetCompositions` returns the same result
for any two kind arguments for which `KindPluralMap` holds plurals that are
equal ignoring case (first part); and for a kind argument that is not a key of
`KindPluralMap`, as the plural or a letter-case variant of a key is unless it is
a key itself, it returns no tree, provided that no plural of the map and no Kind
of the store lower-cases to the empty string (second part).  (`lower` stands for
`strings.ToLower`.) -/
theorem kind_argument (lower : String → String) (kpm : GoMap String)
    (order : Nat → GoMap String) (cp : List Compositions) (n ns : String)
    (hord : ∀ i, (order i).Perm kpm) :
    (∀ k1 k2, lower (kpm.get k1) = lower (kpm.get k2) →
      GetCompositions lower kpm order cp k1 n ns = GetCompositions lower kpm order cp k2 n ns) ∧
    (∀ k, k ∉ kpm.map Prod.fst → (∀ kv ∈ kpm, lower kv.2 ≠ lower (lower "")) →
      (∀ r ∈ cp, lower r.Kind ≠ "") →
      GetCompositions lower kpm order cp k n ns = []) := by
  constructor
  · intro k1 k2 h
    unfold GetCompositions
    exact GetCompositionsLoop_plural lower order _ _ n ns h cp 0 []
  · intro k hk hplural hkind
    unfold GetCompositions
    rw [GoMap.get_of_not_mem kpm k hk,
      GetCompositionsLoop_uniform lower order "" n ns ""
        (fun j => kindOfPlural_none lower kpm (order j) (lower "") (hord j) hplural)]
    have hfil : cp.filter (fun item => decide (ns = lower item.Namespace ∧ "" = lower item.Kind
        ∧ (lower n = "*" ∨ lower n = lower item.Name))) = [] := by
      rw [List.filter_eq_nil_iff]
      intro r hr
      have := hkind r hr
      simp only [decide_eq_true_eq, not_and]
      intro _ hcon
      exact absurd hcon.symm this
    rw [hfil]
    rfl

/-- Witness of `kind_argument`: the baseline schema with a second key "deployment"
of the plural "Deployments"; the arguments "Deployment" and "deployment" give
the same result, and the argument "deployments", which is not a key, gives no
tree. -/
theorem kind_argument_witness :
    GetCompositions ToLower (baselineKindPluralMap ++ [("deployment", "Deployments")])
        (fun _ => baselineKindPluralMap ++ [("deployment", "Deployments")])
        [⟨"Deployment", "web", "default", "Ready", []⟩] "Deployment" "web" "default"
      = GetCompositions ToLower (baselineKindPluralMap ++ [("deployment", "Deployments")])
        (fun _ => baselineKindPluralMap ++ [("deployment", "Deployments")])
        [⟨"Deployment", "web", "default", "Ready", []⟩] "deployment" "web" "default" ∧
    GetCompositions ToLower (baselineKindPluralMap ++ [("deployment", "Deployments")])
        (fun _ => baselineKindPluralMap ++ [("deployment", "Deployments")])
        [⟨"Deployment", "web", "default", "Ready", []⟩] "deployments" "web" "default" = [] :=
  ⟨(kind_argument ToLower (baselineKindPluralMap ++ [("deployment", "Deployments")])
      (fun _ => baselineKindPluralMap ++ [("deployment", "Deployments")])
      [⟨"Deployment", "web", "default", "Ready", []⟩] "web" "default"
      (fun _ => List.Perm.refl _)).1 "Deployment" "deployment" (by decide),
   (kind_argument ToLower (baselineKindPluralMap ++ [("deployment", "Deployments")])
      (fun _ => baselineKindPluralMap ++ [("deployment", "Deployments")])
      [⟨"Deployment", "web", "default", "Ready", []⟩] "web" "default"
      (fun _ => List.Perm.refl _)).2 "deployments" (by decide) (by decide) (by decide)⟩

/-! ## Claims on the loading of the schema -/

theorem lookup_cons_ite {α : Type} (k2 k1 : String) (v1 : α) (rest : List (String × α)) :
    List.lookup k2 ((k1, v1) :: rest) = if k2 = k1 then some v1 else List.lookup k2 rest := by
  by_cases h : k2 = k1
  · have hb : (k2 == k1) = true := by simpa using h
    rw [List.lookup, hb, if_pos h]
  · have hb : (k2 == k1) = false := by simpa using h
    rw [List.lookup, hb, if_neg h]

theorem GoMap.get?_set {α : Type} (m : GoMap α) (k : String) (v : α) (k2 : String) :
    (m.set k v).get? k2 = if k2 = k then some v else m.get? k2 := by
  unfold GoMap.get?
  induction m with
  | nil =>
    rw [GoMap.set, lookup_cons_ite]
  | cons kv rest ih =>
    obtain ⟨k1, v1⟩ := kv
    rw [GoMap.set]
    by_cases h1 : k1 = k
    · rw [if_pos h1, lookup_cons_ite, lookup_cons_ite, h1]
      by_cases h : k2 = k
      · rw [if_pos h, if_pos h]
      · rw [if_neg h, if_neg h, if_neg h]
    · rw [if_neg h1, lookup_cons_ite, lookup_cons_ite, ih]
      by_cases h2 : k2 = k1
      · have h3 : ¬ k2 = k := by rw [h2]; exact h1
        rw [if_pos h2, if_neg h3, if_pos h2]
      · rw [if_neg h2, if_neg h2]

theorem GoMap.mem_keys_iff {α : Type} (m : GoMap α) (k : String) :
    k ∈ m.map Prod.fst ↔ (m.get? k).isSome = true := by
  unfold GoMap.get?
  induction m with
  | nil => simp [List.lookup]
  | cons kv rest ih =>
    obtain ⟨k1, v1⟩ := kv
    by_cases h : k = k1
    · simp [List.lookup, h]
    · have hb : (k == k1) = false := by simpa using h
      rw [List.map_cons, List.mem_cons, List.lookup, hb, ← ih]
      simp [h]

theorem lastEntry_cons (c : composition) (cs : List composition) (k : String) :
    lastEntry (c :: cs) k =
      match lastEntry cs k with
      | some c2 => some c2
      | none => if c.Kind = k then some c else none := by
  unfold lastEntry
  rw [List.reverse_cons, List.find?_append]
  cases List.find? (fun c => c.Kind == k) cs.reverse with
  | some c2 => rfl
  | none =>
    by_cases h : c.Kind = k
    · simp [h]
    · simp [h]

theorem readKindCompositionFile_get? (compositionsList : List composition) :
    ∀ (schema : Schema) (k : String),
      (readKindCompositionFile schema compositionsList).KindPluralMap.get? k =
        (match lastEntry compositionsList k with
          | some c => some c.Plural
          | none => schema.KindPluralMap.get? k) ∧
      (readKindCompositionFile schema compositionsList).kindVersionMap.get? k =
        (match lastEntry compositionsList k with
          | some c => some c.Endpoint
          | none => schema.kindVersionMap.get? k) ∧
      (readKindCompositionFile schema compositionsList).compositionMap.get? k =
        (match lastEntry compositionsList k with
          | some c => some c.Composition
          | none => schema.compositionMap.get? k) := by
  induction compositionsList with
  | nil => intro schema k; exact ⟨rfl, rfl, rfl⟩
  | cons c cs ih =>
    intro schema k
    have h := ih ⟨schema.KindPluralMap.set c.Kind c.Plural,
      schema.kindVersionMap.set c.Kind c.Endpoint,
      schema.compositionMap.set c.Kind c.Composition⟩ k
    unfold readKindCompositionFile at h ⊢
    rw [List.foldl_cons]
    simp only [] at h ⊢
    rw [lastEntry_cons]
    cases hl : lastEntry cs k with
    | some c2 =>
      rw [hl] at h
      exact h
    | none =>
      rw [hl] at h
      simp only [GoMap.get?_set] at h
      by_cases hk : c.Kind = k
      · subst hk
        rw [if_pos rfl, if_pos rfl, if_pos rfl] at h
        rw [if_pos rfl]
        exact h
      · have hk2 : ¬ k = c.Kind := fun e => hk e.symm
        rw [if_neg hk2, if_neg hk2, if_neg hk2] at h
        rw [if_neg hk]
        exact h

theorem lastEntry_isSome_iff (compositionsList : List composition) (k : String) :
    (lastEntry compositionsList k).isSome = true ↔
      k ∈ compositionsList.map (fun c => c.Kind) := by
  unfold lastEntry
  rw [List.find?_isSome]
  constructor
  · rintro ⟨c, hc, hk⟩
    exact List.mem_map.mpr ⟨c, List.mem_reverse.mp hc, by simpa using hk⟩
  · intro h
    obtain ⟨c, hc, hk⟩ := List.mem_map.mp h
    exact ⟨c, List.mem_reverse.mpr hc, by simpa using hk⟩

theorem getResourceKinds_eq (order : GoMap (List String)) :
    getResourceKinds order = order.map Prod.fst := by
  unfold getResourceKinds
  have key : ∀ (acc : List String),
      order.foldl (fun resourceKindSlice kv => resourceKindSlice ++ [kv.1]) acc
        = acc ++ order.map Prod.fst := by
    induction order with
    | nil => intro acc; simp
    | cons kv rest ih => intro acc; rw [List.foldl_cons, ih]; simp
  simpa using key []

/-- C17 as stated fails: starting from the baseline schema, a load of a list with
the kind "Postgres" followed by a load of a list with the kind "Moodle" alone
leaves "Postgres" a key of the three maps, and `getResourceKinds` still returns
it. -/
theorem schema_reload_counterexample :
    "Postgres" ∈ (readKindCompositionFile
        (readKindCompositionFile baselineSchema
          [⟨"Postgres", "postgreses", "apis/postgrescontroller/v1", ["Deployment"]⟩])
        [⟨"Moodle", "moodles", "apis/moodlecontroller/v1", ["Deployment"]⟩]).KindPluralMap.map
        Prod.fst ∧
    "Postgres" ∈ (readKindCompositionFile
        (readKindCompositionFile baselineSchema
          [⟨"Postgres", "postgreses", "apis/postgrescontroller/v1", ["Deployment"]⟩])
        [⟨"Moodle", "moodles", "apis/moodlecontroller/v1", ["Deployment"]⟩]).kindVersionMap.map
        Prod.fst ∧
    "Postgres" ∈ (readKindCompositionFile
        (readKindCompositionFile baselineSchema
          [⟨"Postgres", "postgreses", "apis/postgrescontroller/v1", ["Deployment"]⟩])
        [⟨"Moodle", "moodles", "apis/moodlecontroller/v1", ["Deployment"]⟩]).compositionMap.map
        Prod.fst ∧
    "Postgres" ∈ getResourceKinds (readKindCompositionFile
        (readKindCompositionFile baselineSchema
          [⟨"Postgres", "postgreses", "apis/postgrescontroller/v1", ["Deployment"]⟩])
        [⟨"Moodle", "moodles", "apis/moodlecontroller/v1", ["Deployment"]⟩]).compositionMap := by
  decide

/-- C17 (amended): `readKindCompositionFile` merges the list into the schema it
finds.  For each of the three maps, a kind of the list is a key after the call,
with the plural, endpoint and composition of its last entry in the list, and a
kind that is not in the list keeps the entry it had before the call, if any; so
the kinds `getResourceKinds` returns afterwards are exactly the keys that
`compositionMap` had before the call plus the kinds of the list. -/
theorem schema_reload_merges (schema : Schema) (compositionsList : List composition)
    (order : GoMap (List String))
    (hord : order.Perm (readKindCompositionFile schema compositionsList).compositionMap) :
    (∀ k, (readKindCompositionFile schema compositionsList).KindPluralMap.get? k =
        (match lastEntry compositionsList k with
          | some c => some c.Plural
          | none => schema.KindPluralMap.get? k)) ∧
    (∀ k, (readKindCompositionFile schema compositionsList).kindVersionMap.get? k =
        (match lastEntry compositionsList k with
          | some c => some c.Endpoint
          | none => schema.kindVersionMap.get? k)) ∧
    (∀ k, (readKindCompositionFile schema compositionsList).compositionMap.get? k =
        (match lastEntry compositionsList k with
          | some c => some c.Composition
          | none => schema.compositionMap.get? k)) ∧
    (∀ k, (lastEntry compositionsList k).isSome = true ↔
      k ∈ compositionsList.map (fun c => c.Kind)) ∧
    (∀ k, k ∈ getResourceKinds order ↔
      k ∈ schema.compositionMap.map Prod.fst ∨ k ∈ compositionsList.map (fun c => c.Kind)) := by
  refine ⟨fun k => (readKindCompositionFile_get? compositionsList schema k).1,
    fun k => (readKindCompositionFile_get? compositionsList schema k).2.1,
    fun k => (readKindCompositionFile_get? compositionsList schema k).2.2,
    lastEntry_isSome_iff compositionsList, ?_⟩
  intro k
  rw [getResourceKinds_eq, (hord.map Prod.fst).mem_iff, GoMap.mem_keys_iff,
    (readKindCompositionFile_get? compositionsList schema k).2.2, GoMap.mem_keys_iff,
    ← lastEntry_isSome_iff]
  cases lastEntry compositionsList k with
  | some c => simp
  | none => simp

/-- Witness of `schema_reload_merges`: the baseline schema after the load of
"Postgres", then a load of "Moodle"; the range visits the map in reverse, and
"Postgres" is among the kinds `getResourceKinds` returns. -/
theorem schema_reload_merges_witness :
    "Postgres" ∈ getResourceKinds (readKindCompositionFile
        (readKindCompositionFile baselineSchema
          [⟨"Postgres", "postgreses", "apis/postgrescontroller/v1", ["Deployment"]⟩])
        [⟨"Moodle", "moodles", "apis/moodlecontroller/v1", ["Deployment"]⟩]).compositionMap.reverse
      ↔ "Postgres" ∈ (readKindCompositionFile baselineSchema
          [⟨"Postgres", "postgreses", "apis/postgrescontroller/v1",
            ["Deployment"]⟩]).compositionMap.map Prod.fst
        ∨ "Postgres" ∈ ([⟨"Moodle", "moodles", "apis/moodlecontroller/v1", ["Deployment"]⟩] :
          List composition).map (fun c => c.Kind) :=
  (schema_reload_merges
    (readKindCompositionFile baselineSchema
      [⟨"Postgres", "postgreses", "apis/postgrescontroller/v1", ["Deployment"]⟩])
    [⟨"Moodle", "moodles", "apis/moodlecontroller/v1", ["Deployment"]⟩] _
    (List.reverse_perm _)).2.2.2.2 "Postgres"

/-! ## Claims on the mutex and on the levels of the rebuilt tree -/

theorem lockHeld_writes (cp : List Compositions) (k n ns : String) (rest : List StoreEvent) :
    lockHeld true (cp.flatMap (fun comp =>
      if comp.Kind = k ∧ comp.Name = n ∧ comp.Namespace = ns then
        [StoreEvent.write] else []) ++ rest) = lockHeld true rest := by
  induction cp with
  | nil => rfl
  | cons c cs ih =>
    rw [List.flatMap_cons, List.append_assoc]
    split
    · rw [List.singleton_append, lockHeld, ih]
      rfl
    · rw [List.nil_append, ih]

/-- C18 fails on the code: `storeCompositions` and `GetCompositions` read and write
the table between `cp.mux.Lock()` and the deferred `cp.mux.Unlock()`, but
`purgeCompositionOfDeletedItems` reads and assigns the table without taking the
mutex. -/
theorem purge_takes_no_lock (cp : List Compositions) (k n ns : String) :
    lockHeld false (storeCompositionsEvents cp k n ns) = true ∧
    lockHeld false GetCompositionsEvents = true ∧
    lockHeld false purgeCompositionOfDeletedItemsEvents = false := by
  refine ⟨?_, by decide, by decide⟩
  unfold storeCompositionsEvents
  rw [List.append_assoc, List.append_assoc]
  show lockHeld true (cp.flatMap _ ++ _) = true
  rw [lockHeld_writes]
  split <;> rfl

/-- C19 fails on the code: with the baseline schema extended by Moodle→[Pod,
ReplicaSet], whose child-kind graph has no cycle, and a Moodle "m1" that owns the
Pod "p0" and the ReplicaSet "rs1", which owns the Pod "p1", the tree rebuilt for
"m1" has the root at Level 1 with the child "p1" at Level 3. -/
theorem rebuilt_tree_level_failure :
    buildCompositions moodleKindPluralMap moodleKindVersionMap moodleCompositionMap
        moodleCluster 3 "Moodle" "m1" "default" 1 []
      = some [⟨2, "Pod", [ownedBy "p0" "Running" "m1"]⟩,
              ⟨2, "ReplicaSet", [ownedBy "rs1" "Ready" "m1"]⟩,
              ⟨3, "Pod", [ownedBy "p1" "Running" "rs1"]⟩] ∧
    GetCompositions ToLower moodleKindPluralMap (fun _ => moodleKindPluralMap)
        (storeCompositions [] (ownedBy "m1" "Ready" "") "Moodle" "m1" "default"
          [⟨2, "Pod", [ownedBy "p0" "Running" "m1"]⟩,
           ⟨2, "ReplicaSet", [ownedBy "rs1" "Ready" "m1"]⟩,
           ⟨3, "Pod", [ownedBy "p1" "Running" "rs1"]⟩])
        "Moodle" "m1" "default" =
      [Composition.mk 1 "moodle" "m1" "default" "Ready"
        [Composition.mk 2 "Pod" "p0" "default" "Running" [],
         Composition.mk 2 "ReplicaSet" "rs1" "default" "Ready" [],
         Composition.mk 3 "Pod" "p1" "default" "Running" []]] := by
  decide

/-! ## `parseMetaData` returns exactly on the replies of the expected shape -/

theorem foldlM_option_isSome_eq {α β : Type} (f : β → α → Option β) (ok : α → Bool)
    (l : List α) (h : ∀ s, ∀ x ∈ l, (f s x).isSome = ok x) (s : β) :
    (l.foldlM f s).isSome = l.all ok := by
  induction l generalizing s with
  | nil => rfl
  | cons x xs ih =>
    have hx := h s x (List.mem_cons_self _ _)
    rw [List.foldlM_cons, List.all_cons]
    cases hf : f s x with
    | none =>
      rw [hf] at hx
      rw [← hx]
      rfl
    | some s2 =>
      rw [hf] at hx
      rw [← hx]
      exact ih (fun s y hy => h s y (List.mem_cons_of_mem _ hy)) s2

theorem parseOwnerReferenceKey_isSome (ref : MetaDataAndOwnerReferences)
    (kv : String × JSONValue) :
    (parseOwnerReferenceKey ref kv).isSome = wellFormedOwnerReferenceKey kv := by
  unfold parseOwnerReferenceKey wellFormedOwnerReferenceKey
  cases h : kv.2.asString <;> by_cases h1 : kv.1 = "name" <;> by_cases h2 : kv.1 = "kind" <;>
    by_cases h3 : kv.1 = "apiVersion" <;> simp [h1, h2, h3]

theorem parseOwnerReference_isSome (ref : MetaDataAndOwnerReferences) (v : JSONValue) :
    (parseOwnerReference ref v).isSome = wellFormedOwnerReference v := by
  unfold parseOwnerReference wellFormedOwnerReference
  cases v.asObject with
  | none => rfl
  | some m =>
    exact foldlM_option_isSome_eq parseOwnerReferenceKey wellFormedOwnerReferenceKey m
      (fun s x _ => parseOwnerReferenceKey_isSome s x) ref

theorem parseMetadataKey_isSome (ref : MetaDataAndOwnerReferences) (kv : String × JSONValue) :
    (parseMetadataKey ref kv).isSome = wellFormedMetadataKey kv := by
  obtain ⟨k, v⟩ := kv
  unfold parseMetadataKey wellFormedMetadataKey
  by_cases h0 : k = "ownerReferences"
  · subst h0
    cases hv : v.asArray with
    | none => simp [hv]
    | some l =>
      have := foldlM_option_isSome_eq parseOwnerReference wellFormedOwnerReference l
        (fun s x _ => parseOwnerReference_isSome s x) ref
      cases hf : l.foldlM parseOwnerReference ref with
      | none => rw [hf] at this; simp [hv, hf, ← this]
      | some r => rw [hf] at this; simp [hv, hf, ← this]
  · cases h : v.asString <;> by_cases h1 : k = "namespace" <;>
      by_cases h2 : k = "name" <;> simp [h, h0, h1, h2]

theorem parseStatusKey_isSome (st : StatusState) (kv : String × JSONValue) :
    (parseStatusKey st kv).isSome = wellFormedStatusKey kv := by
  unfold parseStatusKey wellFormedStatusKey
  cases h : kv.2.asString <;> cases hn : kv.2.asNumber <;> by_cases h1 : kv.1 = "phase" <;>
    by_cases h2 : kv.1 = "replicas" <;> by_cases h3 : kv.1 = "readyReplicas" <;>
    by_cases h4 : kv.1 = "availableReplicas" <;> simp [h1, h2, h3, h4]

theorem parseItemKey_isSome (b : Bool) (st : ItemState) (kv : String × JSONValue) :
    (parseItemKey b st kv).isSome = wellFormedItemKey kv := by
  obtain ⟨k, v⟩ := kv
  unfold parseItemKey wellFormedItemKey
  simp only [Option.isSome_map']
  by_cases h0 : k = "metadata"
  · subst h0
    cases hv : v.asObject with
    | none => simp [hv]
    | some m =>
      have := foldlM_option_isSome_eq parseMetadataKey wellFormedMetadataKey m
        (fun s x _ => parseMetadataKey_isSome s x) st.metaDataRef
      cases hf : m.foldlM parseMetadataKey st.metaDataRef with
      | none => rw [hf] at this; simp [hv, hf, ← this]
      | some r => rw [hf] at this; simp [hv, hf, ← this]
  · by_cases h1 : k = "status"
    · subst h1
      cases hv : v.asObject with
      | none => simp [hv]
      | some m =>
        have := foldlM_option_isSome_eq parseStatusKey wellFormedStatusKey m
          (fun s x _ => parseStatusKey_isSome s x) ⟨st.metaDataRef.Status, 0, 0, 0⟩
        simp only [hv, parseStatusMap]
        simpa using this
    · simp [h0, h1]

theorem parseItem_isSome (item : JSONValue) (slice : List MetaDataAndOwnerReferences) :
    (parseItem item slice).isSome = wellFormedItem item := by
  unfold parseItem wellFormedItem
  cases item.asObject with
  | none => rfl
  | some m =>
    have := foldlM_option_isSome_eq
      (parseItemKey (m.foldl (fun statusKeyExists kv =>
        if kv.1 = "status" then true else statusKeyExists) false)) wellFormedItemKey m
      (fun s x _ => parseItemKey_isSome _ s x)
      ⟨⟨"", "", "", "", "", ""⟩, false, false, slice⟩
    simpa using this

/-! ## Claims on the failure of `parseMetaData` -/

/-- C16 as stated fails: an item that is not in the expected shape is not skipped.
The item `readyItem` alone gives two records (first part); with an item `null`
before it (second part), or an item whose `metadata.name` is a number (third
part), a type assertion panics and `parseMetaData` returns nothing, also for
`readyItem`. -/
theorem parseMetaData_counterexample :
    parseMetaData [("items", JSONValue.array [JSONValue.object readyItem])]
      = some [⟨"web", "Ready", "default", "", "", ""⟩,
              ⟨"web", "Ready", "default", "", "", ""⟩] ∧
    parseMetaData [("items", JSONValue.array [JSONValue.null, JSONValue.object readyItem])]
      = none ∧
    parseMetaData [("items", JSONValue.array
        [JSONValue.object [("metadata", JSONValue.object [("name", JSONValue.number 7)])],
         JSONValue.object readyItem])]
      = none := by
  decide

/-- C16 (amended): for every decoded response body, `parseMetaData` returns the
empty result when the body has no `items` list (as when it is not JSON), and,
when it has one, returns a result if and only if every item is in the expected
shape (the item is an object, `metadata` and `status` are objects,
`ownerReferences` is a list of objects, and the name, namespace, phase and
replica fields have their types): an item that is not in the expected shape is
not skipped, it makes the call fail for the whole response. -/
theorem parseMetaData_returns (result : List (String × JSONValue)) :
    ((∀ items, result.lookup "items" ≠ some (JSONValue.array items)) →
      parseMetaData result = some []) ∧
    (∀ items, result.lookup "items" = some (JSONValue.array items) →
      (parseMetaData result).isSome = items.all wellFormedItem) := by
  constructor
  · intro h
    unfold parseMetaData
    cases hl : result.lookup "items" with
    | none => rfl
    | some v =>
      cases v with
      | array xs => exact absurd hl (h xs)
      | null => rfl
      | bool b => rfl
      | number x => rfl
      | string s => rfl
      | object kvs => rfl
  · intro items h
    unfold parseMetaData
    rw [h]
    exact foldlM_option_isSome_eq (fun metaDataSlice item => parseItem item metaDataSlice)
      wellFormedItem items (fun s x _ => parseItem_isSome x s) []

/-! ## What one item contributes -/

theorem parseItemKey_shape (b : Bool) (st st2 : ItemState) (kv : String × JSONValue)
    (h : parseItemKey b st kv = some st2) :
    ∃ ref : MetaDataAndOwnerReferences,
      (kv.1 = "metadata" → ∃ m, kv.2.asObject = some m ∧
        m.foldlM parseMetadataKey st.metaDataRef = some ref) ∧
      (kv.1 = "status" → ∃ m status, kv.2.asObject = some m ∧
        parseStatusMap st.metaDataRef.Status m = some status ∧
        ref = ⟨st.metaDataRef.MetaDataName, status, st.metaDataRef.Namespace,
          st.metaDataRef.OwnerReferenceName, st.metaDataRef.OwnerReferenceKind,
          st.metaDataRef.OwnerReferenceAPIVersion⟩) ∧
      (kv.1 ≠ "metadata" → kv.1 ≠ "status" → ref = st.metaDataRef) ∧
      st2 = ⟨ref, st.metadataProcessed || decide (kv.1 = "metadata"),
        st.statusProcessed || decide (kv.1 = "status"),
        if (if b then (st.metadataProcessed || decide (kv.1 = "metadata"))
              && (st.statusProcessed || decide (kv.1 = "status"))
            else (st.metadataProcessed || decide (kv.1 = "metadata")))
        then st.metaDataSlice ++ [ref] else st.metaDataSlice⟩ := by
  obtain ⟨k, v⟩ := kv
  obtain ⟨ref0, md0, sp0, slice0⟩ := st
  unfold parseItemKey at h
  simp only [Option.bind_eq_some, Option.map_eq_some'] at h
  obtain ⟨s1, h1, s2, h2, h3⟩ := h
  by_cases h0 : k = "metadata"
  · have hns : ¬ k = "status" := by rw [h0]; decide
    rw [if_pos h0] at h1
    rw [if_neg hns] at h2
    simp only [Option.bind_eq_some, Option.map_eq_some'] at h1
    obtain ⟨m, hm, r, hr, hs1⟩ := h1
    have e2 : s1 = s2 := Option.some.inj h2
    subst e2
    subst hs1
    refine ⟨r, fun _ => ⟨m, hm, hr⟩, fun hc => absurd hc hns, fun hc => absurd h0 hc, ?_⟩
    rw [← h3]
    cases b <;> cases sp0 <;> simp [h0, hns]
  · rw [if_neg h0] at h1
    have e1 : ItemState.mk ref0 md0 sp0 slice0 = s1 := Option.some.inj h1
    subst e1
    by_cases hs : k = "status"
    · rw [if_pos hs] at h2
      simp only [Option.bind_eq_some, Option.map_eq_some'] at h2
      obtain ⟨m, hm, status, hst, hs2⟩ := h2
      subst hs2
      refine ⟨_, fun hc => absurd hc h0, fun _ => ⟨m, status, hm, hst, rfl⟩,
        fun _ hc => absurd hs hc, ?_⟩
      rw [← h3]
      cases b <;> cases md0 <;> simp [h0, hs]
    · rw [if_neg hs] at h2
      have e2 : ItemState.mk ref0 md0 sp0 slice0 = s2 := Option.some.inj h2
      subst e2
      refine ⟨ref0, fun hc => absurd hc h0, fun hc => absurd hc hs, fun _ _ => rfl, ?_⟩
      rw [← h3]
      cases b <;> cases md0 <;> cases sp0 <;> simp [h0, hs]

theorem foldlM_option_reaches {α β : Type} (P : β → Prop) (f : β → α → Option β)
    (l : List α) (x : α) (hx : x ∈ l) (hset : ∀ s s1, f s x = some s1 → P s1)
    (hpres : ∀ s, ∀ y ∈ l, ∀ s1, P s → f s y = some s1 → P s1) (s r : β)
    (hf : l.foldlM f s = some r) : P r := by
  induction l generalizing s with
  | nil => simp at hx
  | cons y ys ih =>
    rw [List.foldlM_cons] at hf
    cases hy : f s y with
    | none => rw [hy] at hf; exact absurd hf (by simp)
    | some s2 =>
      rw [hy] at hf
      rcases List.mem_cons.mp hx with he | hm
      · subst he
        exact foldlM_option_invariant P f ys
          (fun s z hz s1 hs hs1 => hpres s z (List.mem_cons_of_mem _ hz) s1 hs hs1)
          s2 r (hset s s2 hy) hf
      · exact ih hm (fun s z hz s1 hs hs1 => hpres s z (List.mem_cons_of_mem _ hz) s1 hs hs1)
          s2 hf

theorem statusKeyExists_eq (l : List (String × JSONValue)) (b : Bool) :
    l.foldl (fun statusKeyExists kv => if kv.1 = "status" then true else statusKeyExists) b
      = (b || l.any (fun kv => decide (kv.1 = "status"))) := by
  induction l generalizing b with
  | nil => simp
  | cons kv rest ih =>
    rw [List.foldl_cons, ih]
    by_cases h : kv.1 = "status"
    · simp [h]
    · simp [h]

theorem parseItemKey_contribution (b : Bool) (slice : List MetaDataAndOwnerReferences)
    (st st2 : ItemState) (kv : String × JSONValue)
    (hinv : ∃ recs, st.metaDataSlice = slice ++ recs ∧
      ((st.metadataProcessed = true ∧ (b = true → st.statusProcessed = true)) → recs ≠ []) ∧
      (st.metadataProcessed = false → recs = []))
    (h : parseItemKey b st kv = some st2) :
    ∃ recs, st2.metaDataSlice = slice ++ recs ∧
      ((st2.metadataProcessed = true ∧ (b = true → st2.statusProcessed = true)) → recs ≠ []) ∧
      (st2.metadataProcessed = false → recs = []) := by
  obtain ⟨recs, hrecs, hne, hnil⟩ := hinv
  obtain ⟨ref, _, _, _, hst2⟩ := parseItemKey_shape b st st2 kv h
  subst hst2
  simp only
  by_cases hc : (if b = true then
      (st.metadataProcessed || decide (kv.1 = "metadata"))
        && (st.statusProcessed || decide (kv.1 = "status"))
      else (st.metadataProcessed || decide (kv.1 = "metadata"))) = true
  · rw [if_pos hc]
    refine ⟨recs ++ [ref], by rw [hrecs, List.append_assoc], fun _ => by simp, ?_⟩
    intro hmd
    exfalso
    cases b
    · simp only [Bool.false_eq_true, if_false] at hc
      rw [hc] at hmd
      exact absurd hmd (by decide)
    · simp only [if_true, Bool.and_eq_true] at hc
      rw [hc.1] at hmd
      exact absurd hmd (by decide)
  · rw [if_neg hc]
    refine ⟨recs, hrecs, ?_, ?_⟩
    · rintro ⟨hmd, hsp⟩
      exfalso
      apply hc
      cases b
      · simp only [Bool.false_eq_true, if_false]
        exact hmd
      · simp only [if_true, Bool.and_eq_true]
        exact ⟨hmd, hsp rfl⟩
    · intro hmd
      apply hnil
      cases hm : st.metadataProcessed
      · rfl
      · rw [hm] at hmd
        simp at hmd

theorem parseItem_eq_some (itemConverted : List (String × JSONValue))
    (slice out : List MetaDataAndOwnerReferences)
    (h : parseItem (JSONValue.object itemConverted) slice = some out) :
    ∃ st, itemConverted.foldlM
        (parseItemKey (itemConverted.any (fun kv => decide (kv.1 = "status"))))
        ⟨⟨"", "", "", "", "", ""⟩, false, false, slice⟩ = some st ∧
      st.metaDataSlice = out := by
  unfold parseItem at h
  simp only [JSONValue.asObject, Option.bind_eq_some, Option.map_eq_some',
    Option.some.injEq] at h
  obtain ⟨m, hm, st, hst, hout⟩ := h
  subst hm
  rw [statusKeyExists_eq, Bool.false_or] at hst
  exact ⟨st, hst, hout⟩

theorem parseItem_status_records (itemConverted statusMap : List (String × JSONValue))
    (slice out : List MetaDataAndOwnerReferences)
    (hkeys : (itemConverted.map Prod.fst).Nodup)
    (hstatus : ("status", JSONValue.object statusMap) ∈ itemConverted)
    (hsk : (statusMap.map Prod.fst).Nodup)
    (h : parseItem (JSONValue.object itemConverted) slice = some out) :
    ∃ recs, out = slice ++ recs ∧ ∀ r ∈ recs, r.Status = derivedStatus statusMap := by
  obtain ⟨st, hst, hout⟩ := parseItem_eq_some itemConverted slice out h
  have hb : itemConverted.any (fun kv => decide (kv.1 = "status")) = true := by
    rw [List.any_eq_true]
    exact ⟨_, hstatus, by simp⟩
  rw [hb] at hst
  have hinv := foldlM_option_invariant
    (fun (s : ItemState) => (∃ recs, s.metaDataSlice = slice ++ recs ∧
          ∀ r ∈ recs, r.Status = derivedStatus statusMap) ∧
        (s.metaDataRef.Status = "" ∨ s.metaDataRef.Status = derivedStatus statusMap) ∧
        (s.statusProcessed = true → s.metaDataRef.Status = derivedStatus statusMap))
    (parseItemKey true) itemConverted
    (fun s x hx s2 hs hs2 =>
      parseItemKey_status statusMap itemConverted slice hkeys hstatus hsk s s2 x hx hs hs2)
    _ st ⟨⟨[], by simp, by simp⟩, Or.inl rfl, by simp⟩ hst
  rw [← hout]
  exact hinv.1

/-- C20: for every item in the expected shape, whatever the order in which its keys
are visited, `parseMetaData` returns and appends records for the item such that:
an item without a `metadata` key contributes no record; an item with a
`metadata` key contributes at least one record; and every record contributed by
an item that has a top-level `status` object carries the status derived from
that object, so that no record of such an item is appended before both its
`metadata` and its `status` have been handled. -/
theorem item_contribution (itemConverted : List (String × JSONValue))
    (metaDataSlice : List MetaDataAndOwnerReferences)
    (hwf : wellFormedItem (JSONValue.object itemConverted) = true) :
    ∃ recs, parseItem (JSONValue.object itemConverted) metaDataSlice
        = some (metaDataSlice ++ recs) ∧
      ("metadata" ∉ itemConverted.map Prod.fst → recs = []) ∧
      ("metadata" ∈ itemConverted.map Prod.fst → recs ≠ []) ∧
      (∀ statusMap, (itemConverted.map Prod.fst).Nodup →
        ("status", JSONValue.object statusMap) ∈ itemConverted →
        (statusMap.map Prod.fst).Nodup →
        ∀ r ∈ recs, r.Status = derivedStatus statusMap) := by
  have hsome := parseItem_isSome (JSONValue.object itemConverted) metaDataSlice
  rw [hwf] at hsome
  obtain ⟨out, hout⟩ := Option.isSome_iff_exists.mp hsome
  obtain ⟨st, hst, hslice⟩ := parseItem_eq_some itemConverted metaDataSlice out hout
  have hinv := foldlM_option_invariant
    (fun (s : ItemState) => ∃ recs, s.metaDataSlice = metaDataSlice ++ recs ∧
      ((s.metadataProcessed = true ∧
        (itemConverted.any (fun kv => decide (kv.1 = "status")) = true →
          s.statusProcessed = true)) → recs ≠ []) ∧
      (s.metadataProcessed = false → recs = []))
    _ itemConverted
    (fun s x _ s2 hs hs2 => parseItemKey_contribution _ metaDataSlice s s2 x hs hs2)
    _ st ⟨[], by simp, by simp, fun _ => rfl⟩ hst
  obtain ⟨recs, hrecs, hne, hnil⟩ := hinv
  rw [hslice] at hrecs
  refine ⟨recs, by rw [hout, hrecs], ?_, ?_, ?_⟩
  · intro hno
    apply hnil
    refine foldlM_option_invariant (fun (s : ItemState) => s.metadataProcessed = false) _
      itemConverted ?_ _ st rfl hst
    intro s x hx s2 hs hs2
    obtain ⟨ref, _, _, _, hst2⟩ := parseItemKey_shape _ s s2 x hs2
    have hxk : ¬ x.1 = "metadata" := fun e => hno (List.mem_map.mpr ⟨x, hx, e⟩)
    rw [hst2]
    simp [hs, hxk]
  · intro hyes
    obtain ⟨x, hx, hxk⟩ := List.mem_map.mp hyes
    apply hne
    constructor
    · refine foldlM_option_reaches (fun (s : ItemState) => s.metadataProcessed = true) _
        itemConverted x hx ?_ ?_ _ st hst
      · intro s s1 hs1
        obtain ⟨ref, _, _, _, hst2⟩ := parseItemKey_shape _ s s1 x hs1
        rw [hst2]
        simp [hxk]
      · intro s y _ s1 hs hs1
        obtain ⟨ref, _, _, _, hst2⟩ := parseItemKey_shape _ s s1 y hs1
        rw [hst2]
        simp [hs]
    · intro hany
      obtain ⟨y, hy, hyk⟩ := List.any_eq_true.mp hany
      have hyk2 : y.1 = "status" := by simpa using hyk
      refine foldlM_option_reaches (fun (s : ItemState) => s.statusProcessed = true) _
        itemConverted y hy ?_ ?_ _ st hst
      · intro s s1 hs1
        obtain ⟨ref, _, _, _, hst2⟩ := parseItemKey_shape _ s s1 y hs1
        rw [hst2]
        simp [hyk2]
      · intro s z _ s1 hs hs1
        obtain ⟨ref, _, _, _, hst2⟩ := parseItemKey_shape _ s s1 z hs1
        rw [hst2]
        simp [hs]
  · intro statusMap hkeys hstatus hsk r hr
    obtain ⟨recs2, hrecs2, hall⟩ := parseItem_status_records itemConverted statusMap
      metaDataSlice out hkeys hstatus hsk hout
    rw [hrecs] at hrecs2
    have : recs = recs2 := List.append_cancel_left hrecs2
    rw [this] at hr
    exact hall r hr

/-- Witness of `item_contribution`: the item `readyItem`, whose `status` key is
visited before its `metadata` key, contributes at least one record, and all its
records have the status derived from `readyStatus`. -/
theorem item_contribution_witness :
    ∃ recs, parseItem (JSONValue.object readyItem) [] = some ([] ++ recs) ∧ recs ≠ [] ∧
      ∀ r ∈ recs, r.Status = derivedStatus readyStatus :=
  match item_contribution readyItem [] (by decide) with
  | ⟨recs, h1, _, h3, h4⟩ =>
    ⟨recs, h1, h3 (by decide),
      h4 readyStatus (by decide) (by simp [readyItem]) (by decide)⟩

/-! ## The fields taken from `metadata` -/

theorem foldlM_field_lookup {σ β : Type} (f : σ → String × JSONValue → Option σ)
    (get : σ → β) (key : String) (ex : JSONValue → Option β)
    (hstep : ∀ s kv s1, f s kv = some s1 →
      get s1 = if kv.1 = key then (ex kv.2).getD (get s) else get s)
    (l : List (String × JSONValue)) (hnd : (l.map Prod.fst).Nodup) :
    ∀ s s2, l.foldlM f s = some s2 → get s2 = ((l.lookup key).bind ex).getD (get s) := by
  induction l with
  | nil =>
    intro s s2 h
    have : s = s2 := by simpa using h
    rw [← this]
    rfl
  | cons kv rest ih =>
    intro s s2 h
    obtain ⟨k, v⟩ := kv
    rw [List.map_cons, List.nodup_cons] at hnd
    rw [List.foldlM_cons] at h
    cases hs1 : f s (k, v) with
    | none => rw [hs1] at h; exact absurd h (by simp)
    | some s1 =>
      rw [hs1] at h
      have h1 := hstep s (k, v) s1 hs1
      have h2 := ih hnd.2 s1 s2 h
      by_cases hk : k = key
      · subst hk
        rw [h2, lookup_eq_none_of_not_mem rest k hnd.1, h1]
        simp [List.lookup]
      · have hne : (key == k) = false := by
          simpa using fun e : key = k => hk e.symm
        rw [h2, h1, List.lookup, hne]
        simp [hk]

theorem foldlM_field_of_key {σ β : Type} (f : σ → String × JSONValue → Option σ)
    (get : σ → β) (key : String) (v : JSONValue)
    (hpres : ∀ s kv s1, kv.1 ≠ key → f s kv = some s1 → get s1 = get s)
    (l : List (String × JSONValue)) (hnd : (l.map Prod.fst).Nodup) (hmem : (key, v) ∈ l) :
    ∀ s s2, l.foldlM f s = some s2 → ∃ s0 s1, f s0 (key, v) = some s1 ∧ get s2 = get s1 := by
  induction l with
  | nil => simp at hmem
  | cons kv rest ih =>
    intro s s2 h
    rw [List.map_cons, List.nodup_cons] at hnd
    rw [List.foldlM_cons] at h
    cases hs1 : f s kv with
    | none => rw [hs1] at h; exact absurd h (by simp)
    | some s1 =>
      rw [hs1] at h
      rcases List.mem_cons.mp hmem with he | hin
      · subst he
        refine ⟨s, s1, hs1, ?_⟩
        exact foldlM_option_invariant (fun t => get t = get s1) f rest
          (fun t x hx t1 ht ht1 => by
            have hxk : x.1 ≠ key := by
              intro e
              apply hnd.1
              rw [← e]
              exact List.mem_map.mpr ⟨x, hx, rfl⟩
            exact (hpres t x t1 hxk ht1).trans ht)
          s1 s2 rfl h
      · exact ih hnd.2 hin s1 s2 h

theorem parseOwnerReferenceKey_fields (r r1 : MetaDataAndOwnerReferences)
    (kv : String × JSONValue) (h : parseOwnerReferenceKey r kv = some r1) :
    r1.MetaDataName = r.MetaDataName ∧ r1.Namespace = r.Namespace ∧
    r1.OwnerReferenceName =
      (if kv.1 = "name" then kv.2.asString.getD r.OwnerReferenceName
        else r.OwnerReferenceName) ∧
    r1.OwnerReferenceKind =
      (if kv.1 = "kind" then kv.2.asString.getD r.OwnerReferenceKind
        else r.OwnerReferenceKind) ∧
    r1.OwnerReferenceAPIVersion =
      (if kv.1 = "apiVersion" then kv.2.asString.getD r.OwnerReferenceAPIVersion
        else r.OwnerReferenceAPIVersion) := by
  obtain ⟨k, v⟩ := kv
  by_cases h1 : k = "name"
  · subst h1
    simp [parseOwnerReferenceKey] at h
    obtain ⟨x, hx, rfl⟩ := h
    simp [hx]
  · by_cases h2 : k = "kind"
    · subst h2
      simp [parseOwnerReferenceKey] at h
      obtain ⟨x, hx, rfl⟩ := h
      simp [hx]
    · by_cases h3 : k = "apiVersion"
      · subst h3
        simp [parseOwnerReferenceKey] at h
        obtain ⟨x, hx, rfl⟩ := h
        simp [hx]
      · simp [parseOwnerReferenceKey, h1, h2, h3] at h
        subst h
        simp [h1, h2, h3]

theorem parseOwnerReference_keeps (r r1 : MetaDataAndOwnerReferences) (v : JSONValue)
    (h : parseOwnerReference r v = some r1) :
    r1.MetaDataName = r.MetaDataName ∧ r1.Namespace = r.Namespace := by
  unfold parseOwnerReference at h
  simp only [Option.bind_eq_some] at h
  obtain ⟨m, _, hm⟩ := h
  exact foldlM_option_invariant
    (fun t => t.MetaDataName = r.MetaDataName ∧ t.Namespace = r.Namespace)
    parseOwnerReferenceKey m
    (fun s x _ s2 hs hs2 => by
      have hf := parseOwnerReferenceKey_fields s s2 x hs2
      exact ⟨hf.1.trans hs.1, hf.2.1.trans hs.2⟩)
    r r1 ⟨rfl, rfl⟩ hm

theorem parseOwnerReference_last (r r1 : MetaDataAndOwnerReferences)
    (lastRef : List (String × JSONValue)) (oname okind oapi : String)
    (hlk : (lastRef.map Prod.fst).Nodup)
    (hon : ("name", JSONValue.string oname) ∈ lastRef)
    (hok : ("kind", JSONValue.string okind) ∈ lastRef)
    (hoa : ("apiVersion", JSONValue.string oapi) ∈ lastRef)
    (h : parseOwnerReference r (JSONValue.object lastRef) = some r1) :
    r1.OwnerReferenceName = oname ∧ r1.OwnerReferenceKind = okind ∧
      r1.OwnerReferenceAPIVersion = oapi := by
  unfold parseOwnerReference at h
  simp only [JSONValue.asObject, Option.bind_eq_some, Option.some.injEq] at h
  obtain ⟨m, hm, hfold⟩ := h
  subst hm
  have e1 := foldlM_field_lookup parseOwnerReferenceKey (fun t => t.OwnerReferenceName)
    "name" JSONValue.asString
    (fun s kv s1 hs => (parseOwnerReferenceKey_fields s s1 kv hs).2.2.1) lastRef hlk r r1 hfold
  have e2 := foldlM_field_lookup parseOwnerReferenceKey (fun t => t.OwnerReferenceKind)
    "kind" JSONValue.asString
    (fun s kv s1 hs => (parseOwnerReferenceKey_fields s s1 kv hs).2.2.2.1) lastRef hlk r r1
    hfold
  have e3 := foldlM_field_lookup parseOwnerReferenceKey
    (fun t => t.OwnerReferenceAPIVersion) "apiVersion" JSONValue.asString
    (fun s kv s1 hs => (parseOwnerReferenceKey_fields s s1 kv hs).2.2.2.2) lastRef hlk r r1
    hfold
  rw [lookup_eq_some_of_mem lastRef _ _ hlk hon] at e1
  rw [lookup_eq_some_of_mem lastRef _ _ hlk hok] at e2
  rw [lookup_eq_some_of_mem lastRef _ _ hlk hoa] at e3
  exact ⟨e1, e2, e3⟩

theorem ownerReferences_last (r r1 : MetaDataAndOwnerReferences) (refs : List JSONValue)
    (lastRef : List (String × JSONValue)) (oname okind oapi : String)
    (hlk : (lastRef.map Prod.fst).Nodup)
    (hon : ("name", JSONValue.string oname) ∈ lastRef)
    (hok : ("kind", JSONValue.string okind) ∈ lastRef)
    (hoa : ("apiVersion", JSONValue.string oapi) ∈ lastRef)
    (h : (refs ++ [JSONValue.object lastRef]).foldlM parseOwnerReference r = some r1) :
    r1.MetaDataName = r.MetaDataName ∧ r1.Namespace = r.Namespace ∧
      r1.OwnerReferenceName = oname ∧ r1.OwnerReferenceKind = okind ∧
      r1.OwnerReferenceAPIVersion = oapi := by
  have hkeep := foldlM_option_invariant
    (fun t => t.MetaDataName = r.MetaDataName ∧ t.Namespace = r.Namespace)
    parseOwnerReference (refs ++ [JSONValue.object lastRef])
    (fun s x _ s2 hs hs2 => by
      have hf := parseOwnerReference_keeps s s2 x hs2
      exact ⟨hf.1.trans hs.1, hf.2.trans hs.2⟩)
    r r1 ⟨rfl, rfl⟩ h
  rw [List.foldlM_append] at h
  simp only [Option.bind_eq_bind, Option.bind_eq_some] at h
  obtain ⟨r0, _, hlast⟩ := h
  rw [List.foldlM_cons] at hlast
  simp only [Option.bind_eq_bind, Option.bind_eq_some] at hlast
  obtain ⟨r2, hr2, he⟩ := hlast
  have he2 : r2 = r1 := by simpa using he
  subst he2
  exact ⟨hkeep.1, hkeep.2, parseOwnerReference_last r0 r2 lastRef oname okind oapi hlk hon hok hoa hr2⟩

theorem parseMetadataKey_fields (r r1 : MetaDataAndOwnerReferences) (k : String)
    (v : JSONValue) (h : parseMetadataKey r (k, v) = some r1) :
    (k ≠ "name" → r1.MetaDataName = r.MetaDataName) ∧
    (k = "name" → v.asString = some r1.MetaDataName) ∧
    (k ≠ "namespace" → r1.Namespace = r.Namespace) ∧
    (k = "namespace" → v.asString = some r1.Namespace) ∧
    (k ≠ "ownerReferences" →
      (r1.OwnerReferenceName, r1.OwnerReferenceKind, r1.OwnerReferenceAPIVersion)
        = (r.OwnerReferenceName, r.OwnerReferenceKind, r.OwnerReferenceAPIVersion)) ∧
    (k = "ownerReferences" → ∃ l, v.asArray = some l ∧
      l.foldlM parseOwnerReference r = some r1) := by
  unfold parseMetadataKey at h
  simp only [Option.bind_eq_some] at h
  obtain ⟨ra, ha, rb, hb, hc⟩ := h
  by_cases h0 : k = "ownerReferences"
  · have h1 : ¬ k = "namespace" := by rw [h0]; decide
    have h2 : ¬ k = "name" := by rw [h0]; decide
    rw [if_pos h0] at ha
    rw [if_neg h1] at hb
    rw [if_neg h2] at hc
    have e1 : ra = rb := Option.some.inj hb
    have e2 : rb = r1 := Option.some.inj hc
    subst e1
    subst e2
    simp only [Option.bind_eq_some] at ha
    obtain ⟨l, hl, hfold⟩ := ha
    have hkeep := foldlM_option_invariant
      (fun t => t.MetaDataName = r.MetaDataName ∧ t.Namespace = r.Namespace)
      parseOwnerReference l
      (fun s x _ s2 hs hs2 => by
        have hf := parseOwnerReference_keeps s s2 x hs2
        exact ⟨hf.1.trans hs.1, hf.2.trans hs.2⟩)
      r ra ⟨rfl, rfl⟩ hfold
    exact ⟨fun _ => hkeep.1, fun hc => absurd hc h2, fun _ => hkeep.2,
      fun hc => absurd hc h1, fun hc => absurd h0 hc, fun _ => ⟨l, hl, hfold⟩⟩
  · rw [if_neg h0] at ha
    have e0 : r = ra := Option.some.inj ha
    subst e0
    by_cases h1 : k = "namespace"
    · have h2 : ¬ k = "name" := by rw [h1]; decide
      rw [if_pos h1] at hb
      rw [if_neg h2] at hc
      have e2 : rb = r1 := Option.some.inj hc
      subst e2
      simp only [Option.map_eq_some'] at hb
      obtain ⟨x, hx, hrb⟩ := hb
      subst hrb
      exact ⟨fun _ => rfl, fun hc => absurd hc h2, fun hc => absurd h1 hc,
        fun _ => hx, fun _ => rfl, fun hc => absurd hc h0⟩
    · rw [if_neg h1] at hb
      have e1 : r = rb := Option.some.inj hb
      subst e1
      by_cases h2 : k = "name"
      · rw [if_pos h2] at hc
        simp only [Option.map_eq_some'] at hc
        obtain ⟨x, hx, hr1⟩ := hc
        subst hr1
        exact ⟨fun hc => absurd h2 hc, fun _ => hx, fun _ => rfl,
          fun hc => absurd hc h1, fun _ => rfl, fun hc => absurd hc h0⟩
      · rw [if_neg h2] at hc
        have e2 : r = r1 := Option.some.inj hc
        subst e2
        exact ⟨fun _ => rfl, fun hc => absurd hc h2, fun _ => rfl,
          fun hc => absurd hc h1, fun _ => rfl, fun hc => absurd hc h0⟩

theorem parseMetadataMap_fields (metadataMap lastRef : List (String × JSONValue))
    (refs : List JSONValue) (name nsName oname okind oapi : String)
    (hmk : (metadataMap.map Prod.fst).Nodup)
    (hname : ("name", JSONValue.string name) ∈ metadataMap)
    (hns : ("namespace", JSONValue.string nsName) ∈ metadataMap)
    (howner : ("ownerReferences",
      JSONValue.array (refs ++ [JSONValue.object lastRef])) ∈ metadataMap)
    (hlk : (lastRef.map Prod.fst).Nodup)
    (hon : ("name", JSONValue.string oname) ∈ lastRef)
    (hok : ("kind", JSONValue.string okind) ∈ lastRef)
    (hoa : ("apiVersion", JSONValue.string oapi) ∈ lastRef)
    (r r1 : MetaDataAndOwnerReferences)
    (h : metadataMap.foldlM parseMetadataKey r = some r1) :
    r1.MetaDataName = name ∧ r1.Namespace = nsName ∧ r1.OwnerReferenceName = oname ∧
      r1.OwnerReferenceKind = okind ∧ r1.OwnerReferenceAPIVersion = oapi := by
  obtain ⟨a0, a1, ha, hae⟩ := foldlM_field_of_key parseMetadataKey (fun t => t.MetaDataName)
    "name" (JSONValue.string name)
    (fun s kv s1 hk hs => (parseMetadataKey_fields s s1 kv.1 kv.2 hs).1 hk)
    metadataMap hmk hname r r1 h
  obtain ⟨b0, b1, hb, hbe⟩ := foldlM_field_of_key parseMetadataKey (fun t => t.Namespace)
    "namespace" (JSONValue.string nsName)
    (fun s kv s1 hk hs => (parseMetadataKey_fields s s1 kv.1 kv.2 hs).2.2.1 hk)
    metadataMap hmk hns r r1 h
  obtain ⟨c0, c1, hc, hce⟩ := foldlM_field_of_key parseMetadataKey
    (fun t => (t.OwnerReferenceName, t.OwnerReferenceKind, t.OwnerReferenceAPIVersion))
    "ownerReferences" (JSONValue.array (refs ++ [JSONValue.object lastRef]))
    (fun s kv s1 hk hs => (parseMetadataKey_fields s s1 kv.1 kv.2 hs).2.2.2.2.1 hk)
    metadataMap hmk howner r r1 h
  have ea := (parseMetadataKey_fields a0 a1 _ _ ha).2.1 rfl
  have eb := (parseMetadataKey_fields b0 b1 _ _ hb).2.2.2.1 rfl
  obtain ⟨l, hl, hfold⟩ := (parseMetadataKey_fields c0 c1 _ _ hc).2.2.2.2.2 rfl
  have hl2 : refs ++ [JSONValue.object lastRef] = l := by
    simpa [JSONValue.asArray] using hl
  subst hl2
  have ec := ownerReferences_last c0 c1 refs lastRef oname okind oapi hlk hon hok hoa hfold
  simp only [JSONValue.asString, Option.some.injEq] at ea eb
  simp only [Prod.mk.injEq] at hce
  refine ⟨?_, ?_, ?_, ?_, ?_⟩
  · rw [hae, ← ea]
  · rw [hbe, ← eb]
  · rw [hce.1]; exact ec.2.2.1
  · rw [hce.2.1]; exact ec.2.2.2.1
  · rw [hce.2.2]; exact ec.2.2.2.2

theorem parseItemKey_metadata_fields (b : Bool)
    (itemConverted metadataMap lastRef : List (String × JSONValue))
    (refs : List JSONValue) (name nsName oname okind oapi : String)
    (slice : List MetaDataAndOwnerReferences)
    (hkeys : (itemConverted.map Prod.fst).Nodup)
    (hmeta : ("metadata", JSONValue.object metadataMap) ∈ itemConverted)
    (hmk : (metadataMap.map Prod.fst).Nodup)
    (hname : ("name", JSONValue.string name) ∈ metadataMap)
    (hns : ("namespace", JSONValue.string nsName) ∈ metadataMap)
    (howner : ("ownerReferences",
      JSONValue.array (refs ++ [JSONValue.object lastRef])) ∈ metadataMap)
    (hlk : (lastRef.map Prod.fst).Nodup)
    (hon : ("name", JSONValue.string oname) ∈ lastRef)
    (hok : ("kind", JSONValue.string okind) ∈ lastRef)
    (hoa : ("apiVersion", JSONValue.string oapi) ∈ lastRef)
    (st st2 : ItemState) (kv : String × JSONValue) (hkv : kv ∈ itemConverted)
    (hinv : (∃ recs, st.metaDataSlice = slice ++ recs ∧ ∀ r ∈ recs,
          r.MetaDataName = name ∧ r.Namespace = nsName ∧ r.OwnerReferenceName = oname ∧
          r.OwnerReferenceKind = okind ∧ r.OwnerReferenceAPIVersion = oapi) ∧
        (st.metadataProcessed = true →
          st.metaDataRef.MetaDataName = name ∧ st.metaDataRef.Namespace = nsName ∧
          st.metaDataRef.OwnerReferenceName = oname ∧
          st.metaDataRef.OwnerReferenceKind = okind ∧
          st.metaDataRef.OwnerReferenceAPIVersion = oapi))
    (h : parseItemKey b st kv = some st2) :
    (∃ recs, st2.metaDataSlice = slice ++ recs ∧ ∀ r ∈ recs,
          r.MetaDataName = name ∧ r.Namespace = nsName ∧ r.OwnerReferenceName = oname ∧
          r.OwnerReferenceKind = okind ∧ r.OwnerReferenceAPIVersion = oapi) ∧
        (st2.metadataProcessed = true →
          st2.metaDataRef.MetaDataName = name ∧ st2.metaDataRef.Namespace = nsName ∧
          st2.metaDataRef.OwnerReferenceName = oname ∧
          st2.metaDataRef.OwnerReferenceKind = okind ∧
          st2.metaDataRef.OwnerReferenceAPIVersion = oapi) := by
  obtain ⟨⟨recs, hrecs, hall⟩, href⟩ := hinv
  obtain ⟨ref, hm, hs, hother, hst2⟩ := parseItemKey_shape b st st2 kv h
  -- the fields of `ref` once the flag is set
  have hnew : (st.metadataProcessed || decide (kv.1 = "metadata")) = true →
      ref.MetaDataName = name ∧ ref.Namespace = nsName ∧ ref.OwnerReferenceName = oname ∧
      ref.OwnerReferenceKind = okind ∧ ref.OwnerReferenceAPIVersion = oapi := by
    intro hflag
    by_cases hk : kv.1 = "metadata"
    · obtain ⟨m, hasobj, hfold⟩ := hm hk
      have hv : kv.2 = JSONValue.object metadataMap := by
        have a1 := lookup_eq_some_of_mem itemConverted kv.1 kv.2 hkeys hkv
        have a2 := lookup_eq_some_of_mem itemConverted "metadata" _ hkeys hmeta
        rw [hk, a2] at a1
        exact (Option.some.inj a1).symm
      rw [hv] at hasobj
      have hm2 : metadataMap = m := by simpa [JSONValue.asObject] using hasobj
      subst hm2
      exact parseMetadataMap_fields metadataMap lastRef refs name nsName oname okind oapi
        hmk hname hns howner hlk hon hok hoa _ ref hfold
    · have hold : st.metadataProcessed = true := by simpa [hk] using hflag
      have hf := href hold
      by_cases hks : kv.1 = "status"
      · obtain ⟨m, status, _, _, hrefeq⟩ := hs hks
        rw [hrefeq]
        exact hf
      · rw [hother hk hks]
        exact hf
  subst hst2
  simp only
  refine ⟨?_, hnew⟩
  by_cases hc : (if b = true then
      (st.metadataProcessed || decide (kv.1 = "metadata"))
        && (st.statusProcessed || decide (kv.1 = "status"))
      else (st.metadataProcessed || decide (kv.1 = "metadata"))) = true
  · rw [if_pos hc]
    have hflag : (st.metadataProcessed || decide (kv.1 = "metadata")) = true := by
      cases b
      · simpa using hc
      · simp only [if_true, Bool.and_eq_true] at hc
        exact hc.1
    refine ⟨recs ++ [ref], by rw [hrecs, List.append_assoc], ?_⟩
    intro r hr
    rcases List.mem_append.mp hr with h1 | h1
    · exact hall r h1
    · rw [List.mem_singleton] at h1
      rw [h1]
      exact hnew hflag
  · rw [if_neg hc]
    exact ⟨recs, hrecs, hall⟩

/-! ## Claims on the fields taken from `metadata` -/

/-- C15 as stated fails: for the item `twoOwnersItem`, whose `ownerReferences` lists
ReplicaSet "owner-a" first and Job "owner-b" second, the record carries the
name, kind and apiVersion of the second entry. -/
theorem owner_reference_counterexample :
    parseItem (JSONValue.object twoOwnersItem) []
      = some [⟨"web", "", "default", "owner-b", "Job", "batch/v1"⟩] := by
  decide

/-- C15 (amended): for every list item whose `metadata` has a name, a namespace and
a non-empty `ownerReferences` list whose last entry has a name, a kind and an
apiVersion: every record `parseMetaData` appends for the item has MetaDataName =
`metadata.name`, Namespace = `metadata.namespace`, and OwnerReferenceName,
OwnerReferenceKind and OwnerReferenceAPIVersion equal to the name, kind and
apiVersion of the last entry of `ownerReferences`, whatever the earlier entries
hold. -/
theorem metadata_fields (itemConverted metadataMap lastRef : List (String × JSONValue))
    (refs : List JSONValue) (name nsName oname okind oapi : String)
    (metaDataSlice out : List MetaDataAndOwnerReferences)
    (hkeys : (itemConverted.map Prod.fst).Nodup)
    (hmeta : ("metadata", JSONValue.object metadataMap) ∈ itemConverted)
    (hmk : (metadataMap.map Prod.fst).Nodup)
    (hname : ("name", JSONValue.string name) ∈ metadataMap)
    (hns : ("namespace", JSONValue.string nsName) ∈ metadataMap)
    (howner : ("ownerReferences",
      JSONValue.array (refs ++ [JSONValue.object lastRef])) ∈ metadataMap)
    (hlk : (lastRef.map Prod.fst).Nodup)
    (hon : ("name", JSONValue.string oname) ∈ lastRef)
    (hok : ("kind", JSONValue.string okind) ∈ lastRef)
    (hoa : ("apiVersion", JSONValue.string oapi) ∈ lastRef)
    (h : parseItem (JSONValue.object itemConverted) metaDataSlice = some out) :
    ∃ recs, out = metaDataSlice ++ recs ∧ ∀ r ∈ recs,
      r.MetaDataName = name ∧ r.Namespace = nsName ∧ r.OwnerReferenceName = oname ∧
      r.OwnerReferenceKind = okind ∧ r.OwnerReferenceAPIVersion = oapi := by
  obtain ⟨st, hst, hout⟩ := parseItem_eq_some itemConverted metaDataSlice out h
  have hinv := foldlM_option_invariant
    (fun (s : ItemState) =>
      (∃ recs, s.metaDataSlice = metaDataSlice ++ recs ∧ ∀ r ∈ recs,
          r.MetaDataName = name ∧ r.Namespace = nsName ∧ r.OwnerReferenceName = oname ∧
          r.OwnerReferenceKind = okind ∧ r.OwnerReferenceAPIVersion = oapi) ∧
        (s.metadataProcessed = true →
          s.metaDataRef.MetaDataName = name ∧ s.metaDataRef.Namespace = nsName ∧
          s.metaDataRef.OwnerReferenceName = oname ∧
          s.metaDataRef.OwnerReferenceKind = okind ∧
          s.metaDataRef.OwnerReferenceAPIVersion = oapi))
    _ itemConverted
    (fun s x hx s2 hs hs2 =>
      parseItemKey_metadata_fields _ itemConverted metadataMap lastRef refs name nsName
        oname okind oapi metaDataSlice hkeys hmeta hmk hname hns howner hlk hon hok hoa
        s s2 x hx hs hs2)
    _ st ⟨⟨[], by simp, by simp⟩, by simp⟩ hst
  rw [← hout]
  exact hinv.1

/-- Witness of `metadata_fields`: the item `twoOwnersItem`; its record has the
fields of the second, last, owner reference. -/
theorem metadata_fields_witness :
    ∃ recs, [(⟨"web", "", "default", "owner-b", "Job", "batch/v1"⟩ :
        MetaDataAndOwnerReferences)] = [] ++ recs ∧ ∀ r ∈ recs,
      r.MetaDataName = "web" ∧ r.Namespace = "default" ∧ r.OwnerReferenceName = "owner-b" ∧
      r.OwnerReferenceKind = "Job" ∧ r.OwnerReferenceAPIVersion = "batch/v1" :=
  metadata_fields twoOwnersItem
    [("name", JSONValue.string "web"), ("namespace", JSONValue.string "default"),
     ("ownerReferences", JSONValue.array
        ([JSONValue.object [("apiVersion", JSONValue.string "apps/v1"),
           ("kind", JSONValue.string "ReplicaSet"), ("name", JSONValue.string "owner-a")]]
         ++ [JSONValue.object [("apiVersion", JSONValue.string "batch/v1"),
           ("kind", JSONValue.string "Job"), ("name", JSONValue.string "owner-b")]]))]
    [("apiVersion", JSONValue.string "batch/v1"), ("kind", JSONValue.string "Job"),
     ("name", JSONValue.string "owner-b")]
    [JSONValue.object [("apiVersion", JSONValue.string "apps/v1"),
      ("kind", JSONValue.string "ReplicaSet"), ("name", JSONValue.string "owner-a")]]
    "web" "default" "owner-b" "Job" "batch/v1" []
    [⟨"web", "", "default", "owner-b", "Job", "batch/v1"⟩]
    (by decide) (by simp [twoOwnersItem]) (by decide) (by simp) (by simp) (by simp)
    (by decide) (by simp) (by simp) (by simp) (by decide)

/-! ## Request URL -/

theorem Contains_iff (s substr : String) :
    Contains s substr = true ↔ ∃ u v : String, s = u ++ substr ++ v := by
  unfold Contains
  rw [decide_eq_true_iff]
  constructor
  · rintro ⟨l1, l2, h⟩
    exact ⟨⟨l1⟩, ⟨l2⟩, String.ext (by simp [String.data_append, h])⟩
  · rintro ⟨u, v, h⟩
    exact ⟨u.data, v.data, by rw [h]; simp [String.data_append]⟩

/-- A pattern that starts with a slash does not begin inside a slash-free stretch. -/
theorem infix_skip_slashfree (pat h rest : List Char) (hh : '/' ∉ h) :
    ('/' :: pat) <:+: (h ++ rest) → ('/' :: pat) <:+: rest := by
  induction h with
  | nil => exact id
  | cons c h ih =>
    intro hin
    rw [List.cons_append, List.infix_cons_iff] at hin
    rcases hin with hp | hin
    · rw [List.cons_prefix_cons] at hp
      exact absurd hp.1 (fun e => hh (e ▸ List.mem_cons_self _ _))
    · exact ih (fun hm => hh (List.mem_cons_of_mem _ hm)) hin

/-- A colon-free word followed by a slash is no prefix of a slash-free word followed by a colon. -/
theorem prefix_colon_absurd (w h rest : List Char) (hw : ':' ∉ w) (hh : '/' ∉ h) :
    ¬ (w ++ ['/']) <+: (h ++ ':' :: rest) := by
  induction h generalizing w with
  | nil =>
    cases w with
    | nil => intro hp; rw [List.nil_append, List.nil_append, List.cons_prefix_cons] at hp
             exact absurd hp.1 (by decide)
    | cons c w => intro hp; rw [List.cons_append, List.nil_append, List.cons_prefix_cons] at hp
                  exact hw (hp.1 ▸ List.mem_cons_self _ _)
  | cons d h ih =>
    cases w with
    | nil => intro hp; rw [List.nil_append, List.cons_append, List.cons_prefix_cons] at hp
             exact hh (hp.1 ▸ List.mem_cons_self _ _)
    | cons c w =>
      intro hp
      rw [List.cons_append, List.cons_append, List.cons_prefix_cons] at hp
      exact ih w (fun hm => hw (List.mem_cons_of_mem _ hm))
        (fun hm => hh (List.mem_cons_of_mem _ hm)) hp.2

theorem persistentVolume_url_no_namespaces (host port : String)
    (hhost : '/' ∉ host.data) (hport : '/' ∉ port.data) :
    Contains ("https://" ++ host ++ ":" ++ port ++ "/api/v1/persistentvolumes") "/namespaces/"
      = false := by
  unfold Contains
  rw [decide_eq_false_iff_not]
  intro hin
  have hd : ("https://" ++ host ++ ":" ++ port ++ "/api/v1/persistentvolumes").data
      = 'h' :: 't' :: 't' :: 'p' :: 's' :: ':' :: '/' :: '/' ::
          (host.data ++ ':' :: (port.data ++ "/api/v1/persistentvolumes".data)) := by
    simp [String.data_append]
  rw [hd] at hin
  have hpat : "/namespaces/".data = '/' :: ("namespaces".data ++ ['/']) := by decide
  rw [hpat] at hin
  have hne : ∀ c : Char, c ≠ '/' → ∀ l, ('/' :: ("namespaces".data ++ ['/'])) <:+: c :: l →
      ('/' :: ("namespaces".data ++ ['/'])) <:+: l := by
    intro c hc l h
    rw [List.infix_cons_iff] at h
    rcases h with hp | h
    · rw [List.cons_prefix_cons] at hp; exact absurd hp.1.symm hc
    · exact h
  have h1 := hne _ (by decide) _ (hne _ (by decide) _ (hne _ (by decide) _
    (hne _ (by decide) _ (hne _ (by decide) _ (hne _ (by decide) _ hin)))))
  rw [List.infix_cons_iff] at h1
  rcases h1 with hp | h1
  · rw [List.cons_prefix_cons] at hp
    have := hp.2
    rw [show "namespaces".data ++ ['/'] = 'n' :: ("amespaces".data ++ ['/']) from by decide,
      List.cons_prefix_cons] at this
    exact absurd this.1 (by decide)
  rw [List.infix_cons_iff] at h1
  rcases h1 with hp | h1
  · rw [List.cons_prefix_cons] at hp
    exact prefix_colon_absurd _ _ _ (by decide) hhost hp.2
  · have h2 := infix_skip_slashfree _ _ _ hhost h1
    have h3 := infix_skip_slashfree _ _ _ hport (hne _ (by decide) _ h2)
    exact absurd h3 (by decide)

/-- C21 as stated fails: the requested URL is not the string built from host, port, API
path, namespace and plural name, but what `url.Parse` and `String` make of it.  For the
namespace `my ns` (the plural `pods` does not occur in `api/v1`) the request goes to
`.../namespaces/my%20ns/pods`, not to `.../namespaces/my ns/pods`. -/
theorem queryAPIServer_url_counterexample :
    (¬ ∃ u v : String, "api/v1" = u ++ "pods" ++ v) ∧
    queryAPIServerRequest URLString "10.0.0.1" "443" "api/v1" "pods" "my ns"
      = some "https://10.0.0.1:443/api/v1/namespaces/my%20ns/pods" ∧
    queryAPIServerRequest URLString "10.0.0.1" "443" "api/v1" "pods" "my ns"
      ≠ some ("https://" ++ "10.0.0.1" ++ ":" ++ "443" ++ "/" ++ "api/v1" ++ "/namespaces/"
          ++ "my ns" ++ "/" ++ "pods") := by
  refine ⟨?_, by decide, by decide⟩
  rw [← Contains_iff]
  decide

/-- C21 (amended): `queryAPIServer` builds the string `https://host:port/a` when the plural
name `p` occurs as a substring of the API path `a`, and
`https://host:port/a/namespaces/ns/p` otherwise, and requests what `url.Parse` and
`String` make of that string (no request when the parse fails); so the requested URL is
the built string whenever `url.Parse` accepts it and writes it back unchanged.  For the
baseline schema, under the same condition, the PersistentVolume URL is
`https://host:port/api/v1/persistentvolumes`, whose path has no `/namespaces/` segment
(nor has the whole URL when host and port are free of slashes), while the URL of every
other baseline kind is the namespace-qualified one. -/
theorem queryAPIServer_url (urlString : String → Option String) (host port a p ns : String) :
    ((∃ u v : String, a = u ++ p ++ v) →
      queryAPIServerRequest urlString host port a p ns
          = urlString ("https://" ++ host ++ ":" ++ port ++ "/" ++ a) ∧
        (urlString ("https://" ++ host ++ ":" ++ port ++ "/" ++ a)
            = some ("https://" ++ host ++ ":" ++ port ++ "/" ++ a) →
          queryAPIServerRequest urlString host port a p ns
            = some ("https://" ++ host ++ ":" ++ port ++ "/" ++ a))) ∧
    ((¬ ∃ u v : String, a = u ++ p ++ v) →
      queryAPIServerRequest urlString host port a p ns
          = urlString ("https://" ++ host ++ ":" ++ port ++ "/" ++ a ++ "/namespaces/" ++ ns
              ++ "/" ++ p) ∧
        (urlString ("https://" ++ host ++ ":" ++ port ++ "/" ++ a ++ "/namespaces/" ++ ns
              ++ "/" ++ p)
            = some ("https://" ++ host ++ ":" ++ port ++ "/" ++ a ++ "/namespaces/" ++ ns
              ++ "/" ++ p) →
          queryAPIServerRequest urlString host port a p ns
            = some ("https://" ++ host ++ ":" ++ port ++ "/" ++ a ++ "/namespaces/" ++ ns
              ++ "/" ++ p))) ∧
    (urlString ("https://" ++ host ++ ":" ++ port ++ "/api/v1/persistentvolumes")
        = some ("https://" ++ host ++ ":" ++ port ++ "/api/v1/persistentvolumes") →
      kindURL urlString baselineKindPluralMap baselineKindVersionMap host port
          "PersistentVolume" ns
        = some ("https://" ++ host ++ ":" ++ port ++ "/api/v1/persistentvolumes")) ∧
    Contains "/api/v1/persistentvolumes" "/namespaces/" = false ∧
    ('/' ∉ host.data → '/' ∉ port.data →
      Contains ("https://" ++ host ++ ":" ++ port ++ "/api/v1/persistentvolumes")
        "/namespaces/" = false) ∧
    (∀ kv ∈ baselineKindPluralMap, kv.1 ≠ "PersistentVolume" →
      Contains ("https://" ++ host ++ ":" ++ port ++ "/" ++ baselineKindVersionMap.get kv.1
          ++ "/namespaces/" ++ ns ++ "/" ++ kv.2) "/namespaces/" = true ∧
      (urlString ("https://" ++ host ++ ":" ++ port ++ "/" ++ baselineKindVersionMap.get kv.1
            ++ "/namespaces/" ++ ns ++ "/" ++ kv.2)
          = some ("https://" ++ host ++ ":" ++ port ++ "/" ++ baselineKindVersionMap.get kv.1
            ++ "/namespaces/" ++ ns ++ "/" ++ kv.2) →
        kindURL urlString baselineKindPluralMap baselineKindVersionMap host port kv.1 ns
          = some ("https://" ++ host ++ ":" ++ port ++ "/" ++ baselineKindVersionMap.get kv.1
            ++ "/namespaces/" ++ ns ++ "/" ++ kv.2))) := by
  have hyes : (∃ u v : String, a = u ++ p ++ v) →
      queryAPIServerURL host port a p ns = "https://" ++ host ++ ":" ++ port ++ "/" ++ a := by
    intro h
    unfold queryAPIServerURL
    rw [(Contains_iff a p).mpr h]
    rfl
  have hno : (¬ ∃ u v : String, a = u ++ p ++ v) →
      queryAPIServerURL host port a p ns
        = "https://" ++ host ++ ":" ++ port ++ "/" ++ a ++ "/namespaces/" ++ ns ++ "/" ++ p := by
    intro h
    have hc : Contains a p = false := by
      cases hb : Contains a p with
      | false => rfl
      | true => exact absurd ((Contains_iff a p).mp hb) h
    unfold queryAPIServerURL
    rw [hc]
    rfl
  have hpv : queryAPIServerURL host port (baselineKindVersionMap.get "PersistentVolume")
        (baselineKindPluralMap.get "PersistentVolume") ns
      = "https://" ++ host ++ ":" ++ port ++ "/api/v1/persistentvolumes" := by
    have hc : Contains (baselineKindVersionMap.get "PersistentVolume")
        (baselineKindPluralMap.get "PersistentVolume") = true := by decide
    have hv : baselineKindVersionMap.get "PersistentVolume" = "api/v1/persistentvolumes" := by
      decide
    unfold queryAPIServerURL
    rw [hc, hv]
    simp [String.append_assoc]
  refine ⟨?_, ?_, ?_, by decide, ?_, ?_⟩
  · intro h
    unfold queryAPIServerRequest
    rw [hyes h]
    exact ⟨rfl, fun hu => hu⟩
  · intro h
    unfold queryAPIServerRequest
    rw [hno h]
    exact ⟨rfl, fun hu => hu⟩
  · intro hu
    unfold kindURL queryAPIServerRequest
    rw [hpv]
    exact hu
  · intro hhost hport
    exact persistentVolume_url_no_namespaces host port hhost hport
  · intro kv hkv hne
    have hc : Contains (baselineKindVersionMap.get kv.1) kv.2 = false := by
      revert kv; decide
    have hp : baselineKindPluralMap.get kv.1 = kv.2 := by
      revert kv; decide
    have hurl : queryAPIServerURL host port (baselineKindVersionMap.get kv.1)
          (baselineKindPluralMap.get kv.1) ns
        = "https://" ++ host ++ ":" ++ port ++ "/" ++ baselineKindVersionMap.get kv.1
            ++ "/namespaces/" ++ ns ++ "/" ++ kv.2 := by
      unfold queryAPIServerURL
      rw [hp, hc]
      rfl
    refine ⟨?_, ?_⟩
    · rw [Contains_iff]
      exact ⟨"https://" ++ host ++ ":" ++ port ++ "/" ++ baselineKindVersionMap.get kv.1,
        ns ++ "/" ++ kv.2, by simp [String.append_assoc]⟩
    · intro hu
      unfold kindURL queryAPIServerRequest
      rw [hurl]
      exact hu

/-- C21 (amended) at a concrete cluster address and the namespace `default`, which the
library leaves unchanged: the Deployment list is requested from the namespace-qualified
path, the PersistentVolume list from the cluster-wide one. -/
theorem queryAPIServer_url_witness :
    queryAPIServerRequest URLString "10.0.0.1" "443" "apis/apps/v1" "deployments" "default"
        = some "https://10.0.0.1:443/apis/apps/v1/namespaces/default/deployments" ∧
      queryAPIServerRequest URLString "10.0.0.1" "443" "api/v1/persistentvolumes"
          "persistentvolumes" "default"
        = some "https://10.0.0.1:443/api/v1/persistentvolumes" ∧
      kindURL URLString baselineKindPluralMap baselineKindVersionMap "10.0.0.1" "443"
          "PersistentVolume" "default"
        = some "https://10.0.0.1:443/api/v1/persistentvolumes" ∧
      Contains "https://10.0.0.1:443/api/v1/persistentvolumes" "/namespaces/" = false :=
  ⟨((queryAPIServer_url URLString "10.0.0.1" "443" "apis/apps/v1" "deployments"
      "default").2.1 (by rw [← Contains_iff]; decide)).2 (by decide),
    ((queryAPIServer_url URLString "10.0.0.1" "443" "api/v1/persistentvolumes"
      "persistentvolumes" "default").1 ⟨"api/v1/", "", by decide⟩).2 (by decide),
    (queryAPIServer_url URLString "10.0.0.1" "443" "" "" "default").2.2.1 (by decide),
    (queryAPIServer_url URLString "10.0.0.1" "443" "" "" "default").2.2.2.2.1
      (by decide) (by decide)⟩

/-! ## The records of one item -/

theorem foldlM_field_update {σ β : Type} (f : σ → String × JSONValue → Option σ)
    (get : σ → β) (key : String) (upd : JSONValue → β → β)
    (l : List (String × JSONValue)) (hnd : (l.map Prod.fst).Nodup)
    (hstep : ∀ s kv s1, kv ∈ l → f s kv = some s1 →
      get s1 = if kv.1 = key then upd kv.2 (get s) else get s) :
    ∀ s s2, l.foldlM f s = some s2 →
      get s2 = match l.lookup key with
        | some v => upd v (get s)
        | none => get s := by
  induction l with
  | nil =>
    intro s s2 h
    have : s = s2 := by simpa using h
    rw [← this]
    rfl
  | cons kv rest ih =>
    intro s s2 h
    rw [List.map_cons, List.nodup_cons] at hnd
    rw [List.foldlM_cons] at h
    cases hs1 : f s kv with
    | none => rw [hs1] at h; exact absurd h (by simp)
    | some s1 =>
      rw [hs1] at h
      have h2 := ih hnd.2 (fun s kv s1 hm => hstep s kv s1 (List.mem_cons_of_mem _ hm)) s1 s2 h
      have h1 := hstep s kv s1 (List.mem_cons_self _ _) hs1
      obtain ⟨k, v⟩ := kv
      rw [lookup_cons_ite]
      by_cases hk : k = key
      · subst hk
        have hno : rest.lookup k = none :=
          lookup_eq_none_of_not_mem rest k hnd.1
        rw [hno] at h2
        rw [if_pos rfl] at h1 ⊢
        simp only at h2 ⊢
        rw [h2, h1]
      · have hk2 : ¬ key = k := fun e => hk e.symm
        rw [if_neg hk] at h1
        rw [if_neg hk2, h2, h1]

theorem parseOwnerReference_owner (r r1 : MetaDataAndOwnerReferences) (v : JSONValue)
    (hd : distinctKeys (v.asObject.getD []) = true)
    (h : parseOwnerReference r v = some r1) :
    (r1.OwnerReferenceName, r1.OwnerReferenceKind, r1.OwnerReferenceAPIVersion)
      = ownerReferenceOf
          (r.OwnerReferenceName, r.OwnerReferenceKind, r.OwnerReferenceAPIVersion) v := by
  unfold parseOwnerReference at h
  simp only [Option.bind_eq_some] at h
  obtain ⟨m, hm, hfold⟩ := h
  rw [hm] at hd
  have hnd : (m.map Prod.fst).Nodup := by
    unfold distinctKeys at hd
    simpa using hd
  have e1 := foldlM_field_lookup parseOwnerReferenceKey (fun t => t.OwnerReferenceName)
    "name" JSONValue.asString
    (fun s kv s1 hs => (parseOwnerReferenceKey_fields s s1 kv hs).2.2.1) m hnd r r1 hfold
  have e2 := foldlM_field_lookup parseOwnerReferenceKey (fun t => t.OwnerReferenceKind)
    "kind" JSONValue.asString
    (fun s kv s1 hs => (parseOwnerReferenceKey_fields s s1 kv hs).2.2.2.1) m hnd r r1 hfold
  have e3 := foldlM_field_lookup parseOwnerReferenceKey (fun t => t.OwnerReferenceAPIVersion)
    "apiVersion" JSONValue.asString
    (fun s kv s1 hs => (parseOwnerReferenceKey_fields s s1 kv hs).2.2.2.2) m hnd r r1 hfold
  unfold ownerReferenceOf
  rw [hm]
  simp only at e1 e2 e3 ⊢
  rw [e1, e2, e3]

theorem ownerReferences_owner (refs : List JSONValue) :
    ∀ (r r1 : MetaDataAndOwnerReferences),
      refs.all (fun ownerReference => distinctKeys (ownerReference.asObject.getD [])) = true →
      refs.foldlM parseOwnerReference r = some r1 →
      (r1.OwnerReferenceName, r1.OwnerReferenceKind, r1.OwnerReferenceAPIVersion)
        = refs.foldl ownerReferenceOf
            (r.OwnerReferenceName, r.OwnerReferenceKind, r.OwnerReferenceAPIVersion) := by
  induction refs with
  | nil =>
    intro r r1 _ h
    have : r = r1 := by simpa using h
    rw [← this]
    rfl
  | cons v rest ih =>
    intro r r1 hd h
    rw [List.all_cons, Bool.and_eq_true] at hd
    rw [List.foldlM_cons] at h
    cases hs : parseOwnerReference r v with
    | none => rw [hs] at h; exact absurd h (by simp)
    | some r0 =>
      rw [hs] at h
      rw [List.foldl_cons, ← parseOwnerReference_owner r r0 v hd.1 hs]
      exact ih r0 r1 hd.2 h

theorem parseMetadataMap_record (metadataMap : List (String × JSONValue))
    (r r1 : MetaDataAndOwnerReferences)
    (hd : distinctKeys metadataMap = true)
    (ho : metadataMap.all (fun mkv =>
      mkv.1 != "ownerReferences" || ownerReferencesDistinct mkv.2) = true)
    (h : metadataMap.foldlM parseMetadataKey r = some r1) :
    r1.MetaDataName = ((metadataMap.lookup "name").bind JSONValue.asString).getD r.MetaDataName ∧
    r1.Status = r.Status ∧
    r1.Namespace = ((metadataMap.lookup "namespace").bind JSONValue.asString).getD r.Namespace ∧
    (r1.OwnerReferenceName, r1.OwnerReferenceKind, r1.OwnerReferenceAPIVersion)
      = match metadataMap.lookup "ownerReferences" with
        | some mvalue => ownerReferencesOf mvalue
            (r.OwnerReferenceName, r.OwnerReferenceKind, r.OwnerReferenceAPIVersion)
        | none => (r.OwnerReferenceName, r.OwnerReferenceKind, r.OwnerReferenceAPIVersion) := by
  have hnd : (metadataMap.map Prod.fst).Nodup := by
    unfold distinctKeys at hd
    simpa using hd
  refine ⟨?_, parseMetadataMap_status r r1 metadataMap h, ?_, ?_⟩
  · refine foldlM_field_lookup parseMetadataKey (fun t => t.MetaDataName) "name"
      JSONValue.asString ?_ metadataMap hnd r r1 h
    intro s kv s1 hs
    have hf := parseMetadataKey_fields s s1 kv.1 kv.2 hs
    by_cases hk : kv.1 = "name"
    · rw [if_pos hk, hf.2.1 hk]; rfl
    · rw [if_neg hk]; exact hf.1 hk
  · refine foldlM_field_lookup parseMetadataKey (fun t => t.Namespace) "namespace"
      JSONValue.asString ?_ metadataMap hnd r r1 h
    intro s kv s1 hs
    have hf := parseMetadataKey_fields s s1 kv.1 kv.2 hs
    by_cases hk : kv.1 = "namespace"
    · rw [if_pos hk, hf.2.2.2.1 hk]; rfl
    · rw [if_neg hk]; exact hf.2.2.1 hk
  · refine foldlM_field_update parseMetadataKey
      (fun t => (t.OwnerReferenceName, t.OwnerReferenceKind, t.OwnerReferenceAPIVersion))
      "ownerReferences" ownerReferencesOf metadataMap hnd ?_ r r1 h
    intro s kv s1 hmem hs
    have hf := parseMetadataKey_fields s s1 kv.1 kv.2 hs
    by_cases hk : kv.1 = "ownerReferences"
    · rw [if_pos hk]
      obtain ⟨l, hl, hfold⟩ := hf.2.2.2.2.2 hk
      have hall := List.all_eq_true.mp ho kv hmem
      have hdist : ownerReferencesDistinct kv.2 = true := by
        simpa [hk] using hall
      unfold ownerReferencesDistinct at hdist
      unfold ownerReferencesOf
      rw [hl] at hdist ⊢
      exact ownerReferences_owner l s s1 hdist hfold
    · rw [if_neg hk]; exact hf.2.2.2.2.1 hk
theorem recordOf_metadata (itemConverted metadataMap : List (String × JSONValue))
    (v : JSONValue) (hl : itemConverted.lookup "metadata" = some v)
    (hv : v.asObject = some metadataMap) :
    (recordOf itemConverted).MetaDataName
        = ((metadataMap.lookup "name").bind JSONValue.asString).getD "" ∧
      (recordOf itemConverted).Namespace
        = ((metadataMap.lookup "namespace").bind JSONValue.asString).getD "" ∧
      ((recordOf itemConverted).OwnerReferenceName, (recordOf itemConverted).OwnerReferenceKind,
          (recordOf itemConverted).OwnerReferenceAPIVersion)
        = match metadataMap.lookup "ownerReferences" with
          | some mvalue => ownerReferencesOf mvalue ("", "", "")
          | none => ("", "", "") := by
  unfold recordOf
  rw [hl]
  simp only [Option.bind, hv, Option.getD]
  exact ⟨trivial, trivial, trivial⟩

theorem recordOf_status (itemConverted statusMap : List (String × JSONValue))
    (v : JSONValue) (hl : itemConverted.lookup "status" = some v)
    (hv : v.asObject = some statusMap) :
    (recordOf itemConverted).Status = derivedStatus statusMap := by
  unfold recordOf
  rw [hl]
  simp only [Option.bind, hv, Option.map, Option.getD]

theorem recordOf_no_status (itemConverted : List (String × JSONValue))
    (hl : itemConverted.lookup "status" = none) :
    (recordOf itemConverted).Status = "" := by
  unfold recordOf
  rw [hl]
  rfl

theorem partialRecord_full (itemConverted : List (String × JSONValue)) (b sp : Bool)
    (hb : b = false → itemConverted.lookup "status" = none)
    (hsp : b = true → sp = true) :
    partialRecord itemConverted true sp = recordOf itemConverted := by
  unfold partialRecord
  cases sp with
  | true => rfl
  | false =>
    have hbf : b = false := by
      cases b with
      | false => rfl
      | true => exact absurd (hsp rfl) (by decide)
    have := recordOf_no_status itemConverted (hb hbf)
    simp only [if_true, Bool.false_eq_true, if_false]
    rw [← this]
theorem itemMapsDistinct_parts (itemConverted : List (String × JSONValue))
    (hmaps : itemMapsDistinct itemConverted = true) :
    (itemConverted.map Prod.fst).Nodup ∧
    (∀ v m, ("metadata", v) ∈ itemConverted → v.asObject = some m →
      distinctKeys m = true ∧
      m.all (fun mkv => mkv.1 != "ownerReferences" || ownerReferencesDistinct mkv.2) = true) ∧
    (∀ v m, ("status", v) ∈ itemConverted → v.asObject = some m →
      (m.map Prod.fst).Nodup) := by
  unfold itemMapsDistinct at hmaps
  rw [Bool.and_eq_true] at hmaps
  obtain ⟨hd, hall⟩ := hmaps
  refine ⟨by unfold distinctKeys at hd; simpa using hd, ?_, ?_⟩
  · intro v m hv hm
    have := List.all_eq_true.mp hall ("metadata", v) hv
    simp only [hm, Option.getD_some, bne_self_eq_false, Bool.false_or, Bool.and_eq_true] at this
    exact this.1
  · intro v m hv hm
    have := List.all_eq_true.mp hall ("status", v) hv
    simp only [hm, Option.getD_some, bne_self_eq_false, Bool.false_or, Bool.and_eq_true] at this
    have hd2 := this.2
    unfold distinctKeys at hd2
    simpa using hd2

theorem parseItemKey_record (itemConverted : List (String × JSONValue))
    (slice : List MetaDataAndOwnerReferences) (b : Bool)
    (hmaps : itemMapsDistinct itemConverted = true)
    (hb : b = false → itemConverted.lookup "status" = none)
    (s s1 : ItemState) (kv : String × JSONValue) (n : Nat)
    (hkv : kv ∈ itemConverted)
    (hmd : s.metadataProcessed = true → kv.1 ≠ "metadata")
    (hsp : s.statusProcessed = true → kv.1 ≠ "status")
    (href : s.metaDataRef
      = partialRecord itemConverted s.metadataProcessed s.statusProcessed)
    (hslice : s.metaDataSlice = slice ++ List.replicate n (recordOf itemConverted))
    (hn : 1 ≤ n ↔ (s.metadataProcessed = true ∧ (b = true → s.statusProcessed = true)))
    (h : parseItemKey b s kv = some s1) :
    s1.metadataProcessed = (s.metadataProcessed || decide (kv.1 = "metadata")) ∧
    s1.statusProcessed = (s.statusProcessed || decide (kv.1 = "status")) ∧
    s1.metaDataRef = partialRecord itemConverted s1.metadataProcessed s1.statusProcessed ∧
    ∃ n1, s1.metaDataSlice = slice ++ List.replicate n1 (recordOf itemConverted) ∧
      n ≤ n1 ∧ n1 ≤ n + 1 ∧
      (1 ≤ n1 ↔ (s1.metadataProcessed = true ∧ (b = true → s1.statusProcessed = true))) := by
  obtain ⟨k, v⟩ := kv
  obtain ⟨ref0, md0, sp0, slice0⟩ := s
  simp only at hmd hsp href hslice hn
  obtain ⟨hnd, hmetaD, hstatD⟩ := itemMapsDistinct_parts itemConverted hmaps
  obtain ⟨ref, hmeta, hstat, hother, hst2⟩ := parseItemKey_shape b _ s1 (k, v) h
  simp only at hmeta hstat hother hst2
  have hrefeq : ref = partialRecord itemConverted (md0 || decide (k = "metadata"))
      (sp0 || decide (k = "status")) := by
    by_cases h0 : k = "metadata"
    · have hmd0 : md0 = false := by
        cases md0 with
        | false => rfl
        | true => exact absurd h0 (hmd rfl)
      have hns : ¬ k = "status" := by rw [h0]; decide
      obtain ⟨m, hm, hfold⟩ := hmeta h0
      subst h0
      have hl := lookup_eq_some_of_mem itemConverted "metadata" v hnd hkv
      obtain ⟨hd, ho⟩ := hmetaD v m hkv hm
      have hrec := parseMetadataMap_record m ref0 ref hd ho hfold
      have hR := recordOf_metadata itemConverted m v hl hm
      subst hmd0
      rw [href] at hrec
      obtain ⟨a1, a2, a3, a4, a5, a6⟩ := ref
      simp only [partialRecord, Bool.false_eq_true, if_false] at hrec
      rw [← hR.2.2, Prod.mk.injEq, Prod.mk.injEq] at hrec
      simp only [partialRecord, Bool.false_or, decide_True, decide_eq_false hns, Bool.or_false,
        if_true, MetaDataAndOwnerReferences.mk.injEq]
      exact ⟨hrec.1.trans hR.1.symm, hrec.2.1, hrec.2.2.1.trans hR.2.1.symm,
        hrec.2.2.2.1, hrec.2.2.2.2.1, hrec.2.2.2.2.2⟩
    · by_cases h1 : k = "status"
      · have hsp0 : sp0 = false := by
          cases sp0 with
          | false => rfl
          | true => exact absurd h1 (hsp rfl)
        obtain ⟨m, status, hm, hpm, hre⟩ := hstat h1
        subst h1
        have hl := lookup_eq_some_of_mem itemConverted "status" v hnd hkv
        have hsd := hstatD v m hkv hm
        subst hsp0
        have hst0 : ref0.Status = "" := by rw [href]; rfl
        have hder := parseStatusMap_derived ref0.Status m hsd status (Or.inl hst0) hpm
        have hR := recordOf_status itemConverted m v hl hm
        rw [hre, hder, ← hR, href]
        simp only [partialRecord, Bool.false_or, decide_True, decide_eq_false h0, Bool.or_false,
          if_true, Bool.false_eq_true, if_false]
      · rw [hother h0 h1, href]
        simp only [decide_eq_false h0, decide_eq_false h1, Bool.or_false]
  rw [hst2]
  simp only
  refine ⟨trivial, trivial, hrefeq, ?_⟩
  by_cases hc : (if b = true then
      (md0 || decide (k = "metadata")) && (sp0 || decide (k = "status"))
      else (md0 || decide (k = "metadata"))) = true
  · rw [if_pos hc]
    have hflags : (md0 || decide (k = "metadata")) = true ∧
        (b = true → (sp0 || decide (k = "status")) = true) := by
      cases b with
      | false => exact ⟨by simpa using hc, fun hf => absurd hf (by decide)⟩
      | true =>
        simp only [if_true, Bool.and_eq_true] at hc
        exact ⟨hc.1, fun _ => hc.2⟩
    have hfull : ref = recordOf itemConverted := by
      rw [hrefeq, hflags.1]
      exact partialRecord_full itemConverted b _ hb hflags.2
    refine ⟨n + 1, ?_, Nat.le_succ n, Nat.le_refl _, ?_⟩
    · rw [hslice, hfull, List.append_assoc, List.replicate_succ']
    · exact ⟨fun _ => hflags, fun _ => Nat.succ_le_succ (Nat.zero_le n)⟩
  · rw [if_neg hc]
    have hnot : ¬ ((md0 || decide (k = "metadata")) = true ∧
        (b = true → (sp0 || decide (k = "status")) = true)) := by
      intro hf
      apply hc
      cases b with
      | false => simpa using hf.1
      | true =>
        simp only [if_true, Bool.and_eq_true]
        exact ⟨hf.1, hf.2 rfl⟩
    have hn0 : ¬ 1 ≤ n := by
      intro h1
      obtain ⟨hm1, hs1⟩ := hn.mp h1
      apply hnot
      refine ⟨by rw [hm1]; rfl, fun hbt => by rw [hs1 hbt]; rfl⟩
    exact ⟨n, hslice, Nat.le_refl _, Nat.le_succ n,
      ⟨fun h1 => absurd h1 hn0, fun hf => absurd hf hnot⟩⟩
theorem parseItemKeys_records (itemConverted : List (String × JSONValue))
    (slice : List MetaDataAndOwnerReferences) (b : Bool)
    (hmaps : itemMapsDistinct itemConverted = true)
    (hb : b = false → itemConverted.lookup "status" = none)
    (l : List (String × JSONValue)) :
    ∀ (s s2 : ItemState) (n : Nat), (∀ kv ∈ l, kv ∈ itemConverted) → (l.map Prod.fst).Nodup →
      (s.metadataProcessed = true → "metadata" ∉ l.map Prod.fst) →
      (s.statusProcessed = true → "status" ∉ l.map Prod.fst) →
      s.metaDataRef = partialRecord itemConverted s.metadataProcessed s.statusProcessed →
      s.metaDataSlice = slice ++ List.replicate n (recordOf itemConverted) →
      (1 ≤ n ↔ (s.metadataProcessed = true ∧ (b = true → s.statusProcessed = true))) →
      l.foldlM (parseItemKey b) s = some s2 →
      ∃ n2, s2.metaDataSlice = slice ++ List.replicate n2 (recordOf itemConverted) ∧
        n ≤ n2 ∧ n2 ≤ n + l.length ∧
        (1 ≤ n2 ↔ (s2.metadataProcessed = true ∧ (b = true → s2.statusProcessed = true))) ∧
        s2.metadataProcessed = (s.metadataProcessed || decide ("metadata" ∈ l.map Prod.fst)) ∧
        s2.statusProcessed = (s.statusProcessed || decide ("status" ∈ l.map Prod.fst)) := by
  induction l with
  | nil =>
    intro s s2 n _ _ _ _ _ hslice hn h
    have e : s = s2 := by simpa using h
    subst e
    exact ⟨n, hslice, Nat.le_refl _, Nat.le_refl _, hn, by simp, by simp⟩
  | cons kv rest ih =>
    intro s s2 n hsub hnd hmd hsp href hslice hn h
    rw [List.map_cons, List.nodup_cons] at hnd
    rw [List.foldlM_cons] at h
    cases hs1 : parseItemKey b s kv with
    | none => rw [hs1] at h; exact absurd h (by simp)
    | some s1 =>
      rw [hs1] at h
      obtain ⟨hmd1, hsp1, href1, n1, hslice1, hle1, hle2, hn1⟩ :=
        parseItemKey_record itemConverted slice b hmaps hb s s1 kv n
          (hsub kv (List.mem_cons_self _ _))
          (fun hm hk => hmd hm (by rw [List.map_cons, ← hk]; exact List.mem_cons_self _ _))
          (fun hm hk => hsp hm (by rw [List.map_cons, ← hk]; exact List.mem_cons_self _ _))
          href hslice hn hs1
      have hmdr : s1.metadataProcessed = true → "metadata" ∉ rest.map Prod.fst := by
        intro ht hin
        rw [hmd1, Bool.or_eq_true] at ht
        rcases ht with ht | ht
        · exact hmd ht (by rw [List.map_cons]; exact List.mem_cons_of_mem _ hin)
        · exact hnd.1 (by rw [of_decide_eq_true ht]; exact hin)
      have hspr : s1.statusProcessed = true → "status" ∉ rest.map Prod.fst := by
        intro ht hin
        rw [hsp1, Bool.or_eq_true] at ht
        rcases ht with ht | ht
        · exact hsp ht (by rw [List.map_cons]; exact List.mem_cons_of_mem _ hin)
        · exact hnd.1 (by rw [of_decide_eq_true ht]; exact hin)
      obtain ⟨n2, hslice2, hle3, hle4, hn2, hmd2, hsp2⟩ :=
        ih s1 s2 n1 (fun x hx => hsub x (List.mem_cons_of_mem _ hx)) hnd.2 hmdr hspr href1
          hslice1 hn1 h
      refine ⟨n2, hslice2, Nat.le_trans hle1 hle3, ?_, hn2, ?_, ?_⟩
      · rw [List.length_cons]; omega
      · rw [hmd2, hmd1, Bool.or_assoc]
        congr 1
        by_cases hk : kv.1 = "metadata"
        · simp [hk]
        · have hk2 : ¬ "metadata" = kv.1 := fun e => hk e.symm
          simp [hk, hk2]
      · rw [hsp2, hsp1, Bool.or_assoc]
        congr 1
        by_cases hk : kv.1 = "status"
        · simp [hk]
        · have hk2 : ¬ "status" = kv.1 := fun e => hk e.symm
          simp [hk, hk2]

theorem any_status_iff (l : List (String × JSONValue)) :
    l.any (fun kv => decide (kv.1 = "status")) = true ↔ "status" ∈ l.map Prod.fst := by
  rw [List.any_eq_true, List.mem_map]
  constructor
  · rintro ⟨kv, hkv, hk⟩
    exact ⟨kv, hkv, of_decide_eq_true hk⟩
  · rintro ⟨kv, hkv, hk⟩
    exact ⟨kv, hkv, decide_eq_true hk⟩

/-- The records that one item contributes are copies of its record. -/
theorem parseItem_records (itemConverted : List (String × JSONValue))
    (slice : List MetaDataAndOwnerReferences)
    (hwf : wellFormedItem (JSONValue.object itemConverted) = true)
    (hmaps : itemMapsDistinct itemConverted = true) :
    ∃ n, parseItem (JSONValue.object itemConverted) slice
        = some (slice ++ List.replicate n (recordOf itemConverted)) ∧
      n ≤ itemConverted.length ∧ (1 ≤ n ↔ "metadata" ∈ itemConverted.map Prod.fst) := by
  have hsome := parseItem_isSome (JSONValue.object itemConverted) slice
  rw [hwf] at hsome
  obtain ⟨out, hout⟩ := Option.isSome_iff_exists.mp hsome
  obtain ⟨st, hst, hslice⟩ := parseItem_eq_some itemConverted slice out hout
  have hnd := (itemMapsDistinct_parts itemConverted hmaps).1
  have hb : itemConverted.any (fun kv => decide (kv.1 = "status")) = false →
      itemConverted.lookup "status" = none := by
    intro hf
    apply lookup_eq_none_of_not_mem
    intro hin
    rw [(any_status_iff itemConverted).mpr hin] at hf
    exact absurd hf (by decide)
  obtain ⟨n2, hslice2, _, hle, hn2, hmd2, hsp2⟩ :=
    parseItemKeys_records itemConverted slice _ hmaps hb itemConverted
      ⟨⟨"", "", "", "", "", ""⟩, false, false, slice⟩ st 0 (fun _ h => h) hnd
      (fun h => absurd h Bool.false_ne_true) (fun h => absurd h Bool.false_ne_true) rfl
      (by simp) ⟨fun h => absurd h (by decide), fun h => absurd h.1 Bool.false_ne_true⟩ hst
  refine ⟨n2, by rw [hout, ← hslice, hslice2], by omega, ?_⟩
  rw [hn2, hmd2, hsp2]
  simp only [Bool.false_or, decide_eq_true_eq]
  constructor
  · exact fun h => h.1
  · exact fun h => ⟨h, fun hany => (any_status_iff itemConverted).mp hany⟩
theorem asObject_eq_some (v : JSONValue) (m : List (String × JSONValue))
    (h : v.asObject = some m) : v = JSONValue.object m := by
  cases v with
  | object kvs =>
    have : kvs = m := by simpa [JSONValue.asObject] using h
    rw [this]
  | null => simp [JSONValue.asObject] at h
  | bool b => simp [JSONValue.asObject] at h
  | number x => simp [JSONValue.asObject] at h
  | string s => simp [JSONValue.asObject] at h
  | array xs => simp [JSONValue.asObject] at h

theorem wellFormedItem_object (item : JSONValue) (h : wellFormedItem item = true) :
    ∃ m, item = JSONValue.object m := by
  unfold wellFormedItem at h
  cases ho : item.asObject with
  | none => rw [ho] at h; exact absurd h (by decide)
  | some m => exact ⟨m, asObject_eq_some item m ho⟩

/-- The records of a list of items are, item after item, copies of the record of
the item. -/
theorem parseItems_records (items : List JSONValue) :
    items.all wellFormedItem = true →
    items.all (fun item => itemMapsDistinct (item.asObject.getD [])) = true →
    ∀ slice, ∃ counts : List Nat,
      items.foldlM (fun metaDataSlice item => parseItem item metaDataSlice) slice
        = some (slice ++ (List.zipWith (fun item n =>
            List.replicate n (recordOf (item.asObject.getD []))) items counts).flatten) ∧
      List.Forall₂ (fun item n => n ≤ (item.asObject.getD []).length ∧
        (1 ≤ n ↔ "metadata" ∈ (item.asObject.getD []).map Prod.fst)) items counts := by
  induction items with
  | nil =>
    intro _ _ slice
    exact ⟨[], by simp, List.Forall₂.nil⟩
  | cons item rest ih =>
    intro hwf hmaps slice
    rw [List.all_cons, Bool.and_eq_true] at hwf hmaps
    obtain ⟨m, hm⟩ := wellFormedItem_object item hwf.1
    subst hm
    obtain ⟨n, hn, hle, hpos⟩ := parseItem_records m slice hwf.1 hmaps.1
    obtain ⟨counts, hfold, hall⟩ := ih hwf.2 hmaps.2
      (slice ++ List.replicate n (recordOf m))
    refine ⟨n :: counts, ?_, List.Forall₂.cons ⟨hle, hpos⟩ hall⟩
    rw [List.foldlM_cons, hn]
    simp only [Option.bind_eq_bind, Option.some_bind]
    rw [hfold, List.zipWith_cons_cons, List.flatten_cons, List.append_assoc]
    rfl

theorem dedup_append_congr {α : Type} [DecidableEq α] (p l1 l2 : List α)
    (h : l1.dedup = l2.dedup) : (p ++ l1).dedup = (p ++ l2).dedup := by
  induction p with
  | nil => exact h
  | cons a p ih =>
    rw [List.cons_append, List.cons_append]
    have hmem : a ∈ p ++ l1 ↔ a ∈ p ++ l2 := by
      rw [← List.mem_dedup, ih, List.mem_dedup]
    by_cases ha : a ∈ p ++ l1
    · rw [List.dedup_cons_of_mem ha, List.dedup_cons_of_mem (hmem.mp ha), ih]
    · rw [List.dedup_cons_of_not_mem ha,
        List.dedup_cons_of_not_mem (fun hc => ha (hmem.mpr hc)), ih]

theorem dedup_replicate_append {α : Type} [DecidableEq α] (a : α) (n : Nat) (l : List α) :
    (List.replicate (n + 1) a ++ l).dedup = (a :: l).dedup := by
  induction n with
  | zero => rfl
  | succ n ih =>
    rw [List.replicate_succ, List.cons_append, List.dedup_cons_of_mem, ih]
    rw [List.replicate_succ, List.cons_append]
    exact List.mem_cons_self _ _

theorem records_dedup (items : List JSONValue) (counts : List Nat)
    (h : List.Forall₂ (fun item n => n ≤ (item.asObject.getD []).length ∧
      (1 ≤ n ↔ "metadata" ∈ (item.asObject.getD []).map Prod.fst)) items counts)
    (hobj : ∀ item ∈ items, ∃ m, item = JSONValue.object m) :
    (List.zipWith (fun item n =>
        List.replicate n (recordOf (item.asObject.getD []))) items counts).flatten.dedup
      = (recordsOf items).dedup := by
  induction h with
  | nil => rfl
  | @cons item n rest counts hhead _ ih =>
    obtain ⟨m, hm⟩ := hobj item (List.mem_cons_self _ _)
    subst hm
    have ih2 := ih (fun x hx => hobj x (List.mem_cons_of_mem _ hx))
    rw [List.zipWith_cons_cons, List.flatten_cons]
    unfold recordsOf at ih2 ⊢
    rw [List.flatMap_cons]
    simp only [JSONValue.asObject, Option.getD_some] at hhead ⊢
    cases n with
    | zero =>
      have hno : ¬ "metadata" ∈ m.map Prod.fst := fun hc =>
        absurd (hhead.2.mpr hc) (by decide)
      rw [if_neg hno]
      exact ih2
    | succ n =>
      have hyes : "metadata" ∈ m.map Prod.fst := hhead.2.mp (Nat.succ_le_succ (Nat.zero_le n))
      rw [if_pos hyes, dedup_replicate_append]
      exact dedup_append_congr [recordOf m] _ _ ih2
/-! ## Two visiting orders of one reply -/

theorem lookup_perm {α : Type} (l1 l2 : List (String × α)) (hp : l1.Perm l2)
    (hnd : (l1.map Prod.fst).Nodup) (k : String) : l1.lookup k = l2.lookup k := by
  have hnd2 : (l2.map Prod.fst).Nodup := ((hp.map Prod.fst).nodup_iff).mp hnd
  by_cases hk : k ∈ l1.map Prod.fst
  · obtain ⟨kv, hkv, hkk⟩ := List.mem_map.mp hk
    obtain ⟨k1, v⟩ := kv
    simp only at hkk
    subst hkk
    rw [lookup_eq_some_of_mem l1 k1 v hnd hkv,
      lookup_eq_some_of_mem l2 k1 v hnd2 (hp.mem_iff.mp hkv)]
  · have hk2 : k ∉ l2.map Prod.fst := fun hc => hk (((hp.map Prod.fst).mem_iff).mpr hc)
    rw [lookup_eq_none_of_not_mem l1 k hk, lookup_eq_none_of_not_mem l2 k hk2]

theorem forall₂_lookup (R : JSONValue → JSONValue → Prop) (k : String)
    (l1 l2 : List (String × JSONValue))
    (h : List.Forall₂ (fun kv kv2 => kv.1 = kv2.1 ∧ R kv.2 kv2.2) l1 l2) :
    (l1.lookup k = none ∧ l2.lookup k = none) ∨
      ∃ v v2, l1.lookup k = some v ∧ l2.lookup k = some v2 ∧ R v v2 := by
  induction h with
  | nil => exact Or.inl ⟨rfl, rfl⟩
  | @cons a b r1 r2 hab _ ih =>
    obtain ⟨k1, v1⟩ := a
    obtain ⟨k2, v2⟩ := b
    simp only at hab
    obtain ⟨hk, hr⟩ := hab
    subst hk
    rw [lookup_cons_ite, lookup_cons_ite]
    by_cases he : k = k1
    · rw [if_pos he, if_pos he]
      exact Or.inr ⟨v1, v2, rfl, rfl, hr⟩
    · rw [if_neg he, if_neg he]
      exact ih

theorem sameEntries_lookup (R : JSONValue → JSONValue → Prop)
    (m m2 : List (String × JSONValue)) (h : sameEntries R m m2)
    (hnd : (m.map Prod.fst).Nodup) (k : String) :
    (m.lookup k = none ∧ m2.lookup k = none) ∨
      ∃ v v2, m.lookup k = some v ∧ m2.lookup k = some v2 ∧ R v v2 := by
  obtain ⟨mid, hp, hf⟩ := h
  rw [lookup_perm m mid hp hnd k]
  exact forall₂_lookup R k mid m2 hf

theorem forall₂_keys (R : JSONValue → JSONValue → Prop) (l1 l2 : List (String × JSONValue))
    (h : List.Forall₂ (fun kv kv2 => kv.1 = kv2.1 ∧ R kv.2 kv2.2) l1 l2) :
    l1.map Prod.fst = l2.map Prod.fst := by
  induction h with
  | nil => rfl
  | cons hab _ ih => rw [List.map_cons, List.map_cons, hab.1, ih]

theorem sameEntries_keys (R : JSONValue → JSONValue → Prop)
    (m m2 : List (String × JSONValue)) (h : sameEntries R m m2) (k : String) :
    k ∈ m.map Prod.fst ↔ k ∈ m2.map Prod.fst := by
  obtain ⟨mid, hp, hf⟩ := h
  rw [← forall₂_keys R mid m2 hf]
  exact (hp.map Prod.fst).mem_iff

theorem sameEntries_nil (R : JSONValue → JSONValue → Prop) : sameEntries R [] [] :=
  ⟨[], List.Perm.refl _, List.Forall₂.nil⟩

theorem forall₂_same_refl (R : JSONValue → JSONValue → Prop) (hr : ∀ v, R v v)
    (l : List (String × JSONValue)) :
    List.Forall₂ (fun kv kv2 => kv.1 = kv2.1 ∧ R kv.2 kv2.2) l l := by
  induction l with
  | nil => exact List.Forall₂.nil
  | cons a l ih => exact List.Forall₂.cons ⟨rfl, hr a.2⟩ ih

theorem sameUpToOrder_refl (depth : Nat) (v : JSONValue) :
    JSONValue.sameUpToOrder depth v v := by
  cases depth with
  | zero => exact rfl
  | succ d => exact Or.inl rfl

theorem sameUpToOrder_leaf (depth : Nat) (a b : JSONValue)
    (h : JSONValue.sameUpToOrder depth a b) :
    a.asString = b.asString ∧ a.asNumber = b.asNumber := by
  cases depth with
  | zero =>
    have e : a = b := h
    rw [e]
    exact ⟨rfl, rfl⟩
  | succ d =>
    rcases h with e | ⟨xs, ys, ha, hb, _⟩ | ⟨m, m2, ha, hb, _⟩
    · rw [e]; exact ⟨rfl, rfl⟩
    · rw [ha, hb]; exact ⟨rfl, rfl⟩
    · rw [ha, hb]; exact ⟨rfl, rfl⟩

theorem sameUpToOrder_asObject (depth : Nat) (a b : JSONValue)
    (h : JSONValue.sameUpToOrder depth a b) :
    a.asObject.isSome = b.asObject.isSome ∧
      ∃ e, sameEntries (JSONValue.sameUpToOrder e) (a.asObject.getD []) (b.asObject.getD []) := by
  have hrefl : ∀ v : JSONValue, a = v → a.asObject.isSome = v.asObject.isSome ∧
      ∃ e, sameEntries (JSONValue.sameUpToOrder e) (a.asObject.getD [])
        (v.asObject.getD []) := by
    intro v e
    subst e
    exact ⟨rfl, 0, _, List.Perm.refl _, forall₂_same_refl _ (sameUpToOrder_refl 0) _⟩
  cases depth with
  | zero => exact hrefl b h
  | succ d =>
    rcases h with e | ⟨xs, ys, ha, hb, _⟩ | ⟨m, m2, ha, hb, hs⟩
    · exact hrefl b e
    · rw [ha, hb]
      exact ⟨rfl, 0, sameEntries_nil _⟩
    · rw [ha, hb]
      exact ⟨rfl, d, hs⟩

theorem sameUpToOrder_asArray (depth : Nat) (a b : JSONValue)
    (h : JSONValue.sameUpToOrder depth a b) :
    ∃ e, List.Forall₂ (JSONValue.sameUpToOrder e) (a.asArray.getD []) (b.asArray.getD []) := by
  have hrefl : ∀ v : JSONValue, a = v →
      ∃ e, List.Forall₂ (JSONValue.sameUpToOrder e) (a.asArray.getD [])
        (v.asArray.getD []) := by
    intro v e
    subst e
    refine ⟨0, ?_⟩
    generalize a.asArray.getD [] = l
    induction l with
    | nil => exact List.Forall₂.nil
    | cons x l ih => exact List.Forall₂.cons rfl ih
  cases depth with
  | zero => exact hrefl b h
  | succ d =>
    rcases h with e | ⟨xs, ys, ha, hb, hs⟩ | ⟨m, m2, ha, hb, _⟩
    · exact hrefl b e
    · rw [ha, hb]
      exact ⟨d, hs⟩
    · rw [ha, hb]
      exact ⟨0, List.Forall₂.nil⟩
theorem sameEntries_field (e : Nat) (m m2 : List (String × JSONValue))
    (h : sameEntries (JSONValue.sameUpToOrder e) m m2) (hnd : (m.map Prod.fst).Nodup)
    (k : String) :
    (m.lookup k).bind JSONValue.asString = (m2.lookup k).bind JSONValue.asString ∧
      (m.lookup k).bind JSONValue.asNumber = (m2.lookup k).bind JSONValue.asNumber := by
  rcases sameEntries_lookup _ m m2 h hnd k with ⟨h1, h2⟩ | ⟨v, v2, h1, h2, hr⟩
  · rw [h1, h2]; exact ⟨rfl, rfl⟩
  · rw [h1, h2]
    exact sameUpToOrder_leaf e v v2 hr

theorem derivedStatus_same (e : Nat) (m m2 : List (String × JSONValue))
    (h : sameEntries (JSONValue.sameUpToOrder e) m m2) (hnd : (m.map Prod.fst).Nodup) :
    derivedStatus m = derivedStatus m2 := by
  unfold derivedStatus
  simp only [(sameEntries_field e m m2 h hnd "replicas").2,
    (sameEntries_field e m m2 h hnd "readyReplicas").2,
    (sameEntries_field e m m2 h hnd "availableReplicas").2,
    (sameEntries_field e m m2 h hnd "phase").1]

theorem ownerReferenceOf_getD (owner : String × String × String) (r : JSONValue) :
    ownerReferenceOf owner r =
      ((((r.asObject.getD []).lookup "name").bind JSONValue.asString).getD owner.1,
       (((r.asObject.getD []).lookup "kind").bind JSONValue.asString).getD owner.2.1,
       (((r.asObject.getD []).lookup "apiVersion").bind JSONValue.asString).getD owner.2.2) := by
  unfold ownerReferenceOf
  cases r.asObject with
  | none => rfl
  | some m => rfl

theorem ownerReferenceOf_same (depth : Nat) (owner : String × String × String)
    (r r2 : JSONValue) (h : JSONValue.sameUpToOrder depth r r2)
    (hd : distinctKeys (r.asObject.getD []) = true) :
    ownerReferenceOf owner r = ownerReferenceOf owner r2 := by
  obtain ⟨_, e, hs⟩ := sameUpToOrder_asObject depth r r2 h
  have hnd : ((r.asObject.getD []).map Prod.fst).Nodup := by
    unfold distinctKeys at hd
    simpa using hd
  rw [ownerReferenceOf_getD, ownerReferenceOf_getD,
    (sameEntries_field e _ _ hs hnd "name").1, (sameEntries_field e _ _ hs hnd "kind").1,
    (sameEntries_field e _ _ hs hnd "apiVersion").1]

theorem ownerReferences_foldl_same (e : Nat) (l1 l2 : List JSONValue)
    (hf : List.Forall₂ (JSONValue.sameUpToOrder e) l1 l2) :
    l1.all (fun ownerReference => distinctKeys (ownerReference.asObject.getD [])) = true →
    ∀ owner : String × String × String,
      l1.foldl ownerReferenceOf owner = l2.foldl ownerReferenceOf owner := by
  induction hf with
  | nil => intro _ _; rfl
  | @cons a b l1 l2 hab _ ih =>
    intro hd owner
    rw [List.all_cons, Bool.and_eq_true] at hd
    rw [List.foldl_cons, List.foldl_cons, ownerReferenceOf_same e owner a b hab hd.1]
    exact ih hd.2 _

theorem ownerReferencesOf_same (depth : Nat) (v v2 : JSONValue)
    (h : JSONValue.sameUpToOrder depth v v2) (hd : ownerReferencesDistinct v = true)
    (owner : String × String × String) :
    ownerReferencesOf v owner = ownerReferencesOf v2 owner := by
  obtain ⟨e, hf⟩ := sameUpToOrder_asArray depth v v2 h
  exact ownerReferences_foldl_same e _ _ hf hd owner
theorem recordOf_same (e : Nat) (item item2 : List (String × JSONValue))
    (h : sameEntries (JSONValue.sameUpToOrder e) item item2)
    (hmaps : itemMapsDistinct item = true) :
    recordOf item = recordOf item2 := by
  obtain ⟨hnd, hmetaD, hstatD⟩ := itemMapsDistinct_parts item hmaps
  have hM : ∃ e2, sameEntries (JSONValue.sameUpToOrder e2)
        (((item.lookup "metadata").bind JSONValue.asObject).getD [])
        (((item2.lookup "metadata").bind JSONValue.asObject).getD []) ∧
      distinctKeys (((item.lookup "metadata").bind JSONValue.asObject).getD []) = true ∧
      (((item.lookup "metadata").bind JSONValue.asObject).getD []).all (fun mkv =>
        mkv.1 != "ownerReferences" || ownerReferencesDistinct mkv.2) = true := by
    rcases sameEntries_lookup _ item item2 h hnd "metadata" with ⟨h1, h2⟩ | ⟨v, v2, h1, h2, hr⟩
    · rw [h1, h2]
      exact ⟨0, sameEntries_nil _, by decide, rfl⟩
    · rw [h1, h2]
      simp only [Option.some_bind]
      obtain ⟨_, e2, hs⟩ := sameUpToOrder_asObject e v v2 hr
      refine ⟨e2, hs, ?_⟩
      cases hv : v.asObject with
      | none => exact ⟨rfl, rfl⟩
      | some mm => exact hmetaD v mm (GoMap.mem_of_get? item "metadata" v h1) hv
  have hS : ((item.lookup "status").bind JSONValue.asObject).map derivedStatus
      = ((item2.lookup "status").bind JSONValue.asObject).map derivedStatus := by
    rcases sameEntries_lookup _ item item2 h hnd "status" with ⟨h1, h2⟩ | ⟨v, v2, h1, h2, hr⟩
    · rw [h1, h2]
    · rw [h1, h2]
      simp only [Option.some_bind]
      obtain ⟨hsome, e2, hs⟩ := sameUpToOrder_asObject e v v2 hr
      cases hv : v.asObject with
      | none =>
        rw [hv] at hsome
        cases hv2 : v2.asObject with
        | none => rfl
        | some sm2 => rw [hv2] at hsome; exact absurd hsome (by simp)
      | some sm =>
        rw [hv] at hsome hs
        cases hv2 : v2.asObject with
        | none => rw [hv2] at hsome; exact absurd hsome (by simp)
        | some sm2 =>
          rw [hv2] at hs
          have hd := hstatD v sm (GoMap.mem_of_get? item "status" v h1) hv
          simp only [Option.getD_some] at hs
          simp only [Option.map_some', Option.some.injEq]
          exact derivedStatus_same e2 sm sm2 hs hd
  obtain ⟨e2, hs, hd, ho⟩ := hM
  have hnd2 : ((((item.lookup "metadata").bind JSONValue.asObject).getD []).map
      Prod.fst).Nodup := by
    unfold distinctKeys at hd
    simpa using hd
  have hO : (match (((item.lookup "metadata").bind JSONValue.asObject).getD []).lookup
        "ownerReferences" with
      | some mvalue => ownerReferencesOf mvalue ("", "", "")
      | none => ("", "", ""))
      = (match (((item2.lookup "metadata").bind JSONValue.asObject).getD []).lookup
        "ownerReferences" with
      | some mvalue => ownerReferencesOf mvalue ("", "", "")
      | none => ("", "", "")) := by
    rcases sameEntries_lookup _ _ _ hs hnd2 "ownerReferences" with
      ⟨h1, h2⟩ | ⟨v, v2, h1, h2, hr⟩
    · rw [h1, h2]
    · rw [h1, h2]
      have hmem := GoMap.mem_of_get? _ "ownerReferences" v h1
      have hdist : ownerReferencesDistinct v = true := by
        simpa using List.all_eq_true.mp ho _ hmem
      exact ownerReferencesOf_same e2 v v2 hr hdist _
  unfold recordOf
  simp only []
  rw [hS, hO, (sameEntries_field e2 _ _ hs hnd2 "name").1,
    (sameEntries_field e2 _ _ hs hnd2 "namespace").1]

theorem recordsOf_same (items items2 : List JSONValue)
    (h : List.Forall₂ (fun item item2 => ∃ depth, JSONValue.sameUpToOrder depth item item2)
      items items2) :
    items.all (fun item => itemMapsDistinct (item.asObject.getD [])) = true →
    recordsOf items = recordsOf items2 := by
  induction h with
  | nil => intro _; rfl
  | @cons a b l1 l2 hab _ ih =>
    intro hmaps
    rw [List.all_cons, Bool.and_eq_true] at hmaps
    obtain ⟨depth, hsame⟩ := hab
    obtain ⟨hsome, e, hs⟩ := sameUpToOrder_asObject depth a b hsame
    have ih2 := ih hmaps.2
    unfold recordsOf at ih2 ⊢
    rw [List.flatMap_cons, List.flatMap_cons, ih2]
    congr 1
    cases ha : a.asObject with
    | none =>
      rw [ha] at hsome
      cases hb : b.asObject with
      | none => rfl
      | some m2 => rw [hb] at hsome; exact absurd hsome (by simp)
    | some m =>
      rw [ha] at hsome hs
      have hm := hmaps.1
      rw [ha] at hm
      cases hb : b.asObject with
      | none => rw [hb] at hsome; exact absurd hsome (by simp)
      | some m2 =>
        rw [hb] at hs
        simp only [Option.getD_some] at hs hm
        simp only
        rw [recordOf_same e m m2 hs hm]
        by_cases hk : "metadata" ∈ m.map Prod.fst
        · rw [if_pos hk, if_pos ((sameEntries_keys _ m m2 hs _).mp hk)]
        · rw [if_neg hk, if_neg (fun hc => hk ((sameEntries_keys _ m m2 hs _).mpr hc))]
theorem parseMetaData_blocks (result : List (String × JSONValue)) (items : List JSONValue)
    (hitems : result.lookup "items" = some (JSONValue.array items))
    (hwf : items.all wellFormedItem = true)
    (hmaps : items.all (fun item => itemMapsDistinct (item.asObject.getD [])) = true) :
    ∃ counts : List Nat,
      parseMetaData result = some (List.zipWith (fun item n =>
        List.replicate n (recordOf (item.asObject.getD []))) items counts).flatten ∧
      List.Forall₂ (fun item n => n ≤ (item.asObject.getD []).length ∧
        (1 ≤ n ↔ "metadata" ∈ (item.asObject.getD []).map Prod.fst)) items counts ∧
      (List.zipWith (fun item n =>
        List.replicate n (recordOf (item.asObject.getD []))) items counts).flatten.dedup
        = (recordsOf items).dedup := by
  obtain ⟨counts, hfold, hall⟩ := parseItems_records items hwf hmaps []
  refine ⟨counts, ?_, hall, ?_⟩
  · unfold parseMetaData
    rw [hitems]
    simpa using hfold
  · exact records_dedup items counts hall
      (fun item hitem => wellFormedItem_object item (List.all_eq_true.mp hwf item hitem))

/-- C22: for every list reply in the expected shape whose objects are maps,
`parseMetaData` returns, item after item, a block of copies of the record of the
item: all records emitted for one item are equal.  The number of copies is at most the
number of top-level keys of the item and is at least one exactly when the item has a
`metadata` key (it depends on the order in which the keys are visited).  With duplicates
removed the result is the list of the records of the items that have a `metadata` key,
so that two replies that differ only in the order in which the keys of their objects are
visited, at any depth, give the same records once duplicates are removed. -/
theorem parseMetaData_records (result : List (String × JSONValue)) (items : List JSONValue)
    (hitems : result.lookup "items" = some (JSONValue.array items))
    (hwf : items.all wellFormedItem = true)
    (hmaps : items.all (fun item => itemMapsDistinct (item.asObject.getD [])) = true) :
    ∃ out counts,
      parseMetaData result = some out ∧
      out = (List.zipWith (fun item n =>
        List.replicate n (recordOf (item.asObject.getD []))) items counts).flatten ∧
      List.Forall₂ (fun item n => n ≤ (item.asObject.getD []).length ∧
        (1 ≤ n ↔ "metadata" ∈ (item.asObject.getD []).map Prod.fst)) items counts ∧
      out.dedup = (recordsOf items).dedup ∧
      ∀ result2 items2, result2.lookup "items" = some (JSONValue.array items2) →
        items2.all wellFormedItem = true →
        items2.all (fun item => itemMapsDistinct (item.asObject.getD [])) = true →
        List.Forall₂ (fun item item2 => ∃ depth, JSONValue.sameUpToOrder depth item item2)
          items items2 →
        ∃ out2, parseMetaData result2 = some out2 ∧ out2.dedup = out.dedup := by
  obtain ⟨counts, hparse, hall, hdedup⟩ := parseMetaData_blocks result items hitems hwf hmaps
  refine ⟨_, counts, hparse, rfl, hall, hdedup, ?_⟩
  intro result2 items2 hitems2 hwf2 hmaps2 hsame
  obtain ⟨counts2, hparse2, _, hdedup2⟩ :=
    parseMetaData_blocks result2 items2 hitems2 hwf2 hmaps2
  exact ⟨_, hparse2, by rw [hdedup2, hdedup, recordsOf_same items items2 hsame hmaps]⟩

/-- C22 on the reply whose one item is `readyItem`, with its keys visited in the
order `kind`, `status`, `metadata`, `spec` and in the order `status`, `metadata`,
`spec`, `kind`: the results (two and three copies of one record) are equal once
duplicates are removed. -/
theorem parseMetaData_records_witness :
    ∃ out out2,
      parseMetaData [("items", JSONValue.array [JSONValue.object readyItem])] = some out ∧
      parseMetaData [("items", JSONValue.array [JSONValue.object (readyItem.rotate 1)])]
        = some out2 ∧
      out.dedup = [⟨"web", "Ready", "default", "", "", ""⟩] ∧ out2.dedup = out.dedup :=
  match parseMetaData_records [("items", JSONValue.array [JSONValue.object readyItem])]
    [JSONValue.object readyItem] rfl (by decide) (by decide) with
  | ⟨out, _, h1, _, _, h4, h5⟩ =>
    match h5 [("items", JSONValue.array [JSONValue.object (readyItem.rotate 1)])]
      [JSONValue.object (readyItem.rotate 1)] rfl (by decide) (by decide)
      (List.Forall₂.cons ⟨1, Or.inr (Or.inr ⟨readyItem, readyItem.rotate 1, rfl, rfl,
        readyItem.rotate 1, (List.rotate_perm readyItem 1).symm,
        forall₂_same_refl _ (sameUpToOrder_refl 0) _⟩)⟩ List.Forall₂.nil) with
    | ⟨out2, h6, h7⟩ => ⟨out, out2, h1, h6, h4.trans (by decide), h7⟩

/-! ## `getComposition` attaches every child entry at most once -/

theorem processed_eq_any (processedList : List CompositionTreeNode)
    (nodeToCheck : CompositionTreeNode) :
    processed processedList nodeToCheck
      = processedList.any (fun x => decide (x.Level = nodeToCheck.Level
          ∧ x.ChildKind = nodeToCheck.ChildKind)) := by
  unfold processed
  have hgen : ∀ (l : List CompositionTreeNode) (b : Bool),
      l.foldl (fun result compositionTreeNode1 =>
        if compositionTreeNode1.Level = nodeToCheck.Level
            ∧ compositionTreeNode1.ChildKind = nodeToCheck.ChildKind then true
        else result) b
      = (b || l.any (fun x => decide (x.Level = nodeToCheck.Level
          ∧ x.ChildKind = nodeToCheck.ChildKind))) := by
    intro l
    induction l with
    | nil => intro b; simp
    | cons x l ih =>
      intro b
      rw [List.foldl_cons, ih, List.any_cons]
      by_cases hx : x.Level = nodeToCheck.Level ∧ x.ChildKind = nodeToCheck.ChildKind
      · rw [if_pos hx, decide_eq_true hx]; simp
      · rw [if_neg hx, decide_eq_false hx]; simp
  rw [hgen, Bool.false_or]

theorem processed_append (l1 l2 : List CompositionTreeNode) (n : CompositionTreeNode) :
    processed (l1 ++ l2) n = (processed l1 n || processed l2 n) := by
  rw [processed_eq_any, processed_eq_any, processed_eq_any, List.any_append]

theorem processed_of_mem (l : List CompositionTreeNode) (x n : CompositionTreeNode)
    (hx : x ∈ l) (hl : x.Level = n.Level) (hk : x.ChildKind = n.ChildKind) :
    processed l n = true := by
  rw [processed_eq_any, List.any_eq_true]
  exact ⟨x, hx, decide_eq_true ⟨hl, hk⟩⟩

theorem not_mem_of_processed_false (l : List CompositionTreeNode) (x n : CompositionTreeNode)
    (h : processed l n = false) (hl : x.Level = n.Level) (hk : x.ChildKind = n.ChildKind) :
    x ∉ l := by
  intro hx
  rw [processed_of_mem l x n hx hl hk] at h
  exact absurd h (by decide)

theorem processed_false_of_forall (l : List CompositionTreeNode) (n : CompositionTreeNode)
    (h : ∀ y ∈ l, ¬ (y.Level = n.Level ∧ y.ChildKind = n.ChildKind)) :
    processed l n = false := by
  cases hp : processed l n with
  | false => rfl
  | true =>
    rw [processed_eq_any, List.any_eq_true] at hp
    obtain ⟨y, hy, hd⟩ := hp
    exact absurd (of_decide_eq_true hd) (h y hy)

theorem descendantsList_append (cs : List Composition) (c : Composition) :
    Composition.descendantsList (cs ++ [c])
      = Composition.descendantsList cs ++ c.label :: c.descendants := by
  induction cs with
  | nil => simp [Composition.descendantsList]
  | cons d cs ih =>
    rw [List.cons_append, Composition.descendantsList, Composition.descendantsList, ih]
    simp

theorem attachedFor_append (a : CompositionTreeNode)
    (l1 l2 : List (Int × String × String × String × String)) :
    attachedFor a (l1 ++ l2) = attachedFor a l1 ++ attachedFor a l2 := by
  unfold attachedFor
  exact List.filter_append _ _

/-- No node is attached for a flat-list node whose level and child kind no entry of
the log has. -/
theorem attachedFor_eq_nil (a : CompositionTreeNode)
    (labels : List (Int × String × String × String × String))
    (ext : List CompositionTreeNode)
    (hmap : labels.map (fun d => (d.1, d.2.1)) = ext.map (fun n => (n.Level, n.ChildKind)))
    (hp : processed ext a = false) : attachedFor a labels = [] := by
  unfold attachedFor
  rw [List.filter_eq_nil_iff]
  intro d hd hsame
  have hpair : (d.1, d.2.1) ∈ ext.map (fun n => (n.Level, n.ChildKind)) := by
    rw [← hmap]
    exact List.mem_map.mpr ⟨d, hd, rfl⟩
  obtain ⟨y, hy, hye⟩ := List.mem_map.mp hpair
  have hsame2 := of_decide_eq_true hsame
  simp only [Prod.mk.injEq] at hye
  exact not_mem_of_processed_false ext y a hp (hye.1.trans hsame2.1) (hye.2.trans hsame2.2) hy

theorem attachedFor_childLabel (a node : CompositionTreeNode) (m : MetaDataAndOwnerReferences) :
    attachedFor a [childLabel node m]
      = if node.Level = a.Level ∧ node.ChildKind = a.ChildKind then [childLabel node m]
        else [] := by
  unfold attachedFor childLabel
  by_cases h : node.Level = a.Level ∧ node.ChildKind = a.ChildKind
  · rw [if_pos h, List.filter_cons_of_pos (by simpa using h)]
    rfl
  · rw [if_neg h, List.filter_cons_of_neg (by simpa using h)]
    rfl

theorem contributes_inner (fuel : Nat)
    (hS : ∀ (kind name ns status : String) (level : Int)
      (tree pl : List CompositionTreeNode),
      ∃ ext, (getCompositionFuel fuel kind name ns status level tree pl).2 = pl ++ ext ∧
        (getCompositionFuel fuel kind name ns status level tree pl).1.descendants.map
            (fun d => (d.1, d.2.1))
          = ext.map (fun n => (n.Level, n.ChildKind)) ∧
        (∀ a ∈ ext, attachedFor a
            (getCompositionFuel fuel kind name ns status level tree pl).1.descendants
          = a.Children.map (childLabel a)) ∧
        ContributesOnce tree pl ext)
    (tree pl : List CompositionTreeNode) (node : CompositionTreeNode) (hnode : node ∈ tree)
    (hpn : processed pl node = false) (ms : List MetaDataAndOwnerReferences) :
    ∀ (st : GetCompositionState) (ext : List CompositionTreeNode),
      st.processedList = pl ++ ext →
      (Composition.descendantsList st.Children).map (fun d => (d.1, d.2.1))
        = ext.map (fun n => (n.Level, n.ChildKind)) →
      (∀ a ∈ ext, ¬ (a.Level = node.Level ∧ a.ChildKind = node.ChildKind) →
        attachedFor a (Composition.descendantsList st.Children)
          = a.Children.map (childLabel a)) →
      attachedFor node (Composition.descendantsList st.Children) ++ ms.map (childLabel node)
        = node.Children.map (childLabel node) →
      (∀ x ∈ ext, x ∈ tree) →
      (∀ x ∈ ext, processed pl x = false) →
      (∀ a ∈ ext, ∀ b ∈ ext, a.Level = b.Level → a.ChildKind = b.ChildKind → a = b) →
      (∀ a, a ≠ node → ext.count a ≤ a.Children.length) →
      ext.count node + ms.length ≤ node.Children.length →
      (∀ x ∈ ext, x.Level = node.Level → x.ChildKind = node.ChildKind → x = node) →
      (∀ x ∈ st.compositionTree, x ∈ tree) →
      ∃ ext2,
        (ms.foldl (getCompositionInner (getCompositionFuel fuel) node) st).processedList
          = pl ++ ext2 ∧
        (Composition.descendantsList
            (ms.foldl (getCompositionInner (getCompositionFuel fuel) node) st).Children).map
            (fun d => (d.1, d.2.1))
          = ext2.map (fun n => (n.Level, n.ChildKind)) ∧
        (∀ a ∈ ext2, attachedFor a (Composition.descendantsList
            (ms.foldl (getCompositionInner (getCompositionFuel fuel) node) st).Children)
          = a.Children.map (childLabel a)) ∧
        ContributesOnce tree pl ext2 ∧
        (∀ x ∈ (ms.foldl (getCompositionInner (getCompositionFuel fuel) node)
          st).compositionTree, x ∈ tree) := by
  induction ms with
  | nil =>
    intro st ext hpl hdesc hfil hN h1 h2 h3 h4 h5 h6 hct
    refine ⟨ext, hpl, hdesc, ?_, ⟨h1, h2, h3, ?_⟩, hct⟩
    · intro a ha
      by_cases hsame : a.Level = node.Level ∧ a.ChildKind = node.ChildKind
      · have he : a = node := h6 a ha hsame.1 hsame.2
        rw [he]
        simpa using hN
      · exact hfil a ha hsame
    · intro a
      by_cases ha : a = node
      · rw [ha]; exact Nat.le_trans (Nat.le_add_right _ _) h5
      · exact h4 a ha
  | cons m ms ih =>
    intro st ext hpl hdesc hfil hN h1 h2 h3 h4 h5 h6 hct
    rw [List.foldl_cons]
    obtain ⟨extr, hr2, hrdesc, hrfil, hr1, hrE2, hrE3, hrE4⟩ :=
      hS node.ChildKind m.MetaDataName m.Namespace m.Status node.Level
        (st.compositionTree.filter (fun compositionTreeNode1 =>
          compositionTreeNode1.Level != node.Level
            && compositionTreeNode1.ChildKind != node.ChildKind))
        (st.processedList ++ [node])
    obtain ⟨children, hroot⟩ := getCompositionFuel_root fuel node.ChildKind m.MetaDataName
      m.Namespace m.Status node.Level
      (st.compositionTree.filter (fun compositionTreeNode1 =>
          compositionTreeNode1.Level != node.Level
            && compositionTreeNode1.ChildKind != node.ChildKind))
      (st.processedList ++ [node])
    have hlabel : (getCompositionFuel fuel node.ChildKind m.MetaDataName m.Namespace m.Status
        node.Level (st.compositionTree.filter (fun compositionTreeNode1 =>
          compositionTreeNode1.Level != node.Level
            && compositionTreeNode1.ChildKind != node.ChildKind))
        (st.processedList ++ [node])).1.label = childLabel node m := by
      rw [hroot]
      rfl
    have hfree : ∀ x ∈ extr, processed pl x = false ∧ processed ext x = false ∧
        ¬ (node.Level = x.Level ∧ node.ChildKind = x.ChildKind) := by
      intro x hx
      have hp := hrE2 x hx
      rw [hpl, processed_append, processed_append, Bool.or_eq_false_iff,
        Bool.or_eq_false_iff] at hp
      refine ⟨hp.1.1, hp.1.2, ?_⟩
      intro hc
      have := processed_of_mem [node] node x (List.mem_singleton.mpr rfl) hc.1 hc.2
      rw [this] at hp
      exact absurd hp.2 (by decide)
    have hmem : ∀ x, x ∈ ext ++ node :: extr ↔ x ∈ ext ∨ x = node ∨ x ∈ extr := by
      intro x
      rw [List.mem_append, List.mem_cons]
    have hdesc2 : Composition.descendantsList (st.Children ++ [(getCompositionFuel fuel
        node.ChildKind m.MetaDataName m.Namespace m.Status node.Level
        (st.compositionTree.filter (fun compositionTreeNode1 =>
          compositionTreeNode1.Level != node.Level
            && compositionTreeNode1.ChildKind != node.ChildKind))
        (st.processedList ++ [node])).1])
        = Composition.descendantsList st.Children ++ ([childLabel node m] ++
          (getCompositionFuel fuel node.ChildKind m.MetaDataName m.Namespace m.Status
            node.Level (st.compositionTree.filter (fun compositionTreeNode1 =>
              compositionTreeNode1.Level != node.Level
                && compositionTreeNode1.ChildKind != node.ChildKind))
            (st.processedList ++ [node])).1.descendants) := by
      rw [descendantsList_append, hlabel]
      rfl
    have hnodeR : attachedFor node (getCompositionFuel fuel node.ChildKind m.MetaDataName
        m.Namespace m.Status node.Level (st.compositionTree.filter (fun compositionTreeNode1 =>
          compositionTreeNode1.Level != node.Level
            && compositionTreeNode1.ChildKind != node.ChildKind))
        (st.processedList ++ [node])).1.descendants = [] :=
      attachedFor_eq_nil node _ extr hrdesc
        (processed_false_of_forall extr node
          (fun y hy hc => (hfree y hy).2.2 ⟨hc.1.symm, hc.2.symm⟩))
    refine ih (getCompositionInner (getCompositionFuel fuel) node st m) (ext ++ node :: extr)
      ?_ ?_ ?_ ?_ ?_ ?_ ?_ ?_ ?_ ?_ ?_
    · show (getCompositionFuel fuel node.ChildKind m.MetaDataName m.Namespace m.Status
        node.Level _ (st.processedList ++ [node])).2 = _
      rw [hr2, hpl]
      simp
    · show (Composition.descendantsList (st.Children ++ [(getCompositionFuel fuel
        node.ChildKind m.MetaDataName m.Namespace m.Status node.Level _
        (st.processedList ++ [node])).1])).map (fun d => (d.1, d.2.1)) = _
      rw [hdesc2, List.map_append, List.map_append, hdesc, hrdesc]
      simp [childLabel]
    · intro a ha hsame
      show attachedFor a (Composition.descendantsList (st.Children ++ [(getCompositionFuel fuel
        node.ChildKind m.MetaDataName m.Namespace m.Status node.Level _
        (st.processedList ++ [node])).1])) = _
      have hmid : attachedFor a [childLabel node m] = [] := by
        rw [attachedFor_childLabel, if_neg (fun hc => hsame ⟨hc.1.symm, hc.2.symm⟩)]
      rw [hdesc2, attachedFor_append, attachedFor_append, hmid, List.nil_append]
      rcases (hmem a).mp ha with ha | ha | ha
      · have hr : attachedFor a (getCompositionFuel fuel node.ChildKind m.MetaDataName
            m.Namespace m.Status node.Level (st.compositionTree.filter
              (fun compositionTreeNode1 => compositionTreeNode1.Level != node.Level
                && compositionTreeNode1.ChildKind != node.ChildKind))
            (st.processedList ++ [node])).1.descendants = [] :=
          attachedFor_eq_nil a _ extr hrdesc
            (processed_false_of_forall extr a (fun y hy hc =>
              absurd ha (not_mem_of_processed_false ext a y (hfree y hy).2.1
                hc.1.symm hc.2.symm)))
        rw [hr, List.append_nil]
        exact hfil a ha hsame
      · exact absurd ⟨congrArg CompositionTreeNode.Level ha,
          congrArg CompositionTreeNode.ChildKind ha⟩ hsame
      · rw [attachedFor_eq_nil a _ ext hdesc (hfree a ha).2.1, List.nil_append]
        exact hrfil a ha
    · show attachedFor node (Composition.descendantsList (st.Children ++
        [(getCompositionFuel fuel node.ChildKind m.MetaDataName m.Namespace m.Status
          node.Level _ (st.processedList ++ [node])).1])) ++ ms.map (childLabel node) = _
      rw [hdesc2, attachedFor_append, attachedFor_append, hnodeR, List.append_nil,
        attachedFor_childLabel, if_pos ⟨rfl, rfl⟩, ← hN, List.map_cons]
      simp
    · intro x hx
      rcases (hmem x).mp hx with hx | hx | hx
      · exact h1 x hx
      · rw [hx]; exact hnode
      · exact hct x (List.mem_of_mem_filter (hr1 x hx))
    · intro x hx
      rcases (hmem x).mp hx with hx | hx | hx
      · exact h2 x hx
      · rw [hx]; exact hpn
      · exact (hfree x hx).1
    · intro a ha b hb hl hk
      rcases (hmem a).mp ha with ha | ha | ha
      · rcases (hmem b).mp hb with hb | hb | hb
        · exact h3 a ha b hb hl hk
        · rw [hb] at hl hk ⊢
          exact h6 a ha hl hk
        · exact absurd ha (not_mem_of_processed_false ext a b (hfree b hb).2.1 hl hk)
      · rcases (hmem b).mp hb with hb | hb | hb
        · rw [ha] at hl hk ⊢
          exact (h6 b hb hl.symm hk.symm).symm
        · rw [ha, hb]
        · rw [ha] at hl hk
          exact absurd ⟨hl, hk⟩ (hfree b hb).2.2
      · rcases (hmem b).mp hb with hb | hb | hb
        · exact absurd hb (not_mem_of_processed_false ext b a (hfree a ha).2.1 hl.symm
            hk.symm)
        · rw [hb] at hl hk
          exact absurd ⟨hl.symm, hk.symm⟩ (hfree a ha).2.2
        · exact hrE3 a ha b hb hl hk
    · intro a hane
      rw [List.count_append, List.count_cons_of_ne hane]
      by_cases hin : a ∈ ext
      · have hnot : a ∉ extr := fun hc =>
          absurd hin (not_mem_of_processed_false ext a a (hfree a hc).2.1 rfl rfl)
        rw [List.count_eq_zero_of_not_mem hnot, Nat.add_zero]
        exact h4 a hane
      · rw [List.count_eq_zero_of_not_mem hin, Nat.zero_add]
        exact hrE4 a
    · have hnot : node ∉ extr := fun hc => (hfree node hc).2.2 ⟨rfl, rfl⟩
      rw [List.count_append, List.count_cons_self, List.count_eq_zero_of_not_mem hnot]
      rw [List.length_cons] at h5
      omega
    · intro x hx hl hk
      rcases (hmem x).mp hx with hx | hx | hx
      · exact h6 x hx hl hk
      · exact hx
      · exact absurd ⟨hl.symm, hk.symm⟩ (hfree x hx).2.2
    · intro x hx
      exact absurd hx (List.not_mem_nil x)

theorem contributes_outer (fuel : Nat)
    (hS : ∀ (kind name ns status : String) (level : Int)
      (tree pl : List CompositionTreeNode),
      ∃ ext, (getCompositionFuel fuel kind name ns status level tree pl).2 = pl ++ ext ∧
        (getCompositionFuel fuel kind name ns status level tree pl).1.descendants.map
            (fun d => (d.1, d.2.1))
          = ext.map (fun n => (n.Level, n.ChildKind)) ∧
        (∀ a ∈ ext, attachedFor a
            (getCompositionFuel fuel kind name ns status level tree pl).1.descendants
          = a.Children.map (childLabel a)) ∧
        ContributesOnce tree pl ext)
    (tree pl : List CompositionTreeNode) (nodes : List CompositionTreeNode) :
    (∀ x ∈ nodes, x ∈ tree) →
    ∀ (st : GetCompositionState) (ext : List CompositionTreeNode),
      st.processedList = pl ++ ext →
      (Composition.descendantsList st.Children).map (fun d => (d.1, d.2.1))
        = ext.map (fun n => (n.Level, n.ChildKind)) →
      (∀ a ∈ ext, attachedFor a (Composition.descendantsList st.Children)
        = a.Children.map (childLabel a)) →
      ContributesOnce tree pl ext →
      (∀ x ∈ st.compositionTree, x ∈ tree) →
      ∃ ext2,
        (nodes.foldl (getCompositionOuter (getCompositionFuel fuel)) st).processedList
          = pl ++ ext2 ∧
        (Composition.descendantsList
            (nodes.foldl (getCompositionOuter (getCompositionFuel fuel)) st).Children).map
            (fun d => (d.1, d.2.1))
          = ext2.map (fun n => (n.Level, n.ChildKind)) ∧
        (∀ a ∈ ext2, attachedFor a (Composition.descendantsList
            (nodes.foldl (getCompositionOuter (getCompositionFuel fuel)) st).Children)
          = a.Children.map (childLabel a)) ∧
        ContributesOnce tree pl ext2 := by
  induction nodes with
  | nil =>
    intro _ st ext hpl hdesc hfil hc _
    exact ⟨ext, hpl, hdesc, hfil, hc⟩
  | cons node nodes ih =>
    intro hsub st ext hpl hdesc hfil hc hct
    rw [List.foldl_cons]
    have hsub2 : ∀ x ∈ nodes, x ∈ tree := fun x hx => hsub x (List.mem_cons_of_mem _ hx)
    by_cases hp : processed st.processedList node = true
    · have hstep : getCompositionOuter (getCompositionFuel fuel) st node = st := by
        unfold getCompositionOuter
        rw [if_pos hp]
      rw [hstep]
      exact ih hsub2 st ext hpl hdesc hfil hc hct
    · have hpf : processed st.processedList node = false := by
        cases hb : processed st.processedList node with
        | false => rfl
        | true => exact absurd hb hp
      have hstep : getCompositionOuter (getCompositionFuel fuel) st node
          = node.Children.foldl (getCompositionInner (getCompositionFuel fuel) node) st := by
        unfold getCompositionOuter
        rw [if_neg hp]
      rw [hstep]
      have hpf2 := hpf
      rw [hpl, processed_append, Bool.or_eq_false_iff] at hpf2
      obtain ⟨h1, h2, h3, h4⟩ := hc
      have hnot : node ∉ ext := not_mem_of_processed_false ext node node hpf2.2 rfl rfl
      obtain ⟨ext2, hpl2, hdesc2, hfil2, hc2, hct2⟩ :=
        contributes_inner fuel hS tree pl node (hsub node (List.mem_cons_self _ _)) hpf2.1
          node.Children st ext hpl hdesc (fun a ha _ => hfil a ha)
          (by rw [attachedFor_eq_nil node _ ext hdesc hpf2.2, List.nil_append])
          h1 h2 h3 (fun a _ => h4 a)
          (by rw [List.count_eq_zero_of_not_mem hnot, Nat.zero_add])
          (fun x hx hl hk => absurd hx (not_mem_of_processed_false ext x node hpf2.2 hl hk))
          hct
      exact ih hsub2 _ ext2 hpl2 hdesc2 hfil2 hc2 hct2

theorem contributes_fuel (fuel : Nat) :
    ∀ (kind name ns status : String) (level : Int) (tree pl : List CompositionTreeNode),
      ∃ ext, (getCompositionFuel fuel kind name ns status level tree pl).2 = pl ++ ext ∧
        (getCompositionFuel fuel kind name ns status level tree pl).1.descendants.map
            (fun d => (d.1, d.2.1))
          = ext.map (fun n => (n.Level, n.ChildKind)) ∧
        (∀ a ∈ ext, attachedFor a
            (getCompositionFuel fuel kind name ns status level tree pl).1.descendants
          = a.Children.map (childLabel a)) ∧
        ContributesOnce tree pl ext := by
  induction fuel with
  | zero =>
    intro kind name ns status level tree pl
    refine ⟨[], (List.append_nil pl).symm, rfl, ?_, ?_, ?_, ?_, ?_⟩
    · intro a ha; exact absurd ha (List.not_mem_nil a)
    · intro x hx; exact absurd hx (List.not_mem_nil x)
    · intro x hx; exact absurd hx (List.not_mem_nil x)
    · intro a ha; exact absurd ha (List.not_mem_nil a)
    · intro a; exact Nat.zero_le _
  | succ fuel ih =>
    intro kind name ns status level tree pl
    rw [getCompositionFuel_succ]
    have hnil : ContributesOnce tree pl [] :=
      ⟨fun x hx => absurd hx (List.not_mem_nil x), fun x hx => absurd hx (List.not_mem_nil x),
        fun a ha => absurd ha (List.not_mem_nil a), fun a => Nat.zero_le _⟩
    obtain ⟨ext, hpl, hdesc, hfil, hc⟩ := contributes_outer fuel ih tree pl tree
      (fun _ h => h) ⟨[], tree, pl⟩ [] (List.append_nil pl).symm rfl
      (fun a ha => absurd ha (List.not_mem_nil a)) hnil (fun _ h => h)
    exact ⟨ext, hpl, hdesc, hfil, hc⟩

theorem length_le_sum_of_count_le {α : Type} [DecidableEq α] (f : α → Nat) (l t : List α)
    (hsub : ∀ x ∈ l, x ∈ t) (hcount : ∀ a, l.count a ≤ f a) :
    l.length ≤ (t.map f).sum := by
  rw [← List.sum_map_count_dedup_eq_length l]
  have h1 : (l.dedup.map (fun x => l.count x)).sum ≤ (l.dedup.map f).sum :=
    List.sum_le_sum (fun x _ => hcount x)
  obtain ⟨l2, hperm, hsl⟩ := List.subperm_of_subset (List.nodup_dedup l)
    (fun x hx => hsub x (List.mem_dedup.mp hx))
  have h2 : (l.dedup.map f).sum = (l2.map f).sum := ((hperm.map f).sum_eq).symm
  have h3 : (l2.map f).sum ≤ (t.map f).sum :=
    List.Sublist.sum_le_sum (hsl.map f) (fun _ _ => Nat.zero_le _)
  omega

/-- C23: for every flat list and every root, `getComposition`, started with an empty
`*processedList`, returns (a bound on the depth of the recursion that is at least the
length of the flat list is never exhausted), and it counts no child entry twice.  The
final `*processedList` has one entry for each node below the root of the returned tree,
in the order of attachment and with its level and kind.  Its entries are nodes of the
flat list; a node occurs in it at most as often as it has children; and any two entries
with the same level and child kind are the same node, so at most one node of the flat
list contributes children for each pair of level and child kind.  For each node in the
final `*processedList`, the nodes of the returned tree that have its level and child
kind are exactly its child entries (level, child kind, name, namespace and status of the
entry), each entry once and in the order of the entries: so every node below the root
is one child entry of one contributing flat-list node, and no child entry appears more
often in the tree than in its flat-list node; for a flat-list node whose level and child
kind no entry of the final `*processedList` has, the tree has no node of that level and
kind.  Hence the number of nodes below the root is at most the total number of children
held by the flat list. -/
theorem getComposition_counts_once (kind name nspace status : String) (level : Int)
    (compositionTree : List CompositionTreeNode) :
    (∀ fuel, compositionTree.length ≤ fuel →
      getCompositionFuel fuel kind name nspace status level compositionTree []
        = getComposition kind name nspace status level compositionTree []) ∧
    (getComposition kind name nspace status level compositionTree []).1.descendants.map
        (fun d => (d.1, d.2.1))
      = (getComposition kind name nspace status level compositionTree []).2.map
          (fun n => (n.Level, n.ChildKind)) ∧
    (∀ a ∈ (getComposition kind name nspace status level compositionTree []).2,
      a ∈ compositionTree) ∧
    (∀ a, (getComposition kind name nspace status level compositionTree []).2.count a
      ≤ a.Children.length) ∧
    (∀ a ∈ (getComposition kind name nspace status level compositionTree []).2,
      ∀ b ∈ (getComposition kind name nspace status level compositionTree []).2,
      a.Level = b.Level → a.ChildKind = b.ChildKind → a = b) ∧
    (∀ a ∈ (getComposition kind name nspace status level compositionTree []).2,
      attachedFor a
          (getComposition kind name nspace status level compositionTree []).1.descendants
        = a.Children.map (childLabel a)) ∧
    (∀ b, processed (getComposition kind name nspace status level compositionTree []).2 b
        = false →
      attachedFor b
          (getComposition kind name nspace status level compositionTree []).1.descendants
        = []) ∧
    (getComposition kind name nspace status level compositionTree []).1.descendants.length
      ≤ (compositionTree.map (fun n => n.Children.length)).sum := by
  obtain ⟨ext, hpl, hdesc, hfil, h1, _, h3, h4⟩ := contributes_fuel compositionTree.length
    kind name nspace status level compositionTree []
  rw [List.nil_append] at hpl
  have hlen : (getCompositionFuel compositionTree.length kind name nspace status level
      compositionTree []).1.descendants.length = ext.length := by
    have := congrArg List.length hdesc
    rwa [List.length_map, List.length_map] at this
  have hnone : ∀ b, processed ext b = false →
      attachedFor b (getCompositionFuel compositionTree.length kind name nspace status level
        compositionTree []).1.descendants = [] :=
    fun b hb => attachedFor_eq_nil b _ ext hdesc hb
  unfold getComposition
  rw [hlen, hdesc, hpl]
  refine ⟨?_, rfl, h1, h4, h3, hfil, hnone, ?_⟩
  · intro fuel hfuel
    exact getCompositionFuel_stable fuel compositionTree.length kind name nspace status level
      compositionTree [] hfuel (Nat.le_refl _)
  · exact length_le_sum_of_count_le (fun n => n.Children.length) ext compositionTree h1 h4

/-- On `repeatedPairTree` the two nodes of level 1 and kind `ReplicaSet` hold three
children and the two nodes of level 2 and kind `Pod` hold two, and the returned tree has
three nodes below its root: the children of the first node of each pair. -/
theorem getComposition_repeatedPair :
    (getComposition "Deployment" "web" "default" "Ready" 0 repeatedPairTree []).1
      = .mk 0 "Deployment" "web" "default" "Ready"
          [.mk 1 "ReplicaSet" "rs-a" "default" "Ready"
            [.mk 2 "Pod" "pod-a" "default" "Running" []],
           .mk 1 "ReplicaSet" "rs-b" "default" "Ready" []] ∧
    (getComposition "Deployment" "web" "default" "Ready" 0 repeatedPairTree []).1.descendants
      = [(1, "ReplicaSet", "rs-a", "default", "Ready"), (2, "Pod", "pod-a", "default", "Running"),
         (1, "ReplicaSet", "rs-b", "default", "Ready")] ∧
    (getComposition "Deployment" "web" "default" "Ready" 0 repeatedPairTree []).2.dedup
      = [⟨2, "Pod", [⟨"pod-a", "Running", "default", "rs-a", "ReplicaSet", "apps/v1"⟩]⟩,
         ⟨1, "ReplicaSet", [⟨"rs-a", "Ready", "default", "web", "Deployment", "apps/v1"⟩,
            ⟨"rs-b", "Ready", "default", "web", "Deployment", "apps/v1"⟩]⟩] := by
  decide

end Discovery
